import Mathlib

/-!
# Verification of the grid formula engine

A shallow embedding of the repository's backend (`formula_parser.py`,
`dependency_graph.py`, `enhanced_formula_engine.py`) together with proofs
settling the frozen claims about it.

Conventions of the embedding:
* Python dicts become association lists (`List (k × v)`) in insertion order;
  Python sets become duplicate-free lists (`setInsert` appends only new
  elements).  Membership is the only observation the algorithms make of a
  set, so any fixed iteration order is a sound refinement of Python's
  unspecified set order.
* Python numbers at run time (the engine computes with `float`) are modelled
  as rationals `ℚ`; `float.is_integer()` becomes `q.den = 1`.
* Unbounded loops / recursions (the depth-first searches, Kahn's queue, the
  dirty-cell BFS) take an explicit fuel argument that is chosen large enough;
  sufficiency is proved where a claim depends on it.
-/

/- Batteries marks the `Rat` arithmetic `@[irreducible]`, which blocks
`decide` on the concrete evaluations below; restore the default
transparency (the kernel ignores reducibility attributes, so proofs are
unaffected). -/
set_option allowUnsafeReducibility true
attribute [local semireducible] Rat.add Rat.mul Rat.sub Rat.div Rat.neg Rat.inv

/-- A cell reference: column key and 1-based row, as in `dependency_graph.CellRef`. -/
structure CellRef where
  column : String
  row : Nat
deriving DecidableEq, Repr

/-- Python `set.add` on a duplicate-free list: append the element if new. -/
def setInsert (s : List CellRef) (x : CellRef) : List CellRef :=
  if x ∈ s then s else s ++ [x]

/-- Conversion of an arbitrary list to a Python set (first occurrences kept). -/
def listToSet (l : List CellRef) : List CellRef :=
  l.foldl setInsert []

theorem mem_setInsert (s : List CellRef) (x y : CellRef) :
    y ∈ setInsert s x ↔ y ∈ s ∨ y = x := by
  unfold setInsert
  by_cases h : x ∈ s <;> simp [h] <;> aesop

theorem setInsert_nodup {s : List CellRef} (h : s.Nodup) (x : CellRef) :
    (setInsert s x).Nodup := by
  unfold setInsert
  by_cases hx : x ∈ s
  · simpa [hx] using h
  · simp only [hx, if_false]
    rw [List.nodup_append]
    refine ⟨h, List.nodup_singleton x, ?_⟩
    intro a ha hax
    simp only [List.mem_singleton] at hax
    exact hx (hax ▸ ha)

theorem listToSet_nodup (l : List CellRef) : (listToSet l).Nodup := by
  unfold listToSet
  suffices h : ∀ acc : List CellRef, acc.Nodup → (l.foldl setInsert acc).Nodup from
    h [] List.nodup_nil
  induction l with
  | nil => intro acc h; simpa using h
  | cons a l ih => intro acc h; exact ih _ (setInsert_nodup h a)

theorem mem_listToSet (l : List CellRef) (x : CellRef) :
    x ∈ listToSet l ↔ x ∈ l := by
  unfold listToSet
  suffices h : ∀ acc : List CellRef, x ∈ l.foldl setInsert acc ↔ x ∈ acc ∨ x ∈ l by
    simpa using h []
  induction l with
  | nil => intro acc; simp
  | cons a l ih =>
    intro acc
    rw [List.foldl_cons, ih, mem_setInsert]
    aesop

/-! ## Formula parser (`formula_parser.py`) -/

/-- `FormulaParser._column_to_number`: base-26 alphabetic column value
(`A`=1 … `Z`=26, `AA`=27 …).  The source uppercases its input first. -/
def _column_to_number (col : String) : Nat :=
  (col.toList.map Char.toUpper).foldl (fun r c => r * 26 + (c.toNat - 64)) 0

/-- Loop of `FormulaParser._number_to_column`: while `num > 0`, prepend
`chr(ord('A') + (num-1) % 26)` and continue with `(num-1) // 26`.  The first
argument is fuel (structural, so that the kernel can evaluate the function);
`num` itself is always enough fuel since `num` strictly decreases. -/
def ntcLoop : Nat → Nat → List Char → List Char
  | 0, _, acc => acc
  | _ + 1, 0, acc => acc
  | fuel + 1, n + 1, acc => ntcLoop fuel (n / 26) (Char.ofNat (65 + n % 26) :: acc)

/-- `FormulaParser._number_to_column`. -/
def _number_to_column (num : Nat) : String :=
  String.mk (ntcLoop num num [])

/-- Inclusive integer range `[a..b]` (empty when `b < a`), as produced by
Python's `range(a, b+1)`. -/
def natRange (a b : Nat) : List Nat :=
  List.range' a (b + 1 - a)

/-- `FormulaParser._expand_range`: normalize the two corners (swap when out of
order) and emit every cell of the rectangle, column-major as in the source. -/
def _expand_range (start_col : String) (start_row : Nat)
    (end_col : String) (end_row : Nat) : List CellRef :=
  let s := _column_to_number start_col
  let e := _column_to_number end_col
  let p := if s > e then (e, s) else (s, e)
  let q := if start_row > end_row then (end_row, start_row) else (start_row, end_row)
  (natRange p.1 p.2).foldl
    (fun cells cn =>
      (natRange q.1 q.2).foldl
        (fun cells r => setInsert cells ⟨_number_to_column cn, r⟩) cells)
    []

/-- Python's `\w` character class (for the regex word boundary `\b`);
inputs here are ASCII. -/
def isWordChar (c : Char) : Bool :=
  c.isAlphanum || c = '_'

/-- One `[A-Z]` character (code points 65–90). -/
def isUpperAZ (c : Char) : Bool :=
  65 ≤ c.toNat && c.toNat ≤ 90

/-- Digits of a regex `\d+` group to the `int(...)` the source takes of it. -/
def digitsToNat (l : List Char) : Nat :=
  l.foldl (fun n c => n * 10 + (c.toNat - 48)) 0

/-- A non-empty greedy run of characters satisfying `p` (a regex `p+` group):
the run and the remaining input, or `none` if the run would be empty. -/
def takeGroup (p : Char → Bool) (l : List Char) :
    Option (List Char × List Char) :=
  if (l.takeWhile p).length = 0 then none
  else some (l.takeWhile p, l.drop (l.takeWhile p).length)

theorem takeGroup_length {p : Char → Bool} {l g r : List Char}
    (h : takeGroup p l = some (g, r)) : r.length < l.length := by
  unfold takeGroup at h
  split at h
  · exact absurd h (by simp)
  · rename_i hne
    simp only [Option.some.injEq, Prod.mk.injEq] at h
    obtain ⟨hg, hr⟩ := h
    subst hr
    have h1 : (l.takeWhile p).length ≤ l.length :=
      (List.takeWhile_prefix p).sublist.length_le
    rw [List.length_drop]
    omega

/-- A single literal character (a regex literal). -/
def expectChar (c : Char) : List Char → Option (List Char)
  | [] => none
  | a :: as => if a = c then some as else none

theorem expectChar_length {c : Char} {l r : List Char}
    (h : expectChar c l = some r) : r.length < l.length := by
  unfold expectChar at h
  cases l with
  | nil => exact absurd h (by simp)
  | cons a as =>
    by_cases hc : a = c
    · simp [hc] at h; subst h; simp
    · simp [hc] at h

/-- A trailing regex word boundary `\b` after a word character: satisfied at
end of input or before a non-word character. -/
def boundaryOk : List Char → Bool
  | [] => true
  | c :: _ => !isWordChar c

/-- Try to match `([A-Z]+)(\d+):([A-Z]+)(\d+)\b` at the head of `l` (the
leading `\b` is checked by the caller).  The regex never backtracks here:
each greedy run is followed by a character it cannot contain.  Returns the
four groups and the rest of the input after the match. -/
def matchRangeAt (l : List Char) :
    Option ((String × Nat × String × Nat) × List Char) :=
  match takeGroup isUpperAZ l with
  | none => none
  | some (c1, r1) =>
    match takeGroup Char.isDigit r1 with
    | none => none
    | some (d1, r2) =>
      match expectChar ':' r2 with
      | none => none
      | some r3 =>
        match takeGroup isUpperAZ r3 with
        | none => none
        | some (c2, r4) =>
          match takeGroup Char.isDigit r4 with
          | none => none
          | some (d2, r5) =>
            if boundaryOk r5 then
              some ((String.mk c1, digitsToNat d1, String.mk c2, digitsToNat d2), r5)
            else none

theorem matchRangeAt_length {l : List Char} {g : String × Nat × String × Nat}
    {rest : List Char} (h : matchRangeAt l = some (g, rest)) :
    rest.length < l.length := by
  unfold matchRangeAt at h
  split at h
  · exact absurd h (by simp)
  · rename_i c1 r1 h1
    split at h
    · exact absurd h (by simp)
    · rename_i d1 r2 h2
      split at h
      · exact absurd h (by simp)
      · rename_i r3 h3
        split at h
        · exact absurd h (by simp)
        · rename_i c2 r4 h4
          split at h
          · exact absurd h (by simp)
          · rename_i d2 r5 h5
            split at h
            · simp only [Option.some.injEq, Prod.mk.injEq] at h
              obtain ⟨hg, hr⟩ := h
              subst hr
              have k1 := takeGroup_length h1
              have k2 := takeGroup_length h2
              have k3 := expectChar_length h3
              have k4 := takeGroup_length h4
              have k5 := takeGroup_length h5
              omega
            · exact absurd h (by simp)

/-- Scan for `range_pattern.findall` and `range_pattern.sub('', ...)` in one
left-to-right pass: returns the matched groups (in order) and the input with
the matched spans deleted.  `prevWord` records whether the previous character
was a word character (for the leading `\b`).  The first argument is fuel;
the input length is always enough since every step consumes input. -/
def scanRangesF : Nat → Bool → List Char →
    List (String × Nat × String × Nat) × List Char
  | 0, _, l => ([], l)
  | _ + 1, _, [] => ([], [])
  | fuel + 1, prevWord, c :: cs =>
    if !prevWord && isUpperAZ c then
      match matchRangeAt (c :: cs) with
      | some (groups, rest) =>
        -- the match ends in a digit, a word character
        let p := scanRangesF fuel true rest
        (groups :: p.1, p.2)
      | none =>
        let p := scanRangesF fuel (isWordChar c) cs
        (p.1, c :: p.2)
    else
      let p := scanRangesF fuel (isWordChar c) cs
      (p.1, c :: p.2)

/-- Entry point of the range scan (fuel instantiated). -/
def scanRanges (prevWord : Bool) (l : List Char) :
    List (String × Nat × String × Nat) × List Char :=
  scanRangesF l.length prevWord l

/-- Try to match `([A-Z]+)(\d+)\b` at the head of `l`. -/
def matchCellAt (l : List Char) : Option ((String × Nat) × List Char) :=
  match takeGroup isUpperAZ l with
  | none => none
  | some (c1, r1) =>
    match takeGroup Char.isDigit r1 with
    | none => none
    | some (d1, r2) =>
      if boundaryOk r2 then some ((String.mk c1, digitsToNat d1), r2) else none

theorem matchCellAt_length {l : List Char} {g : String × Nat} {rest : List Char}
    (h : matchCellAt l = some (g, rest)) : rest.length < l.length := by
  unfold matchCellAt at h
  split at h
  · exact absurd h (by simp)
  · rename_i c1 r1 h1
    split at h
    · exact absurd h (by simp)
    · rename_i d1 r2 h2
      split at h
      · simp only [Option.some.injEq, Prod.mk.injEq] at h
        obtain ⟨hg, hr⟩ := h
        subst hr
        have k1 := takeGroup_length h1
        have k2 := takeGroup_length h2
        omega
      · exact absurd h (by simp)

/-- Scan for `cell_pattern.findall` (`\b([A-Z]+)(\d+)\b`), fuel-first. -/
def scanCellsF : Nat → Bool → List Char → List (String × Nat)
  | 0, _, _ => []
  | _ + 1, _, [] => []
  | fuel + 1, prevWord, c :: cs =>
    if !prevWord && isUpperAZ c then
      match matchCellAt (c :: cs) with
      | some (g, rest) => g :: scanCellsF fuel true rest
      | none => scanCellsF fuel (isWordChar c) cs
    else scanCellsF fuel (isWordChar c) cs

/-- Entry point of the cell scan (fuel instantiated). -/
def scanCells (prevWord : Bool) (l : List Char) : List (String × Nat) :=
  scanCellsF l.length prevWord l

/-- Python `str.upper` (ASCII). -/
def pyUpper (s : String) : String :=
  String.mk (s.toList.map Char.toUpper)

/-- Whether a string starts with the single character `c` (used for the
source's `str.startswith` tests on one-character prefixes). -/
def startsWithChar (s : String) (c : Char) : Bool :=
  match s.toList with
  | [] => false
  | a :: _ => a = c

/-- Python `str.strip` (ASCII whitespace). -/
def pyStrip (s : String) : String :=
  String.mk
    (((s.toList.dropWhile Char.isWhitespace).reverse.dropWhile
      Char.isWhitespace).reverse)

/-- `FormulaParser.extract_dependencies`: strip a leading `=`, find range
references on the uppercased text, expand them, delete the range spans, then
collect lone cell references.  Result is a set (duplicate-free list). -/
def extract_dependencies (formula : String) : List CellRef :=
  let formula := if startsWithChar formula '=' then formula.drop 1 else formula
  let up := (pyUpper formula).toList
  let scanned := scanRanges false up
  let rangeRefs := scanned.1.foldl
    (fun acc g => (_expand_range g.1 g.2.1 g.2.2.1 g.2.2.2).foldl setInsert acc) []
  (scanCells false scanned.2).foldl
    (fun acc g => setInsert acc ⟨g.1, g.2⟩) rangeRefs

/-! ## Claim C9: column letter → number → letter round-trip -/

theorem toUpper_eq_self {c : Char} (h : isUpperAZ c = true) :
    c.toUpper = c := by
  unfold isUpperAZ at h
  simp only [Bool.and_eq_true, decide_eq_true_eq] at h
  unfold Char.toUpper
  have : ¬(c.toNat ≥ 97 ∧ c.toNat ≤ 122) := by omega
  simp [this]

theorem ntcLoop_mul_add (fuel m d : Nat) (acc : List Char) (h1 : 1 ≤ d)
    (h2 : d ≤ 26) :
    ntcLoop (fuel + 1) (m * 26 + d) acc =
      ntcLoop fuel m (Char.ofNat (64 + d) :: acc) := by
  have hn : m * 26 + d = (m * 26 + (d - 1)) + 1 := by omega
  rw [hn]
  rw [ntcLoop]
  have hmod : (m * 26 + (d - 1)) % 26 = d - 1 := by
    rw [Nat.add_comm, Nat.add_mul_mod_self_right]
    omega
  have hdiv : (m * 26 + (d - 1)) / 26 = m := by
    rw [Nat.add_comm, Nat.add_mul_div_right (d - 1) m (by norm_num : (0:Nat) < 26),
      Nat.div_eq_of_lt (show d - 1 < 26 by omega), Nat.zero_add]
  rw [hmod, hdiv, show 65 + (d - 1) = 64 + d from by omega]

theorem ntcLoop_foldl (l : List Char) :
    ∀ (fuel : Nat) (acc : List Char), (∀ c ∈ l, isUpperAZ c = true) →
      l.foldl (fun r c => r * 26 + (c.toNat - 64)) 0 ≤ fuel →
      ntcLoop fuel (l.foldl (fun r c => r * 26 + (c.toNat - 64)) 0) acc =
        l ++ acc := by
  induction l using List.reverseRecOn with
  | nil =>
    intro fuel acc _ _
    simp only [List.foldl_nil, List.nil_append]
    cases fuel <;> rfl
  | append_singleton l c ih =>
    intro fuel acc hvalid hfuel
    have hc : isUpperAZ c = true := hvalid c (by simp)
    have hl : ∀ x ∈ l, isUpperAZ x = true := fun x hx => hvalid x (by simp [hx])
    have hcn : 65 ≤ c.toNat ∧ c.toNat ≤ 90 := by
      unfold isUpperAZ at hc
      simp only [Bool.and_eq_true, decide_eq_true_eq] at hc
      exact hc
    rw [List.foldl_append] at hfuel ⊢
    simp only [List.foldl_cons, List.foldl_nil] at hfuel ⊢
    obtain ⟨f, rfl⟩ : ∃ f, fuel = f + 1 := by
      cases fuel with
      | zero => exact absurd hfuel (by omega)
      | succ f => exact ⟨f, rfl⟩
    rw [ntcLoop_mul_add _ _ _ _ (by omega) (by omega)]
    have hch : Char.ofNat (64 + (c.toNat - 64)) = c := by
      have : 64 + (c.toNat - 64) = c.toNat := by omega
      rw [this, Char.ofNat_toNat]
    rw [hch, ih f (c :: acc) hl (by omega)]
    simp

/-- C9.  The column-letter-to-number mapping (base-26 alphabetic, `A`=1 …
`Z`=26, `AA`=27 …) and its inverse compose to the identity: for every string
of characters `A`–`Z`, `_number_to_column (_column_to_number s) = s`. -/
theorem C9_column_letter_roundtrip (s : String)
    (h : ∀ c ∈ s.toList, isUpperAZ c = true) :
    _number_to_column (_column_to_number s) = s := by
  unfold _column_to_number _number_to_column
  have hmap : s.toList.map Char.toUpper = s.toList := by
    have h1 : s.toList.map Char.toUpper = s.toList.map id :=
      List.map_congr_left fun c hc => toUpper_eq_self (h c hc)
    rw [h1, List.map_id]
  rw [hmap, ntcLoop_foldl s.toList _ [] h (Nat.le_refl _)]
  simp only [List.append_nil]
  cases s
  rfl

/-- Witness for C9: the round-trip at the concrete columns A, Z, AA, AZ, BA. -/
theorem C9_column_letter_roundtrip_witness :
    (∀ c ∈ ("AZ" : String).toList, isUpperAZ c = true) ∧
      _number_to_column (_column_to_number "A") = "A" ∧
      _number_to_column (_column_to_number "Z") = "Z" ∧
      _number_to_column (_column_to_number "AA") = "AA" ∧
      _number_to_column (_column_to_number "AZ") = "AZ" ∧
      _number_to_column (_column_to_number "BA") = "BA" :=
  ⟨by decide, C9_column_letter_roundtrip "A" (by decide),
    C9_column_letter_roundtrip "Z" (by decide),
    C9_column_letter_roundtrip "AA" (by decide),
    C9_column_letter_roundtrip "AZ" (by decide),
    C9_column_letter_roundtrip "BA" (by decide)⟩

/-! ## Claim C8: range expansion is symmetric in its corners -/

theorem swap_normalize (a b : Nat) :
    (if a > b then (b, a) else (a, b)) = (min a b, max a b) := by
  by_cases h : a > b
  · simp only [h, if_pos]
    have h1 : min a b = b := by omega
    have h2 : max a b = a := by omega
    rw [h1, h2]
  · simp only [h, if_neg, not_false_iff]
    have h1 : min a b = a := by omega
    have h2 : max a b = b := by omega
    rw [h1, h2]

/-- C8.  Range expansion is symmetric in its corner coordinates: for every
pair of corners, `_expand_range` yields the same set regardless of which
corner is written first, and in particular
`extract_dependencies "=SUM(A1:B2)"` = `{A1,A2,B1,B2}` =
`extract_dependencies "=SUM(B2:A1)"`. -/
theorem C8_range_expansion_symmetric :
    (∀ (c1 : String) (r1 : Nat) (c2 : String) (r2 : Nat),
      _expand_range c1 r1 c2 r2 = _expand_range c2 r2 c1 r1) ∧
    extract_dependencies "=SUM(A1:B2)" =
      [⟨"A", 1⟩, ⟨"A", 2⟩, ⟨"B", 1⟩, ⟨"B", 2⟩] ∧
    extract_dependencies "=SUM(B2:A1)" =
      [⟨"A", 1⟩, ⟨"A", 2⟩, ⟨"B", 1⟩, ⟨"B", 2⟩] := by
  refine ⟨?_, by decide, by decide⟩
  intro c1 r1 c2 r2
  unfold _expand_range
  simp only [swap_normalize]
  rw [Nat.min_comm (_column_to_number c2), Nat.max_comm (_column_to_number c2),
    Nat.min_comm r2, Nat.max_comm r2]

/-! ## Dependency graph (`dependency_graph.py`)

Python dicts are association lists in insertion order (`alSet` replaces in
place, appends new keys at the end, exactly like dict assignment); Python
sets are duplicate-free lists. -/

/-- A run-time value of the engine: Python `float` results are rationals,
error results are the `#...` sentinel strings. -/
inductive EvalResult where
  | num (q : ℚ)
  | err (s : String)
deriving DecidableEq, Repr

/-- `dependency_graph.FormulaNode`. -/
structure FormulaNode where
  cell_ref : CellRef
  formula : String
  dependencies : List CellRef
  dependents : List CellRef
  value : Option EvalResult := none
  is_evaluated : Bool := false
  has_error : Bool := false
  error_message : Option String := none
deriving DecidableEq, Repr

/-- Dictionary lookup. -/
def alLookup {κ α : Type} [DecidableEq κ] : List (κ × α) → κ → Option α
  | [], _ => none
  | (k', v) :: m, k => if k' = k then some v else alLookup m k

/-- Dictionary assignment (`d[k] = v`). -/
def alSet {κ α : Type} [DecidableEq κ] : List (κ × α) → κ → α → List (κ × α)
  | [], k, v => [(k, v)]
  | (k', v') :: m, k, v =>
    if k' = k then (k, v) :: m else (k', v') :: alSet m k v

/-- In-place mutation of the value stored under an existing key. -/
def alUpdate {κ α : Type} [DecidableEq κ] : List (κ × α) → κ → (α → α) → List (κ × α)
  | [], _, _ => []
  | (k', v') :: m, k, f =>
    if k' = k then (k', f v') :: m else (k', v') :: alUpdate m k f

/-- Dictionary deletion (`del d[k]`, a no-op when the key is absent — the
source guards its `del`s with `in` checks). -/
def alErase {κ α : Type} [DecidableEq κ] : List (κ × α) → κ → List (κ × α)
  | [], _ => []
  | (k', v) :: m, k => if k' = k then alErase m k else (k', v) :: alErase m k

/-- Read of a `defaultdict(set)` entry. -/
def adjGet (m : List (CellRef × List CellRef)) (k : CellRef) : List CellRef :=
  (alLookup m k).getD []

/-- `defaultdict(set)`: `m[k].add(x)`. -/
def adjAdd (m : List (CellRef × List CellRef)) (k : CellRef) (x : CellRef) :
    List (CellRef × List CellRef) :=
  match alLookup m k with
  | some _ => alUpdate m k (fun s => setInsert s x)
  | none => m ++ [(k, [x])]

/-- Python `set.discard`. -/
def setDiscard (s : List CellRef) (x : CellRef) : List CellRef :=
  s.filter (fun y => decide (y ≠ x))

/-- `defaultdict(set)`: `m[k].discard(x)` (the empty entry a `defaultdict`
read would create is unobservable and not modeled). -/
def adjDiscard (m : List (CellRef × List CellRef)) (k : CellRef) (x : CellRef) :
    List (CellRef × List CellRef) :=
  alUpdate m k (fun s => setDiscard s x)

/-- `dependency_graph.DependencyGraph`'s state. -/
structure DependencyGraph where
  nodes : List (CellRef × FormulaNode)
  adjacency_list : List (CellRef × List CellRef)
  reverse_adjacency_list : List (CellRef × List CellRef)
  _evaluation_order : List CellRef
  _dirty_cells : List CellRef
deriving DecidableEq, Repr

/-- `DependencyGraph.__init__`. -/
def initGraph : DependencyGraph :=
  { nodes := [], adjacency_list := [], reverse_adjacency_list := [],
    _evaluation_order := [], _dirty_cells := [] }

/-- `cell_ref in self.nodes`. -/
def isNode (g : DependencyGraph) (c : CellRef) : Bool :=
  (alLookup g.nodes c).isSome

/-- `list(self.nodes.keys())`. -/
def nodeKeys (g : DependencyGraph) : List CellRef :=
  g.nodes.map (fun p => p.1)

/-- `DependencyGraph._remove_node`.  The node object is re-read before the
second loop because the first loop can mutate it (when a node lists itself
as a dependency). -/
def _remove_node (g : DependencyGraph) (cell_ref : CellRef) : DependencyGraph :=
  match alLookup g.nodes cell_ref with
  | none => g
  | some node =>
    -- remove edges from dependencies
    let g := node.dependencies.foldl (fun g dep =>
      let g := { g with adjacency_list := adjDiscard g.adjacency_list dep cell_ref }
      if isNode g dep then
        { g with nodes := (alUpdate g.nodes dep
            (fun n => { n with dependents := setDiscard n.dependents cell_ref })) }
      else g) g
    let node2 := (alLookup g.nodes cell_ref).getD node
    -- remove edges to dependents
    let g := node2.dependents.foldl (fun g dependent =>
      let g := { g with reverse_adjacency_list :=
        (adjDiscard g.reverse_adjacency_list dependent cell_ref) }
      if isNode g dependent then
        { g with nodes := (alUpdate g.nodes dependent
            (fun n => { n with dependencies := setDiscard n.dependencies cell_ref })) }
      else g) g
    -- remove from the adjacency lists and the node map
    { g with adjacency_list := alErase g.adjacency_list cell_ref,
             reverse_adjacency_list := alErase g.reverse_adjacency_list cell_ref,
             nodes := alErase g.nodes cell_ref }

/-- Neighbor loop of the DFS in `_would_create_cycle`; `rec` is the recursive
visit at one fuel less.  Returns the cycle flag and the visited set. -/
def wcNeighbors (rec : CellRef → List CellRef → List CellRef → Bool × List CellRef) :
    List CellRef → List CellRef → List CellRef → Bool × List CellRef
  | [], visited, _ => (false, visited)
  | v :: vs, visited, stack =>
    if v ∉ visited then
      match rec v visited stack with
      | (true, vis) => (true, vis)
      | (false, vis) => wcNeighbors rec vs vis stack
    else if v ∈ stack then (true, visited)
    else wcNeighbors rec vs visited stack

/-- `has_cycle_dfs` of `_would_create_cycle`: mark the node visited, put it on
the recursion stack, scan its neighbors.  The recursion-stack removal at the
end of the Python function is implicit: the caller's `stack` is unchanged. -/
def wcVisit (adj : List (CellRef × List CellRef)) :
    Nat → CellRef → List CellRef → List CellRef → Bool × List CellRef
  | 0, _, visited, _ => (false, visited)
  | fuel + 1, node, visited, stack =>
    wcNeighbors (fun v vis st => wcVisit adj fuel v vis st)
      (adjGet adj node) (setInsert visited node) (setInsert stack node)

/-- The root loop of `_would_create_cycle` over `all_nodes`. -/
def wcLoop (adj : List (CellRef × List CellRef)) (fuel : Nat) :
    List CellRef → List CellRef → Bool
  | [], _ => false
  | n :: ns, visited =>
    if n ∉ visited then
      match wcVisit adj fuel n visited [] with
      | (true, _) => true
      | (false, vis) => wcLoop adj fuel ns vis
    else wcLoop adj fuel ns visited

/-- `DependencyGraph._would_create_cycle`: copy the adjacency lists, add the
hypothetical edges `dep → new_cell`, and run a DFS from every node. -/
def _would_create_cycle (g : DependencyGraph) (new_cell : CellRef)
    (dependencies : List CellRef) : Bool :=
  let temp := dependencies.foldl (fun a dep => adjAdd a dep new_cell) g.adjacency_list
  let all_nodes := nodeKeys g ++ (if isNode g new_cell then [] else [new_cell])
  wcLoop temp (all_nodes.length + 1) all_nodes []

/-- BFS loop of `DependencyGraph._mark_dirty`. -/
def markDirtyLoop (nodes : List (CellRef × FormulaNode)) :
    Nat → List CellRef → List CellRef → List CellRef
  | 0, _, dirty => dirty
  | _ + 1, [], dirty => dirty
  | fuel + 1, current :: queue, dirty =>
    if current ∈ dirty then markDirtyLoop nodes fuel queue dirty
    else
      let dirty := dirty ++ [current]
      let queue := queue ++
        (match alLookup nodes current with
         | some n => n.dependents
         | none => [])
      markDirtyLoop nodes fuel queue dirty

/-- Total length of all dependents lists (a fuel bound for the dirty BFS). -/
def totalDependents (nodes : List (CellRef × FormulaNode)) : Nat :=
  (nodes.map (fun p => p.2.dependents.length)).sum

/-- `DependencyGraph._mark_dirty`. -/
def _mark_dirty (g : DependencyGraph) (cell_ref : CellRef) : DependencyGraph :=
  { g with _dirty_cells :=
      (markDirtyLoop g.nodes (g.nodes.length + totalDependents g.nodes + 2)
        [cell_ref] g._dirty_cells) }

/-- In-degree of a formula node: its dependencies that are themselves
formula nodes (`_update_evaluation_order`, lines 256-261). -/
def countFormulaDeps (nodes : List (CellRef × FormulaNode)) (n : FormulaNode) : Int :=
  ((n.dependencies.filter (fun d => (alLookup nodes d).isSome)).length : Int)

/-- `in_degree[k]` (`defaultdict(int)`). -/
def idGet (m : List (CellRef × Int)) (k : CellRef) : Int :=
  (alLookup m k).getD 0

/-- Inner loop of Kahn's algorithm: decrement the in-degree of each formula
dependent of the popped node, enqueueing those that reach zero. -/
def kahnStep (nodes : List (CellRef × FormulaNode)) :
    List CellRef → List (CellRef × Int) → List CellRef →
      List (CellRef × Int) × List CellRef
  | [], indeg, queue => (indeg, queue)
  | d :: ds, indeg, queue =>
    if (alLookup nodes d).isSome then
      let v := idGet indeg d - 1
      let indeg := alSet indeg d v
      let queue := if v = 0 then queue ++ [d] else queue
      kahnStep nodes ds indeg queue
    else kahnStep nodes ds indeg queue

/-- Queue loop of Kahn's algorithm (`while queue: ...`). -/
def kahnLoop (nodes : List (CellRef × FormulaNode))
    (adj : List (CellRef × List CellRef)) :
    Nat → List CellRef → List (CellRef × Int) → List CellRef → List CellRef
  | 0, _, _, result => result
  | _ + 1, [], _, result => result
  | fuel + 1, current :: queue, indeg, result =>
    let p := kahnStep nodes (adjGet adj current) indeg queue
    kahnLoop nodes adj fuel p.2 p.1 (result ++ [current])

/-- `DependencyGraph._update_evaluation_order`.  The source stores the
(possibly partial) `result` in both branches of its final length check, so
the check is collapsed here. -/
def _update_evaluation_order (g : DependencyGraph) : List CellRef :=
  let formula_nodes := nodeKeys g
  if formula_nodes.isEmpty then []
  else
    let in_degree := g.nodes.map (fun p => (p.1, countFormulaDeps g.nodes p.2))
    let queue := formula_nodes.filter (fun n => decide (idGet in_degree n = 0))
    kahnLoop g.nodes g.adjacency_list (formula_nodes.length + 1) queue in_degree []

/-- `DependencyGraph.add_formula`. -/
def add_formula (g : DependencyGraph) (cell_ref : CellRef) (formula : String)
    (dependencies : List CellRef) : Bool × DependencyGraph :=
  -- the Python caller passes a set
  let dependencies := listToSet dependencies
  -- remove existing node if it exists
  let g := if isNode g cell_ref then _remove_node g cell_ref else g
  let node : FormulaNode :=
    { cell_ref := cell_ref, formula := formula,
      dependencies := dependencies, dependents := [] }
  -- check for circular dependencies before adding
  if _would_create_cycle g cell_ref dependencies then (false, g)
  else
    -- add node to graph
    let g := { g with nodes := alSet g.nodes cell_ref node }
    -- update adjacency lists and the dependents of existing dependencies
    let g := dependencies.foldl (fun g dep =>
      let g := { g with
        adjacency_list := adjAdd g.adjacency_list dep cell_ref,
        reverse_adjacency_list := adjAdd g.reverse_adjacency_list cell_ref dep }
      if isNode g dep then
        { g with nodes := (alUpdate g.nodes dep
            (fun n => { n with dependents := setInsert n.dependents cell_ref })) }
      else g) g
    -- mark this cell and its dependents as dirty
    let g := _mark_dirty g cell_ref
    -- recalculate evaluation order
    let g := { g with _evaluation_order := _update_evaluation_order g }
    (true, g)

/-- `DependencyGraph.get_evaluation_order` (the returned copy is modeled
separately for the aliasing claim). -/
def get_evaluation_order (g : DependencyGraph) : List CellRef :=
  g._evaluation_order

/-- `DependencyGraph.get_dirty_cells`. -/
def get_dirty_cells (g : DependencyGraph) : List CellRef :=
  g._dirty_cells

/-- `DependencyGraph.mark_cell_evaluated`. -/
def mark_cell_evaluated (g : DependencyGraph) (cell_ref : CellRef)
    (value : EvalResult) (has_error : Bool) (error_message : Option String) :
    DependencyGraph :=
  if isNode g cell_ref then
    { g with
      nodes := (alUpdate g.nodes cell_ref (fun n =>
        { n with value := some value, is_evaluated := true,
                 has_error := has_error, error_message := error_message })),
      _dirty_cells := setDiscard g._dirty_cells cell_ref }
  else g

/-- `current_path[current_path.index(neighbor):] + [neighbor]`. -/
def cycleFromStack (current_path : List CellRef) (neighbor : CellRef) :
    List CellRef :=
  current_path.dropWhile (fun x => decide (x ≠ neighbor)) ++ [neighbor]

/-- Neighbor loop of the DFS in `has_circular_dependency`; `cp` is the
`current_path` of the caller. -/
def dfsNeighbors
    (rec : CellRef → List CellRef → List CellRef → List CellRef →
      Option (List CellRef) × List CellRef) :
    List CellRef → List CellRef → List CellRef → List CellRef →
      Option (List CellRef) × List CellRef
  | [], _, visited, _ => (none, visited)
  | v :: vs, cp, visited, stack =>
    if v ∉ visited then
      match rec v cp visited stack with
      | (some c, vis) => (some c, vis)
      | (none, vis) => dfsNeighbors rec vs cp vis stack
    else if v ∈ stack then (some (cycleFromStack cp v), visited)
    else dfsNeighbors rec vs cp visited stack

/-- `dfs` of `has_circular_dependency`: `path` is the path argument, the
node is added to `visited` and the recursion stack, and the neighbors are
scanned with `current_path = path + [node]`. -/
def dfsVisit (adj : List (CellRef × List CellRef)) :
    Nat → CellRef → List CellRef → List CellRef → List CellRef →
      Option (List CellRef) × List CellRef
  | 0, _, _, visited, _ => (none, visited)
  | fuel + 1, node, path, visited, stack =>
    dfsNeighbors (fun v cp vis st => dfsVisit adj fuel v cp vis st)
      (adjGet adj node) (path ++ [node]) (setInsert visited node)
      (setInsert stack node)

/-- Root loop of `has_circular_dependency` over `self.nodes`. -/
def hcLoop (adj : List (CellRef × List CellRef)) (fuel : Nat) :
    List CellRef → List CellRef → Option (List CellRef)
  | [], _ => none
  | n :: ns, visited =>
    if n ∉ visited then
      match dfsVisit adj fuel n [] visited [] with
      | (some c, _) => some c
      | (none, vis) => hcLoop adj fuel ns vis
    else hcLoop adj fuel ns visited

/-- `DependencyGraph.has_circular_dependency`. -/
def has_circular_dependency (g : DependencyGraph) :
    Bool × Option (List CellRef) :=
  match hcLoop g.adjacency_list (g.nodes.length + 1) (nodeKeys g) [] with
  | some c => (true, some c)
  | none => (false, none)

/-- One recorded `add_formula` call. -/
structure AddOp where
  cell : CellRef
  formula : String
  deps : List CellRef
deriving Repr

/-- The graph resulting from a sequence of `add_formula` calls on a fresh
graph. -/
def applyOps (ops : List AddOp) : DependencyGraph :=
  ops.foldl (fun g op => (add_formula g op.cell op.formula op.deps).2) initGraph

/-- States of the graph reachable through the public `add_formula` API. -/
def Reachable (g : DependencyGraph) : Prop :=
  ∃ ops, g = applyOps ops

/-! ## Expression evaluator (`enhanced_formula_engine.py`, helper methods) -/

/-- A raw grid cell value as delivered by the JSON transport: number, string,
or null. -/
inductive Value where
  | num (q : ℚ)
  | str (s : String)
  | none
deriving DecidableEq, Repr

/-- One grid row: a dict from column key to cell value. -/
abbrev Row := List (String × Value)

/-- `row.get(k, default)`. -/
def rowGet (r : Row) (k : String) (dflt : Value) : Value :=
  (alLookup r k).getD dflt

/-- `row[k] = v`. -/
def rowSet (r : Row) (k : String) (v : Value) : Row :=
  alSet r k v

/-- One column of the caller-supplied schema. -/
structure ColumnDef where
  key : String
  title : String
deriving DecidableEq, Repr

/-- Python truthiness of a cell value (`0`, `0.0`, `""`, `None` are falsy). -/
def pyTruthy : Value → Bool
  | .num q => decide (q ≠ 0)
  | .str s => decide (s ≠ "")
  | .none => false

/-- Python `str(value)`.  The decimal rendering of non-integral floats is
abstracted (it is non-empty and contains no whitespace, which is all the
engine observes of it through `str(value).strip()`). -/
def pyStr : Value → String
  | .num q => if q.den = 1 then toString q.num else toString q
  | .str s => s
  | .none => "None"

/-- Python `float(s)` restricted to plain decimal literals
(`[+-]? digits [. digits]`, at least one digit); the engine only ever parses
cleaned digit strings and user literals of this shape.  `none` models a
`ValueError`. -/
def parseDecimal (l : List Char) : Option ℚ :=
  let sp : ℚ × List Char :=
    match l with
    | '-' :: rest => (-1, rest)
    | '+' :: rest => (1, rest)
    | _ => (1, l)
  let ip := sp.2.takeWhile Char.isDigit
  let r := sp.2.drop ip.length
  match r with
  | [] => if ip.isEmpty then Option.none else some (sp.1 * digitsToNat ip)
  | '.' :: fp' =>
    let fp := fp'.takeWhile Char.isDigit
    let r2 := fp'.drop fp.length
    if r2.isEmpty && !(ip.isEmpty && fp.isEmpty) then
      some (sp.1 * ((digitsToNat ip : ℚ) +
        (digitsToNat fp : ℚ) / ((10 : ℚ) ^ fp.length)))
    else Option.none
  | _ => Option.none

/-- `float(s)` on a string. -/
def pyFloat? (s : String) : Option ℚ :=
  parseDecimal s.toList

/-- `EnhancedFormulaEngine._get_numeric_value`: numbers pass through, strings
are stripped to `[0-9.\-]` and parsed (`0` on failure or emptiness), anything
else is `0`. -/
def _get_numeric_value (v : Value) : ℚ :=
  match v with
  | .num q => q
  | .str s =>
    let cleaned := s.toList.filter (fun c => c.isDigit || c = '.' || c = '-')
    if cleaned.isEmpty then 0
    else
      match parseDecimal cleaned with
      | some q => q
      | Option.none => 0
  | .none => 0

/-- `EnhancedFormulaEngine._format_number`: integral values render without a
decimal point. -/
def _format_number (q : ℚ) : String :=
  if q.den = 1 then toString q.num else toString q

/-- `EnhancedFormulaEngine._find_column_by_letter`: linear search for a
column whose key equals the letter. -/
def _find_column_by_letter (letter : String) (columns : List ColumnDef) :
    Option ColumnDef :=
  columns.find? (fun c => c.key == letter)

/-- `EnhancedFormulaEngine._letter_to_column_key`. -/
def _letter_to_column_key (letter : String) (columns : List ColumnDef) :
    Option String :=
  (_find_column_by_letter letter columns).map (fun c => c.key)

/-- `data_context[row_index]` after a bounds check. -/
def listGetRow (data : List Row) (i : Nat) : Row :=
  (data.get? i).getD []

/-- `EnhancedFormulaEngine._get_cell_value`: `0` for out-of-range rows or
unknown columns, otherwise the numeric coercion of the cell. -/
def _get_cell_value (col_ref : String) (row_index : Int) (data : List Row)
    (columns : List ColumnDef) : ℚ :=
  if row_index < 0 || row_index ≥ (data.length : Int) then 0
  else
    match _find_column_by_letter col_ref columns with
    | Option.none => 0
    | some column =>
      _get_numeric_value (rowGet (listGetRow data row_index.toNat) column.key (.num 0))

/-- Full-string match of `^([A-Z]+)(\d+)$`. -/
def matchFullCell (s : String) : Option (String × Nat) :=
  let l := s.toList
  let c1 := l.takeWhile isUpperAZ
  let r := l.drop c1.length
  let d1 := r.takeWhile Char.isDigit
  if !c1.isEmpty && !d1.isEmpty && (r.drop d1.length).isEmpty then
    some (String.mk c1, digitsToNat d1)
  else Option.none

/-- Full-string match of `^([A-Z]+)(\d+):([A-Z]+)(\d+)$`. -/
def matchFullRange (s : String) : Option (String × Nat × String × Nat) :=
  match takeGroup isUpperAZ s.toList with
  | Option.none => Option.none
  | some (c1, r1) =>
    match takeGroup Char.isDigit r1 with
    | Option.none => Option.none
    | some (d1, r2) =>
      match expectChar ':' r2 with
      | Option.none => Option.none
      | some r3 =>
        match takeGroup isUpperAZ r3 with
        | Option.none => Option.none
        | some (c2, r4) =>
          match takeGroup Char.isDigit r4 with
          | Option.none => Option.none
          | some (d2, r5) =>
            if r5.isEmpty then
              some (String.mk c1, digitsToNat d1, String.mk c2, digitsToNat d2)
            else Option.none

/-- `EnhancedFormulaEngine._parse_value`: a cell reference or a numeric
coercion of the text. -/
def _parse_value (value : String) (data : List Row)
    (columns : List ColumnDef) : ℚ :=
  match matchFullCell value with
  | some (col, row) => _get_cell_value col ((row : Int) - 1) data columns
  | Option.none => _get_numeric_value (.str value)

/-- `EnhancedFormulaEngine._perform_arithmetic`. -/
def _perform_arithmetic (left : ℚ) (operator : Char) (right : ℚ) : EvalResult :=
  if operator = '+' then .num (left + right)
  else if operator = '-' then .num (left - right)
  else if operator = '*' then .num (left * right)
  else if operator = '/' then
    if right ≠ 0 then .num (left / right) else .err "#DIV/0!"
  else .err "#ERROR!"

/-- Prefix match of `([A-Z]+)\(([^)]+)\)` (`re.match` anchors only at the
start; trailing input is ignored). -/
def matchFuncCall (s : String) : Option (String × String) :=
  let l := s.toList
  let name := l.takeWhile isUpperAZ
  let r := l.drop name.length
  if name.isEmpty then Option.none
  else
    match r with
    | '(' :: rest =>
      let args := rest.takeWhile (fun c => decide (c ≠ ')'))
      let r2 := rest.drop args.length
      if args.isEmpty then Option.none
      else
        match r2 with
        | ')' :: _ => some (String.mk name, String.mk args)
        | _ => Option.none
    | _ => Option.none

/-- One of `+ - * /`. -/
def isOpChar (c : Char) : Bool :=
  c = '+' || c = '-' || c = '*' || c = '/'

/-- The split performed by `^(.+?)([\+\-\*\/])(.+?)$`: both lazy groups and
the anchors make the match split at the first operator occurrence that
leaves both sides non-empty. -/
def findFirstOp (acc : List Char) : List Char → Option (List Char × Char × List Char)
  | [] => Option.none
  | c :: cs =>
    if isOpChar c && !acc.isEmpty && !cs.isEmpty then some (acc.reverse, c, cs)
    else findFirstOp (c :: acc) cs

/-- Match of the arithmetic rule, giving `(left, operator, right)`. -/
def matchArithmetic (s : String) : Option (String × Char × String) :=
  match findFirstOp [] s.toList with
  | some (lft, op, rgt) => some (String.mk lft, op, String.mk rgt)
  | Option.none => Option.none

/-- Integer `range(a, b)` (Python semantics, possibly negative bounds). -/
def rangeInt (a b : Int) : List Int :=
  (List.range (b - a).toNat).map (fun k => a + Int.ofNat k)

/-- The row indices a range loop visits:
`range(start_row_idx, min(end_row_idx + 1, len(data)))` with the `i >= 0`
guard of the loop bodies. -/
def rowsClipped (sri eri : Int) (len : Nat) : List Int :=
  (rangeInt sri (min (eri + 1) (len : Int))).filter (fun i => decide (0 ≤ i))

/-- Python `args_str.split(',')`. -/
def splitChar (sep : Char) : List Char → List (List Char)
  | [] => [[]]
  | c :: cs =>
    let r := splitChar sep cs
    if c = sep then [] :: r
    else
      match r with
      | h :: t => (c :: h) :: t
      | [] => [[c]]

/-- `[ref.strip() for ref in args_str.split(',')]`. -/
def splitComma (s : String) : List String :=
  (splitChar ',' s.toList).map (fun l => pyStrip (String.mk l))

/-- Sum loop of the `SUM` range branch (rows outer, columns inner, rows
clipped to the data length, negative rows skipped, missing cells coerce
to 0). -/
def sumRange (sci eci : Nat) (sri eri : Int) (data : List Row)
    (columns : List ColumnDef) : ℚ :=
  (rowsClipped sri eri data.length).foldl
    (fun tot ri =>
      (natRange sci eci).foldl
        (fun tot ci =>
          tot + _get_cell_value (String.mk [Char.ofNat (65 + ci)]) ri data columns)
        tot)
    0

/-- Accumulating loop of the `SUM` comma branch: each element is a cell
reference or a float literal; anything else aborts with `#ERROR!`. -/
def sumParts (data : List Row) (columns : List ColumnDef) :
    List String → ℚ → EvalResult
  | [], acc => .num acc
  | p :: ps, acc =>
    match matchFullCell p with
    | some (col, row) =>
      sumParts data columns ps (acc + _get_cell_value col ((row : Int) - 1) data columns)
    | Option.none =>
      match pyFloat? p with
      | some q => sumParts data columns ps (acc + q)
      | Option.none => .err "#ERROR!"

/-- `EnhancedFormulaEngine._calculate_sum`.  `ord()` on a multi-letter
column raises `TypeError`, which the enclosing handler turns into
`#ERROR!`. -/
def _calculate_sum (args_str : String) (data : List Row)
    (columns : List ColumnDef) : EvalResult :=
  let args_str := pyStrip args_str
  match matchFullRange args_str with
  | some (sc, sr, ec, er) =>
    if sc.toList.length ≠ 1 || ec.toList.length ≠ 1 then .err "#ERROR!"
    else
      let sci := (sc.toList.headD 'A').toNat - 65
      let eci := (ec.toList.headD 'A').toNat - 65
      .num (sumRange sci eci ((sr : Int) - 1) ((er : Int) - 1) data columns)
  | Option.none =>
    if args_str.toList.contains ',' then
      sumParts data columns (splitComma args_str) 0
    else
      match matchFullCell args_str with
      | some (col, row) =>
        .num (_get_cell_value col ((row : Int) - 1) data columns)
      | Option.none =>
        match pyFloat? args_str with
        | some q => .num q
        | Option.none => .err "#ERROR!"

/-- `EnhancedFormulaEngine._calculate_average`.  The range element count
uses the raw (unclipped) corner coordinates. -/
def _calculate_average (args_str : String) (data : List Row)
    (columns : List ColumnDef) : EvalResult :=
  let args_str := pyStrip args_str
  match matchFullRange args_str with
  | some (sc, sr, ec, er) =>
    match _calculate_sum args_str data columns with
    | .err e => .err e
    | .num total =>
      if sc.toList.length ≠ 1 || ec.toList.length ≠ 1 then .err "#ERROR!"
      else
        let sci : Int := ((sc.toList.headD 'A').toNat : Int) - 65
        let eci : Int := ((ec.toList.headD 'A').toNat : Int) - 65
        let count : Int := (eci - sci + 1) * ((er : Int) - (sr : Int) + 1)
        if count > 0 then .num (total / (count : ℚ)) else .err "#DIV/0!"
  | Option.none =>
    if args_str.toList.contains ',' then
      match sumParts data columns (splitComma args_str) 0 with
      | .err e => .err e
      | .num total =>
        let count := (splitComma args_str).length
        if count > 0 then .num (total / (count : ℚ)) else .err "#DIV/0!"
    else
      match matchFullCell args_str with
      | some _ => _calculate_sum args_str data columns
      | Option.none =>
        match pyFloat? args_str with
        | some q => .num q
        | Option.none => .err "#ERROR!"

/-- The values visited by the `MIN`/`MAX` loops (first corner's column only,
missing cells coerce via `.get(key, 0)`). -/
def rangeValues (key : String) (sri eri : Int) (data : List Row) : List ℚ :=
  (rowsClipped sri eri data.length).map
    (fun i => _get_numeric_value (rowGet (listGetRow data i.toNat) key (.num 0)))

/-- `EnhancedFormulaEngine._calculate_min`. -/
def _calculate_min (range_str : String) (data : List Row)
    (columns : List ColumnDef) : EvalResult :=
  match matchFullRange (pyStrip range_str) with
  | Option.none => .err "#ERROR!"
  | some (sc, sr, _ec, er) =>
    match _find_column_by_letter sc columns with
    | Option.none => .err "#ERROR!"
    | some column =>
      match rangeValues column.key ((sr : Int) - 1) ((er : Int) - 1) data with
      | [] => .num 0
      | v :: vs => .num (vs.foldl min v)

/-- `EnhancedFormulaEngine._calculate_max`. -/
def _calculate_max (range_str : String) (data : List Row)
    (columns : List ColumnDef) : EvalResult :=
  match matchFullRange (pyStrip range_str) with
  | Option.none => .err "#ERROR!"
  | some (sc, sr, _ec, er) =>
    match _find_column_by_letter sc columns with
    | Option.none => .err "#ERROR!"
    | some column =>
      match rangeValues column.key ((sr : Int) - 1) ((er : Int) - 1) data with
      | [] => .num 0
      | v :: vs => .num (vs.foldl max v)

/-- The cell-counting condition of `COUNT`:
`if value and str(value).strip()` — the value must be truthy *and* its
stringification must be non-empty after stripping. -/
def countCond (v : Value) : Bool :=
  pyTruthy v && decide (pyStrip (pyStr v) ≠ "")

/-- `EnhancedFormulaEngine._calculate_count` (first corner's column only,
missing cells default to `''`). -/
def _calculate_count (range_str : String) (data : List Row)
    (columns : List ColumnDef) : EvalResult :=
  match matchFullRange (pyStrip range_str) with
  | Option.none => .err "#ERROR!"
  | some (sc, sr, _ec, er) =>
    match _find_column_by_letter sc columns with
    | Option.none => .err "#ERROR!"
    | some column =>
      .num ((rowsClipped ((sr : Int) - 1) ((er : Int) - 1) data.length).foldl
        (fun count i =>
          if countCond (rowGet (listGetRow data i.toNat) column.key (.str "")) then
            count + 1
          else count)
        0)

/-- `EnhancedFormulaEngine._evaluate_formula`: function call, bare cell
reference, single binary arithmetic, numeric literal, `#ERROR!` — first
match wins. -/
def _evaluate_formula (formula : String) (data : List Row)
    (columns : List ColumnDef) : EvalResult :=
  let expression := pyStrip (pyUpper (formula.drop 1))
  if expression = "" then .err "#ERROR!"
  else
    match matchFuncCall expression with
    | some (fname, args) =>
      if fname = "SUM" then _calculate_sum args data columns
      else if fname = "AVERAGE" then _calculate_average args data columns
      else if fname = "MIN" then _calculate_min args data columns
      else if fname = "MAX" then _calculate_max args data columns
      else if fname = "COUNT" then _calculate_count args data columns
      else .err "#NAME?"
    | Option.none =>
      match matchFullCell expression with
      | some (col, row) => .num (_get_cell_value col ((row : Int) - 1) data columns)
      | Option.none =>
        match matchArithmetic expression with
        | some (lft, op, rgt) =>
          let left_value := _parse_value (pyStrip lft) data columns
          let right_value := _parse_value (pyStrip rgt) data columns
          _perform_arithmetic left_value op right_value
        | Option.none =>
          match pyFloat? expression with
          | some q => .num q
          | Option.none => .err "#ERROR!"

/-! ## Evaluation orchestrator (`EnhancedFormulaEngine`) -/

/-- `CellRef.__str__`. -/
def cellRefStr (c : CellRef) : String :=
  c.column ++ toString c.row

/-- `' -> '.join(str(cell) for cell in cycle_path)`. -/
def joinArrow (l : List CellRef) : String :=
  String.intercalate " -> " (l.map cellRefStr)

/-- `EnhancedFormulaEngine._validate_dependencies`.  The source's column
check compares a bound method object (always truthy), so only the row-range
check actually filters. -/
def _validate_dependencies (dependencies : List CellRef) (data : List Row) :
    List CellRef :=
  dependencies.filter (fun dep => decide (1 ≤ dep.row ∧ dep.row ≤ data.length))

/-- Python falsiness of an optional column key (`if not column_key`). -/
def optFalsy : Option String → Bool
  | Option.none => true
  | some s => s == ""

/-- `EnhancedFormulaEngine._build_dependency_graph`: scan every row and
column, add each `=`-cell's formula to a fresh graph, and record a
circular-dependency error for every rejected add. -/
def _build_dependency_graph (data : List Row) (columns : List ColumnDef) :
    DependencyGraph × List (String × String) :=
  data.enum.foldl
    (fun acc rowp =>
      columns.foldl
        (fun acc column =>
          match rowGet rowp.2 column.key (.str "") with
          | .str s =>
            if startsWithChar s '=' then
              let cell_ref : CellRef := ⟨column.key, rowp.1 + 1⟩
              let dependencies := extract_dependencies s
              let mapped_dependencies := dependencies.foldl
                (fun m dep =>
                  match _letter_to_column_key dep.column columns with
                  | some mapped_key => setInsert m ⟨mapped_key, dep.row⟩
                  | Option.none => m)
                []
              let valid_dependencies := _validate_dependencies mapped_dependencies data
              let r := add_formula acc.1 cell_ref s valid_dependencies
              if r.1 then (r.2, acc.2)
              else
                (r.2, alSet acc.2 (toString rowp.1 ++ "-" ++ column.key)
                  "Circular dependency detected")
            else acc
          | _ => acc)
        acc)
    (initGraph, [])

/-- The result dict of `evaluate_formulas` (the fields the claims are
about; the `stats` sub-dict is reporting only and not modeled). -/
structure EvalOutcome where
  success : Bool
  data : List Row
  error : Option String := Option.none
  message : String := ""
  cell_errors : List (String × String) := []
deriving DecidableEq, Repr

/-- Error results are stored verbatim when they are strings starting
with `#`. -/
def isErrHash : EvalResult → Bool
  | .err s => startsWithChar s '#'
  | .num _ => false

/-- The text written back into the grid for a non-`#` result
(`_format_number`; its string branch returns the string itself). -/
def formatEvalResult : EvalResult → String
  | .num q => _format_number q
  | .err s => s

/-- State of the evaluation loop of `evaluate_formulas`: the working grid
copy, the per-cell error dict, the evaluated counter, and the graph (whose
nodes record evaluation results). -/
structure LoopState where
  new_data : List Row
  cell_errors : List (String × String)
  evaluated : Nat
  g : DependencyGraph
deriving Repr

/-- Body of `for cell_ref in evaluation_order` in `evaluate_formulas`. -/
def evalCell (columns : List ColumnDef) (st : LoopState) (cell_ref : CellRef) :
    LoopState :=
  match alLookup st.g.nodes cell_ref with
  | Option.none => st  -- unreachable: the stored order only lists node keys
  | some node =>
    if node.is_evaluated then st  -- cached
    else
      let row_index : Int := (cell_ref.row : Int) - 1
      let column_key := _letter_to_column_key cell_ref.column columns
      if row_index < 0 || row_index ≥ (st.new_data.length : Int) ||
          optFalsy column_key then
        let cell_key := toString row_index ++ "-" ++ cell_ref.column
        { st with cell_errors := alSet st.cell_errors cell_key "Invalid cell reference" }
      else
        let ck := column_key.getD ""
        let result := _evaluate_formula node.formula st.new_data columns
        let cell_key := toString row_index ++ "-" ++ ck
        if isErrHash result then
          { st with
            new_data := st.new_data.set row_index.toNat
              (rowSet (listGetRow st.new_data row_index.toNat) ck
                (.str (formatEvalResult result))),
            g := mark_cell_evaluated st.g cell_ref result true
              (some (formatEvalResult result)),
            cell_errors := alSet st.cell_errors cell_key (formatEvalResult result) }
        else
          { st with
            new_data := st.new_data.set row_index.toNat
              (rowSet (listGetRow st.new_data row_index.toNat) ck
                (.str (formatEvalResult result))),
            g := mark_cell_evaluated st.g cell_ref result false Option.none,
            evaluated := st.evaluated + 1 }

/-- `EnhancedFormulaEngine.evaluate_formulas`: build the graph, abort on a
detected cycle with the original grid, otherwise evaluate in topological
order into a copy of the grid and merge the error dicts. -/
def evaluate_formulas (data : List Row) (columns : List ColumnDef) :
    EvalOutcome :=
  let bg := _build_dependency_graph data columns
  let g := bg.1
  let circular_dependency_errors := bg.2
  let hc := has_circular_dependency g
  if hc.1 then
    let cycle_path := hc.2.getD []
    let cycle_str := if cycle_path.isEmpty then "Unknown" else joinArrow cycle_path
    let cycle_errors := cycle_path.foldl
      (fun m cell_ref =>
        let row_index : Int := (cell_ref.row : Int) - 1
        if 0 ≤ row_index && row_index < (data.length : Int) then
          alSet m (toString row_index ++ "-" ++ cell_ref.column)
            ("Circular dependency: " ++ cycle_str)
        else m)
      []
    { success := false,
      error := some ("Circular dependency detected: " ++ cycle_str),
      message := "Circular dependencies must be resolved before evaluation",
      cell_errors := cycle_errors,
      data := data }
  else
    let evaluation_order := get_evaluation_order g
    let final := evaluation_order.foldl (evalCell columns)
      { new_data := data, cell_errors := [], evaluated := 0, g := g }
    { success := true,
      data := final.new_data,
      message := "Evaluated " ++ toString final.evaluated ++ " formulas successfully",
      cell_errors := final.cell_errors.foldl
        (fun m p => alSet m p.1 p.2) circular_dependency_errors,
      error := Option.none }

/-! ## Association-list lemmas -/

theorem alLookup_alSet_self {κ α : Type} [DecidableEq κ]
    (m : List (κ × α)) (k : κ) (v : α) : alLookup (alSet m k v) k = some v := by
  induction m with
  | nil => simp [alSet, alLookup]
  | cons p m ih =>
    obtain ⟨k', v'⟩ := p
    by_cases h : k' = k
    · subst h
      simp [alSet, alLookup]
    · simp only [alSet, h, if_false, alLookup]
      exact ih

theorem alLookup_alSet_ne {κ α : Type} [DecidableEq κ]
    (m : List (κ × α)) (k k' : κ) (v : α) (h : k ≠ k') :
    alLookup (alSet m k v) k' = alLookup m k' := by
  induction m with
  | nil => simp [alSet, alLookup, h]
  | cons p m ih =>
    obtain ⟨k0, v0⟩ := p
    by_cases h0 : k0 = k
    · subst h0
      simp only [alSet, if_pos rfl, alLookup, if_neg h]
    · simp only [alSet, h0, if_false, alLookup]
      by_cases h1 : k0 = k'
      · simp [h1]
      · rw [if_neg h1, if_neg h1]
        exact ih

theorem alLookup_alUpdate_self {κ α : Type} [DecidableEq κ]
    (m : List (κ × α)) (k : κ) (f : α → α) :
    alLookup (alUpdate m k f) k = (alLookup m k).map f := by
  induction m with
  | nil => simp [alUpdate, alLookup]
  | cons p m ih =>
    obtain ⟨k', v'⟩ := p
    by_cases h : k' = k
    · subst h
      simp [alUpdate, alLookup]
    · simp only [alUpdate, h, if_false, alLookup, if_neg h]
      exact ih

theorem alLookup_alUpdate_ne {κ α : Type} [DecidableEq κ]
    (m : List (κ × α)) (k k' : κ) (f : α → α) (h : k ≠ k') :
    alLookup (alUpdate m k f) k' = alLookup m k' := by
  induction m with
  | nil => simp [alUpdate, alLookup]
  | cons p m ih =>
    obtain ⟨k0, v0⟩ := p
    by_cases h0 : k0 = k
    · subst h0
      simp only [alUpdate, if_pos rfl, alLookup, if_neg h]
    · simp only [alUpdate, h0, if_false, alLookup]
      by_cases h1 : k0 = k'
      · simp [h1]
      · rw [if_neg h1, if_neg h1]
        exact ih

theorem alLookup_alErase_self {κ α : Type} [DecidableEq κ]
    (m : List (κ × α)) (k : κ) : alLookup (alErase m k) k = Option.none := by
  induction m with
  | nil => simp [alErase, alLookup]
  | cons p m ih =>
    obtain ⟨k', v'⟩ := p
    by_cases h : k' = k
    · simpa [alErase, h] using ih
    · simp only [alErase, h, if_false, alLookup, if_neg h]
      exact ih

theorem alLookup_alErase_ne {κ α : Type} [DecidableEq κ]
    (m : List (κ × α)) (k k' : κ) (h : k ≠ k') :
    alLookup (alErase m k) k' = alLookup m k' := by
  induction m with
  | nil => simp [alErase, alLookup]
  | cons p m ih =>
    obtain ⟨k0, v0⟩ := p
    by_cases h0 : k0 = k
    · subst h0
      simp only [alErase, if_pos rfl, alLookup, if_neg h]
      exact ih
    · simp only [alErase, h0, if_false, alLookup]
      by_cases h1 : k0 = k'
      · simp [h1]
      · rw [if_neg h1, if_neg h1]
        exact ih

theorem alLookup_append {κ α : Type} [DecidableEq κ]
    (m m' : List (κ × α)) (k : κ) :
    alLookup (m ++ m') k =
      ((alLookup m k).rec (alLookup m' k) (fun v => some v) : Option α) := by
  induction m with
  | nil => simp [alLookup]
  | cons p m ih =>
    obtain ⟨k', v'⟩ := p
    by_cases h : k' = k
    · simp [alLookup, h]
    · simp only [List.cons_append, alLookup, if_neg h]
      exact ih

theorem alLookup_isSome_iff_mem {κ α : Type} [DecidableEq κ]
    (m : List (κ × α)) (k : κ) :
    (alLookup m k).isSome = true ↔ k ∈ m.map (fun p => p.1) := by
  induction m with
  | nil => simp [alLookup]
  | cons p m ih =>
    obtain ⟨k', v'⟩ := p
    by_cases h : k' = k
    · simp [alLookup, h]
    · simp only [alLookup, if_neg h, List.map_cons, List.mem_cons]
      rw [ih]
      constructor
      · exact fun hm => Or.inr hm
      · rintro (hk | hm)
        · exact absurd hk.symm h
        · exact hm

theorem alLookup_mem {κ α : Type} [DecidableEq κ]
    {m : List (κ × α)} {k : κ} {v : α} (h : alLookup m k = some v) :
    (k, v) ∈ m := by
  induction m with
  | nil => simp [alLookup] at h
  | cons p m ih =>
    obtain ⟨k', v'⟩ := p
    by_cases hk : k' = k
    · subst hk
      have hv : v' = v := by simpa [alLookup] using h
      subst hv
      exact List.mem_cons_self _ _
    · simp only [alLookup, if_neg hk] at h
      exact List.mem_cons_of_mem _ (ih h)

/-! ## Object-identity model of the copying getters (claim C10) -/

/-- A heap of list objects with a bump allocator: models Python list/set
object identity for the two getters that return `.copy()`s. -/
structure ListHeap where
  store : List (Nat × List CellRef)
  next : Nat

/-- Dereference a list object. -/
def heapRead (h : ListHeap) (a : Nat) : List CellRef :=
  (alLookup h.store a).getD []

/-- In-place mutation of a list object (any Python mutation of the returned
list: `append`, `clear`, …). -/
def heapWrite (h : ListHeap) (a : Nat) (v : List CellRef) : ListHeap :=
  { h with store := alSet h.store a v }

/-- Allocation of a fresh list object (what `list.copy()`/`set.copy()` do). -/
def heapAlloc (h : ListHeap) (v : List CellRef) : Nat × ListHeap :=
  (h.next, { store := alSet h.store h.next v, next := h.next + 1 })

/-- The graph object's own references to its `_evaluation_order` list and
`_dirty_cells` set. -/
structure GraphRefs where
  orderRef : Nat
  dirtyRef : Nat

/-- `get_evaluation_order` at object level:
`return self._evaluation_order.copy()`. -/
def get_evaluation_order_obj (g : GraphRefs) (h : ListHeap) : Nat × ListHeap :=
  heapAlloc h (heapRead h g.orderRef)

/-- `get_dirty_cells` at object level: `return self._dirty_cells.copy()`. -/
def get_dirty_cells_obj (g : GraphRefs) (h : ListHeap) : Nat × ListHeap :=
  heapAlloc h (heapRead h g.dirtyRef)

/-- Liveness of the graph's references: they were allocated earlier, so they
sit below the bump pointer. -/
def RefsWF (g : GraphRefs) (h : ListHeap) : Prop :=
  g.orderRef < h.next ∧ g.dirtyRef < h.next

/-- C10.  `get_evaluation_order` and `get_dirty_cells` return copies: the
returned object is distinct from the graph's stored one, any mutation of the
returned object leaves the stored list/set unchanged, and a subsequent call
still returns the original elements. -/
theorem C10_getters_return_copies (g : GraphRefs) (h : ListHeap)
    (hwf : RefsWF g h) :
    ((get_evaluation_order_obj g h).1 ≠ g.orderRef ∧
      heapRead (get_evaluation_order_obj g h).2 (get_evaluation_order_obj g h).1 =
        heapRead h g.orderRef ∧
      ∀ v : List CellRef,
        heapRead (heapWrite (get_evaluation_order_obj g h).2
            (get_evaluation_order_obj g h).1 v) g.orderRef =
          heapRead h g.orderRef ∧
        (let h2 := heapWrite (get_evaluation_order_obj g h).2
            (get_evaluation_order_obj g h).1 v
         heapRead (get_evaluation_order_obj g h2).2
            (get_evaluation_order_obj g h2).1 = heapRead h g.orderRef)) ∧
    ((get_dirty_cells_obj g h).1 ≠ g.dirtyRef ∧
      heapRead (get_dirty_cells_obj g h).2 (get_dirty_cells_obj g h).1 =
        heapRead h g.dirtyRef ∧
      ∀ v : List CellRef,
        heapRead (heapWrite (get_dirty_cells_obj g h).2
            (get_dirty_cells_obj g h).1 v) g.dirtyRef =
          heapRead h g.dirtyRef) := by
  obtain ⟨ho, hd⟩ := hwf
  have freshO : h.next ≠ g.orderRef := by omega
  have freshD : h.next ≠ g.dirtyRef := by omega
  refine ⟨⟨freshO, ?_, ?_⟩, ⟨freshD, ?_, ?_⟩⟩
  · -- the copy holds the stored elements
    simp [get_evaluation_order_obj, heapAlloc, heapRead, heapWrite,
      alLookup_alSet_self]
  · intro v
    constructor
    · -- mutating the copy does not change the stored list
      simp [get_evaluation_order_obj, heapAlloc, heapRead, heapWrite,
        alLookup_alSet_ne _ _ _ _ freshO]
    · -- a second call still returns the original elements
      have freshO2 : h.next + 1 ≠ g.orderRef := by omega
      simp [get_evaluation_order_obj, heapAlloc, heapRead, heapWrite,
        alLookup_alSet_self, alLookup_alSet_ne _ _ _ _ freshO,
        alLookup_alSet_ne _ _ _ _ freshO2]
  · simp [get_dirty_cells_obj, heapAlloc, heapRead, heapWrite,
      alLookup_alSet_self]
  · intro v
    simp [get_dirty_cells_obj, heapAlloc, heapRead, heapWrite,
      alLookup_alSet_ne _ _ _ _ freshD]

/-- Witness for C10 at a concrete two-object heap. -/
theorem C10_getters_return_copies_witness :
    RefsWF ⟨0, 1⟩ ⟨[(0, [⟨"A", 1⟩]), (1, [])], 2⟩ ∧
      ((get_evaluation_order_obj ⟨0, 1⟩ ⟨[(0, [⟨"A", 1⟩]), (1, [])], 2⟩).1 ≠ 0) :=
  ⟨⟨by decide, by decide⟩,
    (C10_getters_return_copies ⟨0, 1⟩ ⟨[(0, [⟨"A", 1⟩]), (1, [])], 2⟩
      ⟨by decide, by decide⟩).1.1⟩

/-! ## Claim C1: the cycle-abort path of `evaluate_formulas` -/

/-- The single-column mutual cycle grid of the claim: `A1 = "=A2"`,
`A2 = "=A1"`. -/
def c1_data : List Row := [[("A", Value.str "=A2")], [("A", Value.str "=A1")]]

/-- Its column schema. -/
def c1_columns : List ColumnDef := [⟨"A", "A"⟩]

/-- C1.  The claim says a circular grid makes `evaluate_formulas` return
`success: false`, a non-empty cycle path, and the unmodified input grid.
The code does the opposite on the claimed input: the cycle-closing formula
is rejected during graph construction (recorded as a per-cell error), the
cycle check then sees an acyclic graph, and the pass continues —
`success: true`, no top-level error, and the first formula is evaluated and
written back (`"=A2"` reads the raw text `"=A1"`, which digit-strips to 1),
so the returned grid differs from the input. -/
theorem C1_cycle_abort_unreachable :
    (evaluate_formulas c1_data c1_columns).success = true ∧
    (evaluate_formulas c1_data c1_columns).error = Option.none ∧
    (evaluate_formulas c1_data c1_columns).data =
      [[("A", Value.str "1")], [("A", Value.str "=A1")]] ∧
    (evaluate_formulas c1_data c1_columns).data ≠ c1_data ∧
    (evaluate_formulas c1_data c1_columns).cell_errors =
      [("1-A", "Circular dependency detected")] := by
  refine ⟨by decide, by decide, by decide, by decide, by decide⟩

/-! ## Claim C6: chained binary operators -/

/-- C6 counterexample.  The claim says `=A1+B1+C1` is not split by the
binary-arithmetic rule and returns `#ERROR!`.  On the grid
`A1=2, B1=3, C1=4` the code returns the number 13 instead
(split at the first `+`: `A1` + digit-stripped `"B1+C1"` = 2 + 11). -/
theorem C6_counterexample :
    _evaluate_formula "=A1+B1+C1"
        [[("A", Value.num 2), ("B", Value.num 3), ("C", Value.num 4)]]
        [⟨"A", "A"⟩, ⟨"B", "B"⟩, ⟨"C", "C"⟩] = .num 13 ∧
      (EvalResult.num 13 ≠ .err "#ERROR!") := by
  exact ⟨by decide, by decide⟩

/-- C6 as amended.  The lazy regex `^(.+?)([\+\-\*\/])(.+?)$` does match a
two-operator chain: it splits at the first operator, the left operand `A1`
resolves as a cell reference and the right operand `B1+C1` is not a cell
reference, so it is digit-stripped to the number 11.  For every grid and
schema, `=A1+B1+C1` evaluates to `A1 + 11` (never `#ERROR!`). -/
theorem C6_chained_operators_amended (data : List Row)
    (columns : List ColumnDef) :
    _evaluate_formula "=A1+B1+C1" data columns =
      .num (_get_cell_value "A" ((1 : Int) - 1) data columns + 11) := by
  rfl

/-! ## Claim C7: COUNT and falsy cell values -/

/-- C7 counterexample.  The claim says a cell holding the number 0 is
counted (its stringification `"0"` is non-empty).  The code's condition is
`value and str(value).strip()`, and the number 0 is falsy, so it is not
counted: COUNT over a single cell holding 0 returns 0, although the
claim's criterion (non-empty stripped stringification) holds for that
cell. -/
theorem C7_counterexample :
    _calculate_count "A1:A1" [[("A", Value.num 0)]] [⟨"A", "A"⟩] = .num 0 ∧
      pyStrip (pyStr (Value.num 0)) ≠ "" := by
  exact ⟨by decide, by decide⟩

/-- The row indices a clipped range loop visits, as natural numbers: under
in-range bounds the `min` clip and the `i >= 0` guard are inert, and the
loop walks `r1-1 .. r2-1`. -/
theorem rowsClipped_in_range (r1 r2 len : Nat) (h1 : 1 ≤ r1) (h2 : r1 ≤ r2)
    (h3 : r2 ≤ len) :
    rowsClipped ((r1 : Int) - 1) ((r2 : Int) - 1) len =
      (List.range' (r1 - 1) (r2 - r1 + 1)).map Int.ofNat := by
  have hmin : min (((r2 : Int) - 1) + 1) (len : Int) = (r2 : Int) := by omega
  have hcount : ((r2 : Int) - ((r1 : Int) - 1)).toNat = r2 - r1 + 1 := by omega
  have hbase : ((r1 : Int) - 1) = Int.ofNat (r1 - 1) := by
    simp only [Int.ofNat_eq_natCast]
    omega
  unfold rowsClipped rangeInt
  rw [hmin, hcount, hbase]
  have hall : ∀ x ∈ (List.range (r2 - r1 + 1)).map
      (fun k => Int.ofNat (r1 - 1) + Int.ofNat k), decide (0 ≤ x) = true := by
    intro x hx
    simp only [List.mem_map] at hx
    obtain ⟨k, _, rfl⟩ := hx
    simp only [decide_eq_true_eq, Int.ofNat_eq_natCast]
    omega
  rw [List.filter_eq_self.mpr hall]
  rw [List.range'_eq_map_range, List.map_map]
  apply List.map_congr_left
  intro k _
  simp only [Function.comp_apply, Int.ofNat_eq_natCast]
  omega

/-- A counting fold over cast row indices equals the length of the filtered
index list. -/
theorem count_fold_eq_filter_length (p : Nat → Bool) (l : List Nat) :
    ∀ q : ℚ,
      ((l.map Int.ofNat).foldl
        (fun c i => if p i.toNat then c + 1 else c) q) =
        q + ((l.filter p).length : ℚ) := by
  induction l with
  | nil => intro q; simp
  | cons n l ih =>
    intro q
    simp only [List.map_cons, List.foldl_cons, Int.ofNat_eq_natCast,
      Int.toNat_natCast, List.filter_cons]
    by_cases hp : p n
    · simp only [hp, if_true, ih, List.length_cons]
      push_cast
      ring
    · simp only [hp, if_false, ih, Bool.false_eq_true]

/-- C7 as amended.  For every well-formed range argument whose rows lie in
the grid, `COUNT` returns the number of cells in the **start** column of the
range, rows `r1 … r2`, whose value is truthy *and* whose stringified value
is non-empty after trimming (`countCond`); a numeric 0 is falsy and not
counted. -/
theorem C7_count_truthy_amended (args : String) (data : List Row)
    (columns : List ColumnDef) (c1 : String) (r1 : Nat) (c2 : String)
    (r2 : Nat) (col : ColumnDef)
    (hm : matchFullRange (pyStrip args) = some (c1, r1, c2, r2))
    (hc : _find_column_by_letter c1 columns = some col)
    (h1 : 1 ≤ r1) (h2 : r1 ≤ r2) (h3 : r2 ≤ data.length) :
    _calculate_count args data columns =
      .num (((List.range' (r1 - 1) (r2 - r1 + 1)).filter
        (fun i => countCond (rowGet (listGetRow data i) col.key (.str "")))).length) := by
  unfold _calculate_count
  simp only [hm, hc]
  rw [rowsClipped_in_range r1 r2 data.length h1 h2 h3]
  rw [count_fold_eq_filter_length
    (fun n => countCond (rowGet (listGetRow data n) col.key (.str ""))) _ 0]
  rw [zero_add]

/-- Witness for C7's amended theorem: `COUNT(A1:A2)` over the column
`[5, ""]` counts exactly the first cell. -/
theorem C7_count_truthy_amended_witness :
    (matchFullRange (pyStrip "A1:A2") = some ("A", 1, "A", 2) ∧
      _find_column_by_letter "A" [⟨"A", "A"⟩] = some ⟨"A", "A"⟩ ∧
      1 ≤ 1 ∧ 1 ≤ 2 ∧
      2 ≤ ([[("A", Value.num 5)], [("A", Value.str "")]] : List Row).length) ∧
    _calculate_count "A1:A2" [[("A", Value.num 5)], [("A", Value.str "")]]
        [⟨"A", "A"⟩] =
      .num (((List.range' 0 2).filter
        (fun i => countCond (rowGet
          (listGetRow [[("A", Value.num 5)], [("A", Value.str "")]] i)
          (ColumnDef.mk "A" "A").key (.str "")))).length) :=
  ⟨⟨by decide, by decide, by decide, by decide, by decide⟩,
    C7_count_truthy_amended "A1:A2" [[("A", Value.num 5)], [("A", Value.str "")]]
      [⟨"A", "A"⟩] "A" 1 "A" 2 ⟨"A", "A"⟩
      (by decide) (by decide) (by decide) (by decide) (by decide)⟩

/-! ## Cycles of the forward adjacency structure -/

/-- Whether consecutive elements of `l` are forward adjacency edges
(`b ∈ adjacency_list[a]`). -/
def chainListB (adj : List (CellRef × List CellRef)) : List CellRef → Bool
  | [] => true
  | [_] => true
  | a :: b :: l => decide (b ∈ adjGet adj a) && chainListB adj (b :: l)

/-- A non-empty closed walk in the forward adjacency edges. -/
def HasCycleAdj (adj : List (CellRef × List CellRef)) : Prop :=
  ∃ l : List CellRef, 2 ≤ l.length ∧ chainListB adj l = true ∧
    l.head? = l.getLast?

theorem chainListB_cons_cons {adj : List (CellRef × List CellRef)}
    {a b : CellRef} {l : List CellRef} :
    chainListB adj (a :: b :: l) = true ↔
      b ∈ adjGet adj a ∧ chainListB adj (b :: l) = true := by
  simp [chainListB]

theorem chainListB_tail {adj : List (CellRef × List CellRef)} {a : CellRef}
    {l : List CellRef} (h : chainListB adj (a :: l) = true) :
    chainListB adj l = true := by
  cases l with
  | nil => rfl
  | cons b l => exact (chainListB_cons_cons.mp h).2

theorem chainListB_suffix {adj : List (CellRef × List CellRef)}
    (t : List CellRef) {s : List CellRef}
    (h : chainListB adj (t ++ s) = true) : chainListB adj s = true := by
  induction t with
  | nil => simpa using h
  | cons a t ih => exact ih (chainListB_tail h)

theorem chainListB_append_edge {adj : List (CellRef × List CellRef)} {b : CellRef} :
    ∀ {l : List CellRef} {a : CellRef}, chainListB adj l = true →
      l.getLast? = some a → b ∈ adjGet adj a →
      chainListB adj (l ++ [b]) = true
  | [], a, _, hlast, _ => by simp at hlast
  | [x], a, _, hlast, hedge => by
    simp only [List.getLast?_singleton, Option.some.injEq] at hlast
    subst hlast
    simp [chainListB, hedge]
  | x :: y :: l, a, hchain, hlast, hedge => by
    obtain ⟨hxy, hrest⟩ := chainListB_cons_cons.mp hchain
    have hlast' : (y :: l).getLast? = some a := by
      simpa using hlast
    have := chainListB_append_edge hrest hlast' hedge
    simpa [chainListB, hxy] using this

theorem head?_dropWhile_ne {v : CellRef} :
    ∀ {l : List CellRef}, v ∈ l →
      (l.dropWhile (fun x => decide (x ≠ v))).head? = some v
  | [], h => absurd h (List.not_mem_nil v)
  | a :: l, h => by
    by_cases ha : a = v
    · subst ha
      simp [List.dropWhile]
    · simp only [List.dropWhile, decide_eq_true_eq, ha, not_false_iff, decide_True]
      have hv : v ∈ l := by
        rcases List.mem_cons.mp h with h1 | h1
        · exact absurd h1.symm ha
        · exact h1
      simpa [ha] using head?_dropWhile_ne hv

/-- The cycle extraction of the DFS: a visited stack member `v` adjacent to
the end of the current chain closes a cycle. -/
theorem cycle_extract {adj : List (CellRef × List CellRef)}
    {cp : List CellRef} {v node : CellRef} (hmem : v ∈ cp)
    (hlast : cp.getLast? = some node) (hchain : chainListB adj cp = true)
    (hedge : v ∈ adjGet adj node) : HasCycleAdj adj := by
  set s := cp.dropWhile (fun x => decide (x ≠ v)) with hs
  have hsplit : cp.takeWhile (fun x => decide (x ≠ v)) ++ s = cp :=
    List.takeWhile_append_dropWhile _ _
  have hhead : s.head? = some v := head?_dropWhile_ne hmem
  have hne : s ≠ [] := by
    intro h0
    rw [h0] at hhead
    exact Option.noConfusion hhead
  have hchain_s : chainListB adj s = true := by
    rw [← hsplit] at hchain
    exact chainListB_suffix _ hchain
  have hlast_s : s.getLast? = some node := by
    rw [← hsplit, List.getLast?_append] at hlast
    cases hl : s.getLast? with
    | none => exact absurd (List.getLast?_eq_none_iff.mp hl) hne
    | some x =>
      rw [hl] at hlast
      simpa using hlast
  refine ⟨s ++ [v], ?_, ?_, ?_⟩
  · have : 1 ≤ s.length := List.length_pos.mpr hne
    simp only [List.length_append, List.length_singleton]
    omega
  · exact chainListB_append_edge hchain_s hlast_s hedge
  · rw [List.head?_append, hhead, List.getLast?_concat]
    rfl

/-- Soundness of the neighbor loop of the path-tracking DFS: a cycle result
means the adjacency really has a cycle, given that the current path is a
chain ending at the scanned node and that the stack lies on the path. -/
theorem dfsNeighbors_sound (adj : List (CellRef × List CellRef))
    (rec : CellRef → List CellRef → List CellRef → List CellRef →
      Option (List CellRef) × List CellRef)
    (Hrec : ∀ v cp vis st c vis', chainListB adj (cp ++ [v]) = true →
      (∀ x ∈ st, x ∈ cp) → rec v cp vis st = (some c, vis') →
      HasCycleAdj adj) :
    ∀ (vs : List CellRef) (node : CellRef) (cp vis st : List CellRef)
      (c : List CellRef) (vis' : List CellRef),
      cp.getLast? = some node →
      chainListB adj cp = true →
      (∀ v ∈ vs, v ∈ adjGet adj node) →
      (∀ x ∈ st, x ∈ cp) →
      dfsNeighbors rec vs cp vis st = (some c, vis') →
      HasCycleAdj adj := by
  intro vs
  induction vs with
  | nil =>
    intro node cp vis st c vis' _ _ _ _ hrun
    exact absurd hrun (by simp [dfsNeighbors])
  | cons v vs ih =>
    intro node cp vis st c vis' hlast hchain hnb hst hrun
    simp only [dfsNeighbors] at hrun
    by_cases hv : v ∈ vis
    · rw [if_neg (not_not_intro hv)] at hrun
      by_cases hvst : v ∈ st
      · -- cycle through the stack
        exact cycle_extract (hst v hvst) hlast hchain (hnb v (by simp))
      · rw [if_neg hvst] at hrun
        exact ih node cp vis st c vis' hlast hchain
          (fun w hw => hnb w (by simp [hw])) hst hrun
    · rw [if_pos hv] at hrun
      cases hrec : rec v cp vis st with
      | mk r vis2 =>
        rw [hrec] at hrun
        cases r with
        | some c2 =>
          exact Hrec v cp vis st c2 vis2
            (chainListB_append_edge hchain hlast (hnb v (by simp)))
            hst hrec
        | none =>
          simp only [] at hrun
          exact ih node cp vis2 st c vis' hlast hchain
            (fun w hw => hnb w (by simp [hw])) hst hrun

/-- Soundness of `dfs` in `has_circular_dependency`: if it reports a cycle,
the adjacency has one. -/
theorem dfsVisit_sound (adj : List (CellRef × List CellRef)) :
    ∀ (fuel : Nat) (node : CellRef) (path vis st : List CellRef)
      (c : List CellRef) (vis' : List CellRef),
      chainListB adj (path ++ [node]) = true →
      (∀ x ∈ st, x ∈ path) →
      dfsVisit adj fuel node path vis st = (some c, vis') →
      HasCycleAdj adj := by
  intro fuel
  induction fuel with
  | zero =>
    intro node path vis st c vis' _ _ hrun
    exact absurd hrun (by simp [dfsVisit])
  | succ fuel ih =>
    intro node path vis st c vis' hchain hst hrun
    simp only [dfsVisit] at hrun
    refine dfsNeighbors_sound adj _ ?_ (adjGet adj node) node (path ++ [node])
      (setInsert vis node) (setInsert st node) c vis'
      (List.getLast?_concat _) hchain (fun v hv => hv) ?_ hrun
    · intro v cp2 vis2 st2 c2 vis2' hch2 hst2 hrec
      exact ih v cp2 vis2 st2 c2 vis2' hch2 hst2 hrec
    · intro x hx
      rcases (mem_setInsert st node x).mp hx with h | h
      · exact List.mem_append_left _ (hst x h)
      · exact h ▸ List.mem_append_right _ (by simp)

/-- The two DFS variants (`has_circular_dependency`'s path-tracking one and
`_would_create_cycle`'s boolean one) take the same branches: the path
bookkeeping never influences control flow. -/
theorem dfsNeighbors_wcNeighbors
    (rec1 : CellRef → List CellRef → List CellRef → List CellRef →
      Option (List CellRef) × List CellRef)
    (rec2 : CellRef → List CellRef → List CellRef → Bool × List CellRef)
    (cp : List CellRef)
    (H : ∀ v vis st, (rec1 v cp vis st).1.isSome = (rec2 v vis st).1 ∧
      (rec1 v cp vis st).2 = (rec2 v vis st).2) :
    ∀ (vs vis st : List CellRef),
      (dfsNeighbors rec1 vs cp vis st).1.isSome = (wcNeighbors rec2 vs vis st).1 ∧
      (dfsNeighbors rec1 vs cp vis st).2 = (wcNeighbors rec2 vs vis st).2 := by
  intro vs
  induction vs with
  | nil => intro vis st; simp [dfsNeighbors, wcNeighbors]
  | cons v vs ih =>
    intro vis st
    simp only [dfsNeighbors, wcNeighbors]
    by_cases hv : v ∈ vis
    · rw [if_neg (not_not_intro hv), if_neg (not_not_intro hv)]
      by_cases hvst : v ∈ st
      · rw [if_pos hvst, if_pos hvst]
        exact ⟨rfl, rfl⟩
      · rw [if_neg hvst, if_neg hvst]
        exact ih vis st
    · rw [if_pos hv, if_pos hv]
      obtain ⟨h1, h2⟩ := H v vis st
      rcases hr1 : rec1 v cp vis st with ⟨r1, vis1⟩
      rcases hr2 : rec2 v vis st with ⟨r2, vis2⟩
      rw [hr1, hr2] at h1 h2
      simp only at h1 h2
      subst h2
      cases r1 with
      | some c =>
        simp only [Option.isSome_some, true_iff] at h1
        rw [← h1]
        simp
      | none =>
        simp only [Option.isSome_none] at h1
        rw [← h1]
        simp only []
        exact ih vis1 st

/-- Bridge between the two `dfs` implementations. -/
theorem dfsVisit_wcVisit (adj : List (CellRef × List CellRef)) :
    ∀ (fuel : Nat) (node : CellRef) (path vis st : List CellRef),
      (dfsVisit adj fuel node path vis st).1.isSome =
        (wcVisit adj fuel node vis st).1 ∧
      (dfsVisit adj fuel node path vis st).2 =
        (wcVisit adj fuel node vis st).2 := by
  intro fuel
  induction fuel with
  | zero => intro node path vis st; simp [dfsVisit, wcVisit]
  | succ fuel ih =>
    intro node path vis st
    simp only [dfsVisit, wcVisit]
    exact dfsNeighbors_wcNeighbors _ _ (path ++ [node])
      (fun v vis2 st2 => ih v (path ++ [node]) vis2 st2)
      (adjGet adj node) (setInsert vis node) (setInsert st node)

/-- Bridge between the two root loops. -/
theorem hcLoop_wcLoop (adj : List (CellRef × List CellRef)) (fuel : Nat) :
    ∀ (roots vis : List CellRef),
      (hcLoop adj fuel roots vis).isSome = wcLoop adj fuel roots vis := by
  intro roots
  induction roots with
  | nil => intro vis; simp [hcLoop, wcLoop]
  | cons n ns ih =>
    intro vis
    simp only [hcLoop, wcLoop]
    by_cases hn : n ∈ vis
    · rw [if_neg (not_not_intro hn), if_neg (not_not_intro hn)]
      exact ih vis
    · rw [if_pos hn, if_pos hn]
      obtain ⟨h1, h2⟩ := dfsVisit_wcVisit adj fuel n [] vis []
      rcases hr1 : dfsVisit adj fuel n [] vis [] with ⟨r1, vis1⟩
      rcases hr2 : wcVisit adj fuel n vis [] with ⟨r2, vis2⟩
      rw [hr1, hr2] at h1 h2
      simp only at h1 h2
      subst h2
      cases r1 with
      | some c =>
        simp only [Option.isSome_some, true_iff] at h1
        rw [← h1]
        simp
      | none =>
        simp only [Option.isSome_none] at h1
        rw [← h1]
        simp only []
        exact ih vis1

/-- Soundness of the root loop of `has_circular_dependency`. -/
theorem hcLoop_sound (adj : List (CellRef × List CellRef)) (fuel : Nat) :
    ∀ (roots vis : List CellRef) (c : List CellRef),
      hcLoop adj fuel roots vis = some c → HasCycleAdj adj := by
  intro roots
  induction roots with
  | nil => intro vis c h; exact absurd h (by simp [hcLoop])
  | cons n ns ih =>
    intro vis c h
    simp only [hcLoop] at h
    by_cases hn : n ∈ vis
    · rw [if_neg (not_not_intro hn)] at h
      exact ih vis c h
    · rw [if_pos hn] at h
      rcases hr : dfsVisit adj fuel n [] vis [] with ⟨r1, vis1⟩
      rw [hr] at h
      cases r1 with
      | some c2 =>
        exact dfsVisit_sound adj fuel n [] vis [] c2 vis1 rfl (by simp) hr
      | none =>
        simp only [] at h
        exact ih vis1 c h

/-- Soundness of the root loop of `_would_create_cycle`. -/
theorem wcLoop_sound (adj : List (CellRef × List CellRef)) (fuel : Nat)
    (roots vis : List CellRef) (h : wcLoop adj fuel roots vis = true) :
    HasCycleAdj adj := by
  rw [← hcLoop_wcLoop adj fuel roots vis] at h
  rcases hr : hcLoop adj fuel roots vis with _ | c
  · rw [hr] at h
    exact absurd h (by simp)
  · exact hcLoop_sound adj fuel roots vis c hr

/-! ## Completeness of the cycle-detecting DFS -/

/-- Number of cells of the universe `U` not yet visited (the fuel measure). -/
def countNotIn (U vis : List CellRef) : Nat :=
  (U.filter (fun x => decide (x ∉ vis))).length

/-- The finished ("black") vertices — visited and off the recursion stack —
only have finished successors. -/
def BlackClosed (adj : List (CellRef × List CellRef))
    (vis st : List CellRef) : Prop :=
  ∀ u, u ∈ vis → u ∉ st → ∀ v ∈ adjGet adj u, v ∈ vis ∧ v ∉ st

/-- No cycle starts at a finished vertex. -/
def NoCycAt (adj : List (CellRef × List CellRef))
    (vis st : List CellRef) : Prop :=
  ∀ (l : List CellRef) (x : CellRef), 2 ≤ l.length →
    chainListB adj l = true → l.head? = l.getLast? → l.head? = some x →
    ¬(x ∈ vis ∧ x ∉ st)

theorem filter_length_mono_pred {p q : CellRef → Bool} :
    ∀ U : List CellRef, (∀ x ∈ U, p x = true → q x = true) →
      (U.filter p).length ≤ (U.filter q).length := by
  intro U
  induction U with
  | nil => intro _; simp
  | cons u U ih =>
    intro h
    have hU := ih (fun x hx => h x (by simp [hx]))
    by_cases hp : p u
    · have hq := h u (by simp) hp
      simp only [List.filter_cons, hp, hq, if_true, List.length_cons]
      omega
    · simp only [List.filter_cons, hp, if_false, Bool.false_eq_true]
      by_cases hq : q u
      · simp only [hq, if_true, List.length_cons]
        omega
      · simp only [hq, if_false, Bool.false_eq_true]
        exact hU

theorem countNotIn_anti (U : List CellRef) {v1 v2 : List CellRef}
    (h : ∀ x ∈ v1, x ∈ v2) : countNotIn U v2 ≤ countNotIn U v1 := by
  unfold countNotIn
  apply filter_length_mono_pred
  intro x _ hx
  simp only [decide_eq_true_eq] at hx ⊢
  intro hv1
  exact hx (h x hv1)

theorem countNotIn_setInsert {U vis : List CellRef} {w : CellRef}
    (hU : U.Nodup) (hw : w ∈ U) (hnv : w ∉ vis) :
    countNotIn U (setInsert vis w) + 1 = countNotIn U vis := by
  unfold countNotIn
  induction U with
  | nil => exact absurd hw (List.not_mem_nil w)
  | cons u U ih =>
    rw [List.nodup_cons] at hU
    obtain ⟨hu_notin, hU'⟩ := hU
    by_cases huw : u = w
    · subst huw
      have h1 : decide (u ∉ setInsert vis u) = false := by
        simp [mem_setInsert]
      have h2 : decide (u ∉ vis) = true := by simp [hnv]
      simp only [List.filter_cons, h1, h2, if_false, if_true,
        Bool.false_eq_true, List.length_cons]
      have : U.filter (fun x => decide (x ∉ setInsert vis u)) =
          U.filter (fun x => decide (x ∉ vis)) := by
        apply List.filter_congr
        intro x hx
        have hxu : x ≠ u := fun h => hu_notin (h ▸ hx)
        rw [decide_eq_decide]
        simp [mem_setInsert, hxu]
      rw [this]
    · have hwU : w ∈ U := by
        rcases List.mem_cons.mp hw with h | h
        · exact absurd h.symm huw
        · exact h
      have heq : decide (u ∉ setInsert vis w) = decide (u ∉ vis) := by
        simp only [mem_setInsert]
        by_cases hv : u ∈ vis
        · simp [hv]
        · simp [hv, huw]
      by_cases hc : decide (u ∉ vis) = true
      · simp only [List.filter_cons, heq, hc, if_true, List.length_cons]
        have := ih hU' hwU
        omega
      · simp only [List.filter_cons, heq, hc, if_false, Bool.false_eq_true]
        exact ih hU' hwU

/-- Walking a chain from a finished vertex stays among finished vertices. -/
theorem closed_chain {adj : List (CellRef × List CellRef)}
    {vis st : List CellRef} (hC : BlackClosed adj vis st) :
    ∀ (p : List CellRef) (x : CellRef), x ∈ vis → x ∉ st →
      chainListB adj (x :: p) = true → ∀ y ∈ p, y ∈ vis ∧ y ∉ st := by
  intro p
  induction p with
  | nil => intro x _ _ _ y hy; exact absurd hy (List.not_mem_nil y)
  | cons b p ih =>
    intro x hxv hxs hchain y hy
    obtain ⟨hedge, hrest⟩ := chainListB_cons_cons.mp hchain
    obtain ⟨hbv, hbs⟩ := hC x hxv hxs b hedge
    rcases List.mem_cons.mp hy with h | h
    · exact h ▸ ⟨hbv, hbs⟩
    · exact ih b hbv hbs hrest y h

/-- The head of a closed walk of length ≥ 2 is the target of some edge. -/
theorem cycle_head_is_target {adj : List (CellRef × List CellRef)} :
    ∀ (l : List CellRef) (b : CellRef), 2 ≤ l.length →
      chainListB adj l = true → l.getLast? = some b →
      ∃ c, b ∈ adjGet adj c := by
  intro l
  induction l with
  | nil => intro b h; simp at h
  | cons a p ih =>
    intro b hlen hchain hlast
    cases p with
    | nil => simp at hlen
    | cons y p' =>
      obtain ⟨hedge, hrest⟩ := chainListB_cons_cons.mp hchain
      cases p' with
      | nil =>
        simp only [List.getLast?_cons_cons, List.getLast?_singleton,
          Option.some.injEq] at hlast
        exact ⟨a, hlast ▸ hedge⟩
      | cons z p'' =>
        refine ih b (by simp) hrest ?_
        simpa using hlast

/-- Turning a vertex black preserves the completeness invariant, given that
all its successors are black. -/
theorem inv_extend {adj : List (CellRef × List CellRef)}
    {vis' st0 : List CellRef} {node : CellRef}
    (hC : BlackClosed adj vis' (setInsert st0 node))
    (hN : NoCycAt adj vis' (setInsert st0 node))
    (hnode : node ∈ vis')
    (hnb : ∀ v ∈ adjGet adj node, v ∈ vis' ∧ v ∉ setInsert st0 node) :
    BlackClosed adj vis' st0 ∧ NoCycAt adj vis' st0 := by
  have hsub : ∀ x, x ∈ st0 → x ∈ setInsert st0 node := by
    intro x hx
    exact (mem_setInsert st0 node x).mpr (Or.inl hx)
  have hnodeInStN : node ∈ setInsert st0 node :=
    (mem_setInsert st0 node node).mpr (Or.inr rfl)
  constructor
  · intro u huv hus v hv
    by_cases hun : u = node
    · subst hun
      obtain ⟨h1, h2⟩ := hnb v hv
      exact ⟨h1, fun hc => h2 (hsub v hc)⟩
    · have huStN : u ∉ setInsert st0 node := by
        intro hc
        rcases (mem_setInsert st0 node u).mp hc with h | h
        · exact hus h
        · exact hun h
      obtain ⟨h1, h2⟩ := hC u huv huStN v hv
      exact ⟨h1, fun hc => h2 (hsub v hc)⟩
  · intro l x hlen hchain hcyc hhead ⟨hxv, hxs⟩
    by_cases hxn : x = node
    · subst hxn
      -- the cycle x :: p starts at node; its first step lands in the black
      -- set, the walk stays there, and its last element is node — but node
      -- is on the stack
      cases l with
      | nil => simp at hhead
      | cons a p =>
        have hax : a = x := by simpa using hhead
        subst hax
        cases p with
        | nil => simp at hlen
        | cons p0 p' =>
          obtain ⟨hedge, hrest⟩ := chainListB_cons_cons.mp hchain
          obtain ⟨hp0v, hp0s⟩ := hnb p0 hedge
          have hwalk := closed_chain hC p' p0 hp0v hp0s hrest
          have hlastmem : a ∈ p0 :: p' := by
            have h1 : (a :: p0 :: p').getLast? = some a := hcyc ▸ (by simpa using hhead)
            have h2 : (p0 :: p').getLast? = some a := by simpa using h1
            exact List.mem_of_getLast?_eq_some h2
          rcases List.mem_cons.mp hlastmem with h | h
          · exact hp0s (h ▸ hnodeInStN)
          · exact (hwalk a h).2 hnodeInStN
    · have hxStN : x ∉ setInsert st0 node := by
        intro hc
        rcases (mem_setInsert st0 node x).mp hc with h | h
        · exact hxs h
        · exact hxn h
      exact hN l x hlen hchain hcyc hhead ⟨hxv, hxStN⟩

/-- Completeness invariant through the neighbor loop of
`_would_create_cycle`'s DFS: a `false` outcome visits every scanned
neighbor, keeps everything inside the universe, and preserves the
black-closure and no-cycle invariants. -/
theorem wcNeighbors_complete (adj : List (CellRef × List CellRef))
    (U : List CellRef)
    (rec : CellRef → List CellRef → List CellRef → Bool × List CellRef)
    (fuel : Nat)
    (Hrec : ∀ (v : CellRef) (vis st vis' : List CellRef),
      v ∈ U → v ∉ vis → (∀ x ∈ st, x ∈ vis) → (∀ x ∈ vis, x ∈ U) →
      BlackClosed adj vis st → NoCycAt adj vis st →
      1 + countNotIn U vis ≤ fuel →
      rec v vis st = (false, vis') →
      (∀ x ∈ vis, x ∈ vis') ∧ v ∈ vis' ∧ (∀ x ∈ vis', x ∈ U) ∧
        BlackClosed adj vis' st ∧ NoCycAt adj vis' st) :
    ∀ (vs : List CellRef) (vis stN vis' : List CellRef),
      (∀ v ∈ vs, v ∈ U) → (∀ x ∈ stN, x ∈ vis) → (∀ x ∈ vis, x ∈ U) →
      BlackClosed adj vis stN → NoCycAt adj vis stN →
      1 + countNotIn U vis ≤ fuel →
      wcNeighbors rec vs vis stN = (false, vis') →
      (∀ x ∈ vis, x ∈ vis') ∧ (∀ x ∈ vis', x ∈ U) ∧
        (∀ x ∈ stN, x ∈ vis') ∧
        BlackClosed adj vis' stN ∧ NoCycAt adj vis' stN ∧
        (∀ v ∈ vs, v ∈ vis' ∧ v ∉ stN) ∧
        1 + countNotIn U vis' ≤ fuel := by
  intro vs
  induction vs with
  | nil =>
    intro vis stN vis' _ hstv hvU hC hN hfuel hrun
    simp only [wcNeighbors, Prod.mk.injEq] at hrun
    obtain ⟨_, rfl⟩ := hrun
    exact ⟨fun x hx => hx, hvU, hstv, hC, hN, by simp, hfuel⟩
  | cons v vs ih =>
    intro vis stN vis' hvsU hstv hvU hC hN hfuel hrun
    simp only [wcNeighbors] at hrun
    by_cases hv : v ∈ vis
    · rw [if_neg (not_not_intro hv)] at hrun
      by_cases hvst : v ∈ stN
      · rw [if_pos hvst] at hrun
        exact absurd hrun (by simp)
      · rw [if_neg hvst] at hrun
        obtain ⟨s1, s2, s3, s4, s5, s6, s7⟩ := ih vis stN vis'
          (fun w hw => hvsU w (by simp [hw])) hstv hvU hC hN hfuel hrun
        refine ⟨s1, s2, s3, s4, s5, ?_, s7⟩
        intro w hw
        rcases List.mem_cons.mp hw with h | h
        · exact h ▸ ⟨s1 v hv, hvst⟩
        · exact s6 w h
    · rw [if_pos hv] at hrun
      rcases hr : rec v vis stN with ⟨b, vis2⟩
      rw [hr] at hrun
      cases b with
      | true => exact absurd hrun (by simp)
      | false =>
        simp only [] at hrun
        obtain ⟨r1, r2, r3, r4, r5⟩ := Hrec v vis stN vis2
          (hvsU v (by simp)) hv hstv hvU hC hN hfuel hr
        have hstv2 : ∀ x ∈ stN, x ∈ vis2 := fun x hx => r1 x (hstv x hx)
        have hfuel2 : 1 + countNotIn U vis2 ≤ fuel := by
          have := countNotIn_anti U r1
          omega
        obtain ⟨s1, s2, s3, s4, s5, s6, s7⟩ := ih vis2 stN vis'
          (fun w hw => hvsU w (by simp [hw])) hstv2 r3 r4 r5 hfuel2 hrun
        refine ⟨fun x hx => s1 x (r1 x hx), s2, s3, s4, s5, ?_, s7⟩
        intro w hw
        rcases List.mem_cons.mp hw with h | h
        · subst h
          exact ⟨s1 w r2, fun hc => hv (hstv w hc)⟩
        · exact s6 w h

/-- Completeness of `has_cycle_dfs`: when the DFS returns `false` with
enough fuel, the visited set grows to cover the node, stays in the
universe, and the invariants survive with the caller's stack. -/
theorem wcVisit_complete (adj : List (CellRef × List CellRef))
    (U : List CellRef) (hU : U.Nodup)
    (hTgt : ∀ a b, b ∈ adjGet adj a → b ∈ U) :
    ∀ (fuel : Nat) (node : CellRef) (vis st vis' : List CellRef),
      node ∈ U → node ∉ vis → (∀ x ∈ st, x ∈ vis) → (∀ x ∈ vis, x ∈ U) →
      BlackClosed adj vis st → NoCycAt adj vis st →
      1 + countNotIn U vis ≤ fuel →
      wcVisit adj fuel node vis st = (false, vis') →
      (∀ x ∈ vis, x ∈ vis') ∧ node ∈ vis' ∧ (∀ x ∈ vis', x ∈ U) ∧
        BlackClosed adj vis' st ∧ NoCycAt adj vis' st := by
  intro fuel
  induction fuel with
  | zero =>
    intro node vis st vis' _ _ _ _ _ _ hfuel _
    omega
  | succ fuel ih =>
    intro node vis st vis' hnU hnvis hstv hvU hC hN hfuel hrun
    simp only [wcVisit] at hrun
    have hstN : ∀ x ∈ setInsert st node, x ∈ setInsert vis node := by
      intro x hx
      rcases (mem_setInsert st node x).mp hx with h | h
      · exact (mem_setInsert vis node x).mpr (Or.inl (hstv x h))
      · exact (mem_setInsert vis node x).mpr (Or.inr h)
    have hv1U : ∀ x ∈ setInsert vis node, x ∈ U := by
      intro x hx
      rcases (mem_setInsert vis node x).mp hx with h | h
      · exact hvU x h
      · exact h ▸ hnU
    have hC1 : BlackClosed adj (setInsert vis node) (setInsert st node) := by
      intro u hu1 huS v hv
      have hun : u ≠ node := fun h =>
        huS (h ▸ (mem_setInsert st node node).mpr (Or.inr rfl))
      have huv : u ∈ vis := by
        rcases (mem_setInsert vis node u).mp hu1 with h | h
        · exact h
        · exact absurd h hun
      have hust : u ∉ st := fun h =>
        huS ((mem_setInsert st node u).mpr (Or.inl h))
      obtain ⟨h1, h2⟩ := hC u huv hust v hv
      refine ⟨(mem_setInsert vis node v).mpr (Or.inl h1), ?_⟩
      intro hc
      rcases (mem_setInsert st node v).mp hc with h | h
      · exact h2 h
      · exact hnvis (h ▸ h1)
    have hN1 : NoCycAt adj (setInsert vis node) (setInsert st node) := by
      intro l x hlen hchain hcyc hhead ⟨hxv, hxs⟩
      have hxn : x ≠ node := fun h =>
        hxs (h ▸ (mem_setInsert st node node).mpr (Or.inr rfl))
      have hxv' : x ∈ vis := by
        rcases (mem_setInsert vis node x).mp hxv with h | h
        · exact h
        · exact absurd h hxn
      have hxs' : x ∉ st := fun h =>
        hxs ((mem_setInsert st node x).mpr (Or.inl h))
      exact hN l x hlen hchain hcyc hhead ⟨hxv', hxs'⟩
    have hfuel1 : 1 + countNotIn U (setInsert vis node) ≤ fuel := by
      have := countNotIn_setInsert hU hnU hnvis
      omega
    obtain ⟨s1, s2, s3, s4, s5, s6, _⟩ :=
      wcNeighbors_complete adj U _ fuel
        (fun v vis2 st2 vis2' hvU2 hnv2 hst2 hv2U hC2 hN2 hf2 hr2 =>
          ih v vis2 st2 vis2' hvU2 hnv2 hst2 hv2U hC2 hN2 hf2 hr2)
        (adjGet adj node) (setInsert vis node) (setInsert st node) vis'
        (fun v hv => hTgt node v hv) hstN hv1U hC1 hN1 hfuel1 hrun
    have hnode' : node ∈ vis' :=
      s1 node ((mem_setInsert vis node node).mpr (Or.inr rfl))
    obtain ⟨hCfin, hNfin⟩ := inv_extend s4 s5 hnode' s6
    exact ⟨fun x hx => s1 x ((mem_setInsert vis node x).mpr (Or.inl hx)),
      hnode', s2, hCfin, hNfin⟩

theorem countNotIn_le (U vis : List CellRef) : countNotIn U vis ≤ U.length :=
  List.length_filter_le _ _

/-- Completeness invariant through the root loop of `_would_create_cycle`:
a `false` outcome leaves a visited set covering every root on which the
invariants hold with an empty stack. -/
theorem wcLoop_complete_aux (adj : List (CellRef × List CellRef))
    (U : List CellRef) (hU : U.Nodup)
    (hTgt : ∀ a b, b ∈ adjGet adj a → b ∈ U) :
    ∀ (roots vis : List CellRef), (∀ r ∈ roots, r ∈ U) →
      (∀ x ∈ vis, x ∈ U) →
      BlackClosed adj vis [] → NoCycAt adj vis [] →
      wcLoop adj (U.length + 1) roots vis = false →
      ∃ visF, (∀ x ∈ vis, x ∈ visF) ∧ (∀ x ∈ visF, x ∈ U) ∧
        BlackClosed adj visF [] ∧ NoCycAt adj visF [] ∧
        ∀ r ∈ roots, r ∈ visF := by
  intro roots
  induction roots with
  | nil =>
    intro vis _ hvU hC hN _
    exact ⟨vis, fun x hx => hx, hvU, hC, hN, by simp⟩
  | cons n ns ih =>
    intro vis hroots hvU hC hN hrun
    simp only [wcLoop] at hrun
    by_cases hn : n ∈ vis
    · rw [if_neg (not_not_intro hn)] at hrun
      obtain ⟨visF, f1, f2, f3, f4, f5⟩ := ih vis
        (fun r hr => hroots r (by simp [hr])) hvU hC hN hrun
      refine ⟨visF, f1, f2, f3, f4, ?_⟩
      intro r hr
      rcases List.mem_cons.mp hr with h | h
      · exact h ▸ f1 n hn
      · exact f5 r h
    · rw [if_pos hn] at hrun
      rcases hv : wcVisit adj (U.length + 1) n vis [] with ⟨b, vis2⟩
      rw [hv] at hrun
      cases b with
      | true => exact absurd hrun (by simp)
      | false =>
        simp only [] at hrun
        obtain ⟨r1, r2, r3, r4, r5⟩ := wcVisit_complete adj U hU hTgt
          (U.length + 1) n vis [] vis2 (hroots n (by simp)) hn
          (by simp) hvU hC hN
          (by have := countNotIn_le U vis; omega) hv
        obtain ⟨visF, f1, f2, f3, f4, f5⟩ := ih vis2
          (fun r hr => hroots r (by simp [hr])) r3 r4 r5 hrun
        refine ⟨visF, fun x hx => f1 x (r1 x hx), f2, f3, f4, ?_⟩
        intro r hr
        rcases List.mem_cons.mp hr with h | h
        · exact h ▸ f1 n r2
        · exact f5 r h

/-- Completeness of `_would_create_cycle`'s DFS loop run from every vertex
of a universe that contains all edge targets: a `false` outcome means the
adjacency has no cycle at all. -/
theorem wcLoop_complete (adj : List (CellRef × List CellRef))
    (U : List CellRef) (hU : U.Nodup)
    (hTgt : ∀ a b, b ∈ adjGet adj a → b ∈ U)
    (hrun : wcLoop adj (U.length + 1) U [] = false) :
    ¬ HasCycleAdj adj := by
  rintro ⟨l, hlen, hchain, hcyc⟩
  obtain ⟨visF, _, _, _, hN, hcov⟩ := wcLoop_complete_aux adj U hU hTgt U []
    (fun r hr => hr) (by simp) (by intro u hu; simp at hu)
    (by intro l x _ _ _ _ hx; simp at hx) hrun
  have hne : l ≠ [] := by
    intro h
    rw [h] at hlen
    simp at hlen
  obtain ⟨x, hx⟩ : ∃ x, l.head? = some x := by
    cases l with
    | nil => exact absurd rfl hne
    | cons a p => exact ⟨a, rfl⟩
  have hlast : l.getLast? = some x := hcyc ▸ hx
  obtain ⟨c, hedge⟩ := cycle_head_is_target l x hlen hchain hlast
  have hxU : x ∈ U := hTgt c x hedge
  exact hN l x hlen hchain hcyc hx ⟨hcov x hxU, by simp⟩

/-! ## Adjacency-map lemmas -/

theorem alUpdate_keys {κ α : Type} [DecidableEq κ]
    (m : List (κ × α)) (k : κ) (f : α → α) :
    (alUpdate m k f).map (fun p => p.1) = m.map (fun p => p.1) := by
  induction m with
  | nil => simp [alUpdate]
  | cons p m ih =>
    obtain ⟨k', v'⟩ := p
    by_cases h : k' = k
    · simp [alUpdate, h]
    · simp [alUpdate, h, ih]

theorem alErase_keys {κ α : Type} [DecidableEq κ]
    (m : List (κ × α)) (k : κ) :
    (alErase m k).map (fun p => p.1) =
      (m.map (fun p => p.1)).filter (fun x => decide (x ≠ k)) := by
  induction m with
  | nil => simp [alErase]
  | cons p m ih =>
    obtain ⟨k', v'⟩ := p
    by_cases h : k' = k
    · subst h
      simpa [alErase] using ih
    · simp [alErase, h, ih]

theorem alSet_absent {κ α : Type} [DecidableEq κ]
    (m : List (κ × α)) (k : κ) (v : α) (h : alLookup m k = Option.none) :
    alSet m k v = m ++ [(k, v)] := by
  induction m with
  | nil => simp [alSet]
  | cons p m ih =>
    obtain ⟨k', v'⟩ := p
    by_cases hk : k' = k
    · rw [hk] at h
      simp [alLookup] at h
    · simp only [alLookup, if_neg hk] at h
      simp [alSet, hk, ih h]

theorem adjGet_adjAdd_self (m : List (CellRef × List CellRef))
    (k x : CellRef) : adjGet (adjAdd m k x) k = setInsert (adjGet m k) x := by
  unfold adjAdd
  rcases h : alLookup m k with _ | s
  · simp only []
    unfold adjGet
    rw [alLookup_append]
    rw [h]
    simp only [alLookup, if_pos rfl, Option.getD_some]
    simp [setInsert]
  · simp only []
    unfold adjGet
    rw [alLookup_alUpdate_self, h]
    simp

theorem adjGet_adjAdd_ne (m : List (CellRef × List CellRef))
    (k k' x : CellRef) (h : k ≠ k') :
    adjGet (adjAdd m k x) k' = adjGet m k' := by
  unfold adjAdd
  rcases hm : alLookup m k with _ | s
  · simp only []
    unfold adjGet
    rw [alLookup_append]
    rcases hm' : alLookup m k' with _ | s'
    · simp [alLookup, if_neg h, Ne.symm h]
    · simp
  · simp only []
    unfold adjGet
    rw [alLookup_alUpdate_ne m k k' _ h]

theorem adjGet_adjDiscard_self (m : List (CellRef × List CellRef))
    (k x : CellRef) :
    adjGet (adjDiscard m k x) k = setDiscard (adjGet m k) x := by
  unfold adjDiscard adjGet
  rw [alLookup_alUpdate_self]
  rcases alLookup m k with _ | s
  · simp [setDiscard]
  · simp

theorem adjGet_adjDiscard_ne (m : List (CellRef × List CellRef))
    (k k' x : CellRef) (h : k ≠ k') :
    adjGet (adjDiscard m k x) k' = adjGet m k' := by
  unfold adjDiscard adjGet
  rw [alLookup_alUpdate_ne m k k' _ h]

theorem adjGet_alErase_self (m : List (CellRef × List CellRef))
    (k : CellRef) : adjGet (alErase m k) k = [] := by
  unfold adjGet
  rw [alLookup_alErase_self]
  rfl

theorem adjGet_alErase_ne (m : List (CellRef × List CellRef))
    (k k' : CellRef) (h : k ≠ k') :
    adjGet (alErase m k) k' = adjGet m k' := by
  unfold adjGet
  rw [alLookup_alErase_ne m k k' h]

/-- Membership in the hypothetical adjacency built by `_would_create_cycle`:
the original edges plus `dep → new_cell` for each dependency. -/
theorem tempAdj_spec (c : CellRef) :
    ∀ (ds : List CellRef) (m : List (CellRef × List CellRef)) (d x : CellRef),
      x ∈ adjGet (ds.foldl (fun a dep => adjAdd a dep c) m) d ↔
        x ∈ adjGet m d ∨ (d ∈ ds ∧ x = c) := by
  intro ds
  induction ds with
  | nil => simp
  | cons dep ds ih =>
    intro m d x
    simp only [List.foldl_cons]
    rw [ih]
    by_cases hd : dep = d
    · subst hd
      rw [adjGet_adjAdd_self, mem_setInsert]
      constructor
      · rintro ((h | h) | h)
        · exact Or.inl h
        · exact Or.inr ⟨by simp, h⟩
        · exact Or.inr ⟨by simp [h.1], h.2⟩
      · rintro (h | ⟨_, h⟩)
        · exact Or.inl (Or.inl h)
        · exact Or.inl (Or.inr h)
    · rw [adjGet_adjAdd_ne m dep d c hd]
      constructor
      · rintro (h | h)
        · exact Or.inl h
        · exact Or.inr ⟨by simp [h.1], h.2⟩
      · rintro (h | ⟨hmem, hx⟩)
        · exact Or.inl h
        · rcases List.mem_cons.mp hmem with h | h
          · exact absurd h.symm hd
          · exact Or.inr ⟨h, hx⟩

/-- Cycles survive when the edge set only grows. -/
theorem chainListB_mono {adj1 adj2 : List (CellRef × List CellRef)}
    (h : ∀ a b, b ∈ adjGet adj1 a → b ∈ adjGet adj2 a) :
    ∀ l, chainListB adj1 l = true → chainListB adj2 l = true := by
  intro l
  induction l with
  | nil => intro _; rfl
  | cons a p ih =>
    cases p with
    | nil => intro _; rfl
    | cons b p' =>
      intro hc
      obtain ⟨hedge, hrest⟩ := chainListB_cons_cons.mp hc
      exact chainListB_cons_cons.mpr ⟨h a b hedge, ih hrest⟩

theorem hasCycle_mono {adj1 adj2 : List (CellRef × List CellRef)}
    (h : ∀ a b, b ∈ adjGet adj1 a → b ∈ adjGet adj2 a) :
    HasCycleAdj adj1 → HasCycleAdj adj2 := by
  rintro ⟨l, hlen, hchain, hcyc⟩
  exact ⟨l, hlen, chainListB_mono h l hchain, hcyc⟩

/-- `_would_create_cycle` decides exactly whether the adjacency augmented
with the hypothetical edges `dep → new_cell` has a cycle, provided the node
keys are duplicate-free, the new cell is not a node, and every edge target
is a node. -/
theorem would_create_cycle_iff (g : DependencyGraph) (c : CellRef)
    (ds : List CellRef) (hkn : (nodeKeys g).Nodup) (hcn : isNode g c = false)
    (hTgt : ∀ a b, b ∈ adjGet g.adjacency_list a → b ∈ nodeKeys g) :
    _would_create_cycle g c ds = true ↔
      HasCycleAdj (ds.foldl (fun a dep => adjAdd a dep c) g.adjacency_list) := by
  unfold _would_create_cycle
  rw [hcn]
  simp only [if_false, Bool.false_eq_true, List.append_nil]
  have hcU : c ∉ nodeKeys g := by
    intro hmem
    unfold nodeKeys at hmem
    rw [← alLookup_isSome_iff_mem g.nodes c] at hmem
    unfold isNode at hcn
    rw [hcn] at hmem
    exact absurd hmem (by simp)
  have hU : (nodeKeys g ++ [c]).Nodup := by
    rw [List.nodup_append]
    exact ⟨hkn, List.nodup_singleton c, by
      intro x hx hc
      simp only [List.mem_singleton] at hc
      exact hcU (hc ▸ hx)⟩
  have hTgt' : ∀ a b,
      b ∈ adjGet (ds.foldl (fun a dep => adjAdd a dep c) g.adjacency_list) a →
        b ∈ nodeKeys g ++ [c] := by
    intro a b hb
    rcases (tempAdj_spec c ds g.adjacency_list a b).mp hb with h | ⟨_, h⟩
    · exact List.mem_append_left _ (hTgt a b h)
    · exact List.mem_append_right _ (by simp [h])
  constructor
  · intro h
    exact wcLoop_sound _ _ _ _ h
  · intro h
    by_contra hrun
    rw [Bool.not_eq_true] at hrun
    exact wcLoop_complete _ (nodeKeys g ++ [c]) hU hTgt' hrun h

/-! ## Structural invariants of the dependency graph -/

/-- Every forward adjacency edge `d → x` is justified: `x` is a node that
lists `d` among its dependencies. -/
def AdjSound (g : DependencyGraph) : Prop :=
  ∀ d x, x ∈ adjGet g.adjacency_list d →
    ∃ n, alLookup g.nodes x = some n ∧ d ∈ n.dependencies

/-- Every recorded dependent is justified: if `c` is listed among the
dependents of node `d`, then `c` is a node listing `d` among its
dependencies. -/
def DepSound (g : DependencyGraph) : Prop :=
  ∀ d nd, alLookup g.nodes d = some nd → ∀ c ∈ nd.dependents,
    ∃ nc, alLookup g.nodes c = some nc ∧ d ∈ nc.dependencies

/-- The structural invariant `add_formula` maintains. -/
structure GInv (g : DependencyGraph) : Prop where
  keysNodup : (nodeKeys g).Nodup
  adjSound : AdjSound g
  depSound : DepSound g
  acyclic : ¬ HasCycleAdj g.adjacency_list

/-- Every dependency of a node has the corresponding adjacency edge. -/
def AdjComplete (g : DependencyGraph) : Prop :=
  ∀ x n, alLookup g.nodes x = some n → ∀ d ∈ n.dependencies,
    x ∈ adjGet g.adjacency_list d

/-- Each node's dependency set is duplicate-free. -/
def DepsNodup (g : DependencyGraph) : Prop :=
  ∀ x n, alLookup g.nodes x = some n → n.dependencies.Nodup

/-- Each adjacency entry is duplicate-free. -/
def AdjValsNodup (g : DependencyGraph) : Prop :=
  ∀ d, (adjGet g.adjacency_list d).Nodup

/-- The dependency edge `a → b` as recorded in the node objects: node `b`
lists `a` among its dependencies. -/
def depEdgeB (g : DependencyGraph) (a b : CellRef) : Bool :=
  match alLookup g.nodes b with
  | some n => decide (a ∈ n.dependencies)
  | Option.none => false

/-- Consecutive dependency edges (node-object notion). -/
def chainDepB (g : DependencyGraph) : List CellRef → Bool
  | [] => true
  | [_] => true
  | a :: b :: l => depEdgeB g a b && chainDepB g (b :: l)

/-- A non-empty closed walk in the node-object dependency edges. -/
def HasDepCycle (g : DependencyGraph) : Prop :=
  ∃ l, 2 ≤ l.length ∧ chainDepB g l = true ∧ l.head? = l.getLast?

/-- Whether node `d` records `n` among its dependents. -/
def dependentB (g : DependencyGraph) (d n : CellRef) : Bool :=
  match alLookup g.nodes d with
  | some nd => decide (n ∈ nd.dependents)
  | Option.none => false

/-- The first removal loop body of `_remove_node` (over the node's
dependencies). -/
def rmDepStep (cell_ref : CellRef) (g : DependencyGraph) (dep : CellRef) :
    DependencyGraph :=
  let g := { g with adjacency_list := adjDiscard g.adjacency_list dep cell_ref }
  if isNode g dep then
    { g with nodes := (alUpdate g.nodes dep
        (fun n => { n with dependents := setDiscard n.dependents cell_ref })) }
  else g

/-- The second removal loop body of `_remove_node` (over the node's
dependents). -/
def rmDepdStep (cell_ref : CellRef) (g : DependencyGraph) (dependent : CellRef) :
    DependencyGraph :=
  let g := { g with reverse_adjacency_list :=
    (adjDiscard g.reverse_adjacency_list dependent cell_ref) }
  if isNode g dependent then
    { g with nodes := (alUpdate g.nodes dependent
        (fun n => { n with dependencies := setDiscard n.dependencies cell_ref })) }
  else g

/-- The insertion loop body of `add_formula` (over the new node's
dependencies). -/
def addDepStep (cell_ref : CellRef) (g : DependencyGraph) (dep : CellRef) :
    DependencyGraph :=
  let g := { g with
    adjacency_list := adjAdd g.adjacency_list dep cell_ref,
    reverse_adjacency_list := adjAdd g.reverse_adjacency_list cell_ref dep }
  if isNode g dep then
    { g with nodes := (alUpdate g.nodes dep
        (fun n => { n with dependents := setInsert n.dependents cell_ref })) }
  else g

theorem _remove_node_eq (g : DependencyGraph) (cell_ref : CellRef) :
    _remove_node g cell_ref =
      match alLookup g.nodes cell_ref with
      | Option.none => g
      | some node =>
        let g1 := node.dependencies.foldl (rmDepStep cell_ref) g
        let node2 := (alLookup g1.nodes cell_ref).getD node
        let g2 := node2.dependents.foldl (rmDepdStep cell_ref) g1
        { g2 with adjacency_list := alErase g2.adjacency_list cell_ref,
                  reverse_adjacency_list :=
                    (alErase g2.reverse_adjacency_list cell_ref),
                  nodes := alErase g2.nodes cell_ref } := rfl

theorem add_formula_eq (g : DependencyGraph) (c : CellRef) (f : String)
    (ds : List CellRef) :
    add_formula g c f ds =
      (let ds' := listToSet ds
       let gR := if isNode g c then _remove_node g c else g
       if _would_create_cycle gR c ds' then (false, gR)
       else
         let node : FormulaNode :=
           { cell_ref := c, formula := f, dependencies := ds', dependents := [] }
         let gI := { gR with nodes := alSet gR.nodes c node }
         let g3 := ds'.foldl (addDepStep c) gI
         let gM := _mark_dirty g3 c
         (true, { gM with _evaluation_order := _update_evaluation_order gM })) :=
  rfl

theorem mem_setDiscard (s : List CellRef) (x y : CellRef) :
    y ∈ setDiscard s x ↔ y ∈ s ∧ y ≠ x := by
  simp [setDiscard, List.mem_filter]

theorem setDiscard_subset {s : List CellRef} {x y : CellRef}
    (h : y ∈ setDiscard s x) : y ∈ s :=
  ((mem_setDiscard s x y).mp h).1

theorem GInv_init : GInv initGraph := by
  constructor
  · simp [nodeKeys, initGraph]
  · intro d x hx
    simp [initGraph, adjGet, alLookup] at hx
  · intro d nd hd
    simp [initGraph, alLookup] at hd
  · rintro ⟨l, hlen, hchain, _⟩
    cases l with
    | nil => simp at hlen
    | cons a p =>
      cases p with
      | nil => simp at hlen
      | cons b p' =>
        obtain ⟨hedge, _⟩ := chainListB_cons_cons.mp hchain
        simp [initGraph, adjGet, alLookup] at hedge

/-- Effect of one step of the first removal loop. -/
theorem rmDepStep_spec (c : CellRef) (g : DependencyGraph) (dep : CellRef) :
    (rmDepStep c g dep).reverse_adjacency_list = g.reverse_adjacency_list ∧
    (rmDepStep c g dep).nodes.map (fun p => p.1) =
      g.nodes.map (fun p => p.1) ∧
    (∀ x n1, alLookup (rmDepStep c g dep).nodes x = some n1 → ∃ n0,
      alLookup g.nodes x = some n0 ∧ n1.dependencies = n0.dependencies ∧
      n1.cell_ref = n0.cell_ref ∧ n1.formula = n0.formula ∧
      (∀ y ∈ n1.dependents, y ∈ n0.dependents)) ∧
    (∀ d x, x ∈ adjGet (rmDepStep c g dep).adjacency_list d →
      x ∈ adjGet g.adjacency_list d) ∧
    (c ∉ adjGet (rmDepStep c g dep).adjacency_list dep) ∧
    (∀ n1, alLookup (rmDepStep c g dep).nodes dep = some n1 →
      c ∉ n1.dependents) := by
  unfold rmDepStep
  by_cases hn : isNode { g with
      adjacency_list := adjDiscard g.adjacency_list dep c } dep
  · rw [if_pos hn]
    refine ⟨rfl, alUpdate_keys _ _ _, ?_, ?_, ?_, ?_⟩
    · intro x n1 h1
      by_cases hx : dep = x
      · subst hx
        rw [alLookup_alUpdate_self] at h1
        rcases h0 : alLookup g.nodes dep with _ | n0
        · rw [h0] at h1
          exact Option.noConfusion h1
        · rw [h0] at h1
          simp only [Option.map_some', Option.some.injEq] at h1
          refine ⟨n0, rfl, ?_, ?_, ?_, ?_⟩
          · rw [← h1]
          · rw [← h1]
          · rw [← h1]
          · intro y hy
            rw [← h1] at hy
            exact setDiscard_subset hy
      · rw [alLookup_alUpdate_ne _ _ _ _ hx] at h1
        exact ⟨n1, h1, rfl, rfl, rfl, fun y hy => hy⟩
    · intro d x hx
      by_cases hd : dep = d
      · subst hd
        rw [adjGet_adjDiscard_self] at hx
        exact setDiscard_subset hx
      · rw [adjGet_adjDiscard_ne _ _ _ _ hd] at hx
        exact hx
    · rw [adjGet_adjDiscard_self]
      intro hc
      exact ((mem_setDiscard _ _ _).mp hc).2 rfl
    · intro n1 h1
      rw [alLookup_alUpdate_self] at h1
      rcases h0 : alLookup g.nodes dep with _ | n0
      · rw [h0] at h1
        exact Option.noConfusion h1
      · rw [h0] at h1
        simp only [Option.map_some', Option.some.injEq] at h1
        rw [← h1]
        intro hc
        exact ((mem_setDiscard _ _ _).mp hc).2 rfl
  · rw [if_neg hn]
    refine ⟨rfl, rfl, ?_, ?_, ?_, ?_⟩
    · intro x n1 h1
      exact ⟨n1, h1, rfl, rfl, rfl, fun y hy => hy⟩
    · intro d x hx
      by_cases hd : dep = d
      · subst hd
        rw [adjGet_adjDiscard_self] at hx
        exact setDiscard_subset hx
      · rw [adjGet_adjDiscard_ne _ _ _ _ hd] at hx
        exact hx
    · rw [adjGet_adjDiscard_self]
      intro hc
      exact ((mem_setDiscard _ _ _).mp hc).2 rfl
    · intro n1 h1
      have h1' : alLookup g.nodes dep = some n1 := h1
      have hn' : (alLookup g.nodes dep).isSome = true := by rw [h1']; rfl
      exact absurd hn' hn

/-- Accumulated effect of the first removal loop. -/
theorem rmDepFold_spec (c : CellRef) :
    ∀ (ds : List CellRef) (g0 : DependencyGraph),
      (ds.foldl (rmDepStep c) g0).reverse_adjacency_list =
        g0.reverse_adjacency_list ∧
      (ds.foldl (rmDepStep c) g0).nodes.map (fun p => p.1) =
        g0.nodes.map (fun p => p.1) ∧
      (∀ x n1, alLookup (ds.foldl (rmDepStep c) g0).nodes x = some n1 →
        ∃ n0, alLookup g0.nodes x = some n0 ∧
          n1.dependencies = n0.dependencies ∧ n1.cell_ref = n0.cell_ref ∧
          n1.formula = n0.formula ∧
          (∀ y ∈ n1.dependents, y ∈ n0.dependents)) ∧
      (∀ d x, x ∈ adjGet (ds.foldl (rmDepStep c) g0).adjacency_list d →
        x ∈ adjGet g0.adjacency_list d) ∧
      (∀ d ∈ ds, c ∉ adjGet (ds.foldl (rmDepStep c) g0).adjacency_list d) ∧
      (∀ d ∈ ds, ∀ n1,
        alLookup (ds.foldl (rmDepStep c) g0).nodes d = some n1 →
          c ∉ n1.dependents) := by
  intro ds
  induction ds with
  | nil =>
    intro g0
    refine ⟨rfl, rfl, ?_, ?_, ?_, ?_⟩
    · intro x n1 h1
      exact ⟨n1, h1, rfl, rfl, rfl, fun y hy => hy⟩
    · intro d x hx
      exact hx
    · intro d hd
      exact absurd hd (List.not_mem_nil d)
    · intro d hd
      exact absurd hd (List.not_mem_nil d)
  | cons dep ds ih =>
    intro g0
    obtain ⟨s_rev, s_keys, s_nodes, s_adj, s_cadj, s_cdep⟩ :=
      rmDepStep_spec c g0 dep
    obtain ⟨i_rev, i_keys, i_nodes, i_adj, i_cadj, i_cdep⟩ :=
      ih (rmDepStep c g0 dep)
    simp only [List.foldl_cons]
    refine ⟨i_rev.trans s_rev, i_keys.trans s_keys, ?_, ?_, ?_, ?_⟩
    · intro x n2 h2
      obtain ⟨n1, h1, e1, e2, e3, hsub⟩ := i_nodes x n2 h2
      obtain ⟨n0, h0, f1, f2, f3, hsub0⟩ := s_nodes x n1 h1
      exact ⟨n0, h0, e1.trans f1, e2.trans f2, e3.trans f3,
        fun y hy => hsub0 y (hsub y hy)⟩
    · intro d x hx
      exact s_adj d x (i_adj d x hx)
    · intro d hd
      rcases List.mem_cons.mp hd with h | h
      · subst h
        intro hc
        exact s_cadj (i_adj d c hc)
      · exact i_cadj d h
    · intro d hd n2 h2
      rcases List.mem_cons.mp hd with h | h
      · subst h
        intro hc
        obtain ⟨n1, h1, _, _, _, hsub⟩ := i_nodes d n2 h2
        exact s_cdep n1 h1 (hsub c hc)
      · exact i_cdep d h n2 h2

/-- Effect of one step of the second removal loop. -/
theorem rmDepdStep_spec (c : CellRef) (g : DependencyGraph)
    (dependent : CellRef) :
    (rmDepdStep c g dependent).adjacency_list = g.adjacency_list ∧
    (rmDepdStep c g dependent).nodes.map (fun p => p.1) =
      g.nodes.map (fun p => p.1) ∧
    (∀ x n1, alLookup (rmDepdStep c g dependent).nodes x = some n1 → ∃ n0,
      alLookup g.nodes x = some n0 ∧ n1.dependents = n0.dependents ∧
      n1.cell_ref = n0.cell_ref ∧ n1.formula = n0.formula ∧
      (∀ y ∈ n1.dependencies, y ∈ n0.dependencies) ∧
      (∀ y ∈ n0.dependencies, y ≠ c → y ∈ n1.dependencies)) := by
  unfold rmDepdStep
  by_cases hn : isNode { g with reverse_adjacency_list :=
      (adjDiscard g.reverse_adjacency_list dependent c) } dependent
  · rw [if_pos hn]
    refine ⟨rfl, alUpdate_keys _ _ _, ?_⟩
    intro x n1 h1
    by_cases hx : dependent = x
    · subst hx
      rw [alLookup_alUpdate_self] at h1
      rcases h0 : alLookup g.nodes dependent with _ | n0
      · rw [h0] at h1
        exact Option.noConfusion h1
      · rw [h0] at h1
        simp only [Option.map_some', Option.some.injEq] at h1
        refine ⟨n0, rfl, ?_, ?_, ?_, ?_, ?_⟩
        · rw [← h1]
        · rw [← h1]
        · rw [← h1]
        · intro y hy
          rw [← h1] at hy
          exact setDiscard_subset hy
        · intro y hy hyc
          rw [← h1]
          exact (mem_setDiscard _ _ _).mpr ⟨hy, hyc⟩
    · rw [alLookup_alUpdate_ne _ _ _ _ hx] at h1
      exact ⟨n1, h1, rfl, rfl, rfl, fun y hy => hy, fun y hy _ => hy⟩
  · rw [if_neg hn]
    refine ⟨rfl, rfl, ?_⟩
    intro x n1 h1
    exact ⟨n1, h1, rfl, rfl, rfl, fun y hy => hy, fun y hy _ => hy⟩

/-- Accumulated effect of the second removal loop. -/
theorem rmDepdFold_spec (c : CellRef) :
    ∀ (ds : List CellRef) (g0 : DependencyGraph),
      (ds.foldl (rmDepdStep c) g0).adjacency_list = g0.adjacency_list ∧
      (ds.foldl (rmDepdStep c) g0).nodes.map (fun p => p.1) =
        g0.nodes.map (fun p => p.1) ∧
      (∀ x n1, alLookup (ds.foldl (rmDepdStep c) g0).nodes x = some n1 →
        ∃ n0, alLookup g0.nodes x = some n0 ∧ n1.dependents = n0.dependents ∧
          n1.cell_ref = n0.cell_ref ∧ n1.formula = n0.formula ∧
          (∀ y ∈ n1.dependencies, y ∈ n0.dependencies) ∧
          (∀ y ∈ n0.dependencies, y ≠ c → y ∈ n1.dependencies)) := by
  intro ds
  induction ds with
  | nil =>
    intro g0
    refine ⟨rfl, rfl, ?_⟩
    intro x n1 h1
    exact ⟨n1, h1, rfl, rfl, rfl, fun y hy => hy, fun y hy _ => hy⟩
  | cons dep ds ih =>
    intro g0
    obtain ⟨s_adj, s_keys, s_nodes⟩ := rmDepdStep_spec c g0 dep
    obtain ⟨i_adj, i_keys, i_nodes⟩ := ih (rmDepdStep c g0 dep)
    simp only [List.foldl_cons]
    refine ⟨i_adj.trans s_adj, i_keys.trans s_keys, ?_⟩
    intro x n2 h2
    obtain ⟨n1, h1, e1, e2, e3, hf, hb⟩ := i_nodes x n2 h2
    obtain ⟨n0, h0, f1, f2, f3, gf, gb⟩ := s_nodes x n1 h1
    exact ⟨n0, h0, e1.trans f1, e2.trans f2, e3.trans f3,
      fun y hy => gf y (hf y hy),
      fun y hy hyc => hb y (gb y hy hyc) hyc⟩

/-- The invariant survives the removal of a node, stated over any pair of
intermediate states satisfying the two loop specifications. -/
theorem remove_final_GInv (g : DependencyGraph) (hg : GInv g) (c : CellRef)
    (node : FormulaNode) (h : alLookup g.nodes c = some node)
    (g1 g2 : DependencyGraph)
    (f1_keys : g1.nodes.map (fun p => p.1) = g.nodes.map (fun p => p.1))
    (f1_nodes : ∀ x n1, alLookup g1.nodes x = some n1 →
      ∃ n0, alLookup g.nodes x = some n0 ∧
        n1.dependencies = n0.dependencies ∧ n1.cell_ref = n0.cell_ref ∧
        n1.formula = n0.formula ∧ (∀ y ∈ n1.dependents, y ∈ n0.dependents))
    (f1_adj : ∀ d x, x ∈ adjGet g1.adjacency_list d →
      x ∈ adjGet g.adjacency_list d)
    (f1_cadj : ∀ d ∈ node.dependencies, c ∉ adjGet g1.adjacency_list d)
    (f1_cdep : ∀ d ∈ node.dependencies, ∀ n1,
      alLookup g1.nodes d = some n1 → c ∉ n1.dependents)
    (f2_adj : g2.adjacency_list = g1.adjacency_list)
    (f2_keys : g2.nodes.map (fun p => p.1) = g1.nodes.map (fun p => p.1))
    (f2_nodes : ∀ x n1, alLookup g2.nodes x = some n1 →
      ∃ n0, alLookup g1.nodes x = some n0 ∧ n1.dependents = n0.dependents ∧
        n1.cell_ref = n0.cell_ref ∧ n1.formula = n0.formula ∧
        (∀ y ∈ n1.dependencies, y ∈ n0.dependencies) ∧
        (∀ y ∈ n0.dependencies, y ≠ c → y ∈ n1.dependencies)) :
    GInv { g2 with adjacency_list := alErase g2.adjacency_list c,
                   reverse_adjacency_list :=
                     (alErase g2.reverse_adjacency_list c),
                   nodes := alErase g2.nodes c } := by
  have keys12 : g2.nodes.map (fun p => p.1) = g.nodes.map (fun p => p.1) :=
    f2_keys.trans f1_keys
  have A1 : ∀ x n1, alLookup g1.nodes x = some n1 → c ∉ n1.dependents := by
    intro x n1 h1 hc
    by_cases hxds : x ∈ node.dependencies
    · exact f1_cdep x hxds n1 h1 hc
    · obtain ⟨n0, h0, _, _, _, hsub⟩ := f1_nodes x n1 h1
      obtain ⟨nc, hnc, hx0⟩ := hg.depSound x n0 h0 c (hsub c hc)
      have hne : node = nc := by
        have := h.symm.trans hnc
        injection this
      exact hxds (hne ▸ hx0)
  have lift : ∀ x nx, x ≠ c → alLookup g.nodes x = some nx →
      ∃ n2, alLookup (alErase g2.nodes c) x = some n2 ∧
        ∀ d ∈ nx.dependencies, d ≠ c → d ∈ n2.dependencies := by
    intro x nx hxc hnx
    have hxk : x ∈ g.nodes.map (fun p => p.1) :=
      (alLookup_isSome_iff_mem _ _).mp (by rw [hnx]; rfl)
    have hsome2 : (alLookup g2.nodes x).isSome :=
      (alLookup_isSome_iff_mem _ _).mpr (keys12 ▸ hxk)
    rcases h2 : alLookup g2.nodes x with _ | n2
    · rw [h2] at hsome2
      exact absurd hsome2 (by simp)
    · obtain ⟨n1, h1, _, _, _, _, hdb⟩ := f2_nodes x n2 h2
      obtain ⟨n0, h0, e_deps, _, _, _⟩ := f1_nodes x n1 h1
      have hn0 : n0 = nx := by
        have := h0.symm.trans hnx
        injection this
      subst hn0
      refine ⟨n2, ?_, ?_⟩
      · rw [alLookup_alErase_ne _ _ _ (fun hh => hxc hh.symm)]
        exact h2
      · intro d hd hdc
        exact hdb d (e_deps ▸ hd) hdc
  constructor
  · show ((alErase g2.nodes c).map (fun p => p.1)).Nodup
    rw [alErase_keys, keys12]
    exact List.Nodup.filter _ hg.keysNodup
  · intro d x hx
    simp only [adjGet] at hx ⊢
    by_cases hdc : c = d
    · subst hdc
      rw [alLookup_alErase_self] at hx
      exact absurd hx (by simp)
    · rw [alLookup_alErase_ne _ _ _ hdc] at hx
      have hx1 : x ∈ adjGet g1.adjacency_list d := by
        rw [← f2_adj]
        exact hx
      have hx0 : x ∈ adjGet g.adjacency_list d := f1_adj d x hx1
      obtain ⟨n0, h0x, hdn0⟩ := hg.adjSound d x hx0
      by_cases hxc : x = c
      · subst hxc
        have hnn : node = n0 := by
          have := h.symm.trans h0x
          injection this
        exact absurd hx1 (f1_cadj d (hnn ▸ hdn0))
      · obtain ⟨n2, h2x, hlift⟩ := lift x n0 hxc h0x
        exact ⟨n2, h2x, hlift d hdn0 (fun hh => hdc hh.symm)⟩
  · intro d nd hd y hy
    have hdc : d ≠ c := by
      intro hh
      subst hh
      rw [alLookup_alErase_self] at hd
      exact Option.noConfusion hd
    rw [alLookup_alErase_ne _ _ _ (fun hh => hdc hh.symm)] at hd
    obtain ⟨n1, h1d, e_depd, _, _, _, _⟩ := f2_nodes d nd hd
    obtain ⟨n0, h0d, _, _, _, hsub_depd⟩ := f1_nodes d n1 h1d
    have hy1 : y ∈ n1.dependents := e_depd ▸ hy
    have hyc : y ≠ c := by
      intro hh
      exact A1 d n1 h1d (hh ▸ hy1)
    obtain ⟨nc0, hnc0, hdnc0⟩ := hg.depSound d n0 h0d y (hsub_depd y hy1)
    obtain ⟨ny2, hny2, hlift⟩ := lift y nc0 hyc hnc0
    exact ⟨ny2, hny2, hlift d hdnc0 hdc⟩
  · intro hcyc
    apply hg.acyclic
    refine hasCycle_mono ?_ hcyc
    intro a b hb
    simp only [adjGet] at hb
    by_cases hac : c = a
    · subst hac
      rw [alLookup_alErase_self] at hb
      exact absurd hb (by simp)
    · rw [alLookup_alErase_ne _ _ _ hac] at hb
      refine f1_adj a b ?_
      rw [← f2_adj]
      exact hb

/-- `_remove_node` preserves the structural invariant. -/
theorem remove_node_GInv {g : DependencyGraph} (hg : GInv g) (c : CellRef) :
    GInv (_remove_node g c) := by
  rcases h : alLookup g.nodes c with _ | node
  · have heq : _remove_node g c = g := by
      rw [_remove_node_eq, h]
    rw [heq]
    exact hg
  · obtain ⟨_, f1_keys, f1_nodes, f1_adj, f1_cadj, f1_cdep⟩ :=
      rmDepFold_spec c node.dependencies g
    obtain ⟨f2_adj, f2_keys, f2_nodes⟩ :=
      rmDepdFold_spec c
        ((alLookup (node.dependencies.foldl (rmDepStep c) g).nodes c).getD
          node).dependents
        (node.dependencies.foldl (rmDepStep c) g)
    have heq : _remove_node g c =
        { (((alLookup (node.dependencies.foldl (rmDepStep c) g).nodes c).getD
              node).dependents.foldl (rmDepdStep c)
              (node.dependencies.foldl (rmDepStep c) g)) with
          adjacency_list :=
            (alErase (((alLookup (node.dependencies.foldl (rmDepStep c)
              g).nodes c).getD node).dependents.foldl (rmDepdStep c)
              (node.dependencies.foldl (rmDepStep c) g)).adjacency_list c),
          reverse_adjacency_list :=
            (alErase (((alLookup (node.dependencies.foldl (rmDepStep c)
              g).nodes c).getD node).dependents.foldl (rmDepdStep c)
              (node.dependencies.foldl (rmDepStep c) g)).reverse_adjacency_list
              c),
          nodes :=
            (alErase (((alLookup (node.dependencies.foldl (rmDepStep c)
              g).nodes c).getD node).dependents.foldl (rmDepdStep c)
              (node.dependencies.foldl (rmDepStep c) g)).nodes c) } := by
      rw [_remove_node_eq, h]
    rw [heq]
    exact remove_final_GInv g hg c node h _ _ f1_keys f1_nodes f1_adj f1_cadj
      f1_cdep f2_adj f2_keys f2_nodes

/-- After `_remove_node g c`, `c` is no longer a node. -/
theorem remove_node_lookup (g : DependencyGraph) (c : CellRef)
    (h : (alLookup g.nodes c).isSome = true) :
    alLookup (_remove_node g c).nodes c = Option.none := by
  rcases hh : alLookup g.nodes c with _ | node
  · rw [hh] at h
    exact absurd h (by simp)
  · have heq : (_remove_node g c).nodes =
        (alErase (((alLookup (node.dependencies.foldl (rmDepStep c) g).nodes
          c).getD node).dependents.foldl (rmDepdStep c)
          (node.dependencies.foldl (rmDepStep c) g)).nodes c) := by
      rw [_remove_node_eq, hh]
    rw [heq, alLookup_alErase_self]

/-- The insertion loop only builds adjacency edges `dep → cell`. -/
theorem addDepFold_adj (c : CellRef) :
    ∀ (ds : List CellRef) (g0 : DependencyGraph),
      (ds.foldl (addDepStep c) g0).adjacency_list =
        ds.foldl (fun a dep => adjAdd a dep c) g0.adjacency_list := by
  intro ds
  induction ds with
  | nil => intro g0; rfl
  | cons dep ds ih =>
    intro g0
    simp only [List.foldl_cons]
    rw [ih]
    have hstep : (addDepStep c g0 dep).adjacency_list =
        adjAdd g0.adjacency_list dep c := by
      unfold addDepStep
      by_cases hn : isNode { g0 with
          adjacency_list := adjAdd g0.adjacency_list dep c,
          reverse_adjacency_list := adjAdd g0.reverse_adjacency_list c dep }
          dep
      · rw [if_pos hn]
      · rw [if_neg hn]
    rw [hstep]

/-- Node-map effect of the insertion loop: keys are unchanged, dependencies
are untouched, and `c` is added to the dependents of exactly the processed
dependencies. -/
theorem addDepFold_nodes (c : CellRef) :
    ∀ (ds : List CellRef), ds.Nodup → ∀ (g0 : DependencyGraph),
      ((ds.foldl (addDepStep c) g0).nodes.map (fun p => p.1) =
        g0.nodes.map (fun p => p.1)) ∧
      (∀ x n3, alLookup (ds.foldl (addDepStep c) g0).nodes x = some n3 →
        ∃ n0, alLookup g0.nodes x = some n0 ∧
          n3.dependencies = n0.dependencies ∧ n3.cell_ref = n0.cell_ref ∧
          n3.formula = n0.formula ∧
          (if x ∈ ds then n3.dependents = setInsert n0.dependents c
           else n3.dependents = n0.dependents)) := by
  intro ds
  induction ds with
  | nil =>
    intro _ g0
    refine ⟨rfl, ?_⟩
    intro x n3 h3
    exact ⟨n3, h3, rfl, rfl, rfl, by simp⟩
  | cons dep ds ih =>
    intro hnd g0
    rw [List.nodup_cons] at hnd
    obtain ⟨hdep, hnd'⟩ := hnd
    have hstep_keys : (addDepStep c g0 dep).nodes.map (fun p => p.1) =
        g0.nodes.map (fun p => p.1) := by
      unfold addDepStep
      by_cases hn : isNode { g0 with
          adjacency_list := adjAdd g0.adjacency_list dep c,
          reverse_adjacency_list := adjAdd g0.reverse_adjacency_list c dep }
          dep
      · rw [if_pos hn]
        exact alUpdate_keys _ _ _
      · rw [if_neg hn]
    have hstep_nodes : ∀ x n1,
        alLookup (addDepStep c g0 dep).nodes x = some n1 →
        ∃ n0, alLookup g0.nodes x = some n0 ∧
          n1.dependencies = n0.dependencies ∧ n1.cell_ref = n0.cell_ref ∧
          n1.formula = n0.formula ∧
          (if x = dep then n1.dependents = setInsert n0.dependents c
           else n1.dependents = n0.dependents) := by
      unfold addDepStep
      by_cases hn : isNode { g0 with
          adjacency_list := adjAdd g0.adjacency_list dep c,
          reverse_adjacency_list := adjAdd g0.reverse_adjacency_list c dep }
          dep
      · rw [if_pos hn]
        intro x n1 h1
        by_cases hx : dep = x
        · subst hx
          rw [alLookup_alUpdate_self] at h1
          rcases h0 : alLookup g0.nodes dep with _ | n0
          · rw [h0] at h1
            exact Option.noConfusion h1
          · rw [h0] at h1
            simp only [Option.map_some', Option.some.injEq] at h1
            refine ⟨n0, rfl, ?_, ?_, ?_, ?_⟩
            · rw [← h1]
            · rw [← h1]
            · rw [← h1]
            · rw [if_pos rfl, ← h1]
        · rw [alLookup_alUpdate_ne _ _ _ _ hx] at h1
          exact ⟨n1, h1, rfl, rfl, rfl, by
            rw [if_neg (fun hh => hx hh.symm)]⟩
      · rw [if_neg hn]
        intro x n1 h1
        refine ⟨n1, h1, rfl, rfl, rfl, ?_⟩
        by_cases hx : x = dep
        · subst hx
          have h1' : alLookup g0.nodes x = some n1 := h1
          have hs : (alLookup g0.nodes x).isSome = true := by rw [h1']; rfl
          exact absurd hs hn
        · rw [if_neg hx]
    obtain ⟨i_keys, i_nodes⟩ := ih hnd' (addDepStep c g0 dep)
    simp only [List.foldl_cons]
    refine ⟨i_keys.trans hstep_keys, ?_⟩
    intro x n3 h3
    obtain ⟨n1, h1, e1, e2, e3, hdepd1⟩ := i_nodes x n3 h3
    obtain ⟨n0, h0, f1, f2, f3, hdepd0⟩ := hstep_nodes x n1 h1
    refine ⟨n0, h0, e1.trans f1, e2.trans f2, e3.trans f3, ?_⟩
    by_cases hx1 : x ∈ ds
    · have hxdep : ¬ x = dep := fun hh => hdep (hh ▸ hx1)
      rw [if_pos (by simp [hx1])]
      rw [if_pos hx1] at hdepd1
      rw [if_neg hxdep] at hdepd0
      rw [hdepd1, hdepd0]
    · by_cases hx2 : x = dep
      · subst hx2
        rw [if_pos (by simp)]
        rw [if_neg hx1] at hdepd1
        rw [if_pos rfl] at hdepd0
        rw [hdepd1, hdepd0]
      · rw [if_neg (by simp [hx1, hx2])]
        rw [if_neg hx1] at hdepd1
        rw [if_neg hx2] at hdepd0
        rw [hdepd1, hdepd0]

/-- The removal `add_formula` performs on a pre-existing node. -/
def removeIfPresent (g : DependencyGraph) (c : CellRef) : DependencyGraph :=
  if isNode g c then _remove_node g c else g

/-- The state a successful `add_formula` call leaves behind. -/
def addSuccessGraph (g : DependencyGraph) (c : CellRef) (f : String)
    (ds : List CellRef) : DependencyGraph :=
  let gR := removeIfPresent g c
  let node : FormulaNode :=
    { cell_ref := c, formula := f, dependencies := listToSet ds,
      dependents := [] }
  let gI := { gR with nodes := alSet gR.nodes c node }
  let g3 := (listToSet ds).foldl (addDepStep c) gI
  let gM := _mark_dirty g3 c
  { gM with _evaluation_order := _update_evaluation_order gM }

theorem add_formula_cases (g : DependencyGraph) (c : CellRef) (f : String)
    (ds : List CellRef) :
    add_formula g c f ds =
      if _would_create_cycle (removeIfPresent g c) c (listToSet ds)
      then (false, removeIfPresent g c)
      else (true, addSuccessGraph g c f ds) := rfl

theorem addSuccessGraph_nodes (g : DependencyGraph) (c : CellRef) (f : String)
    (ds : List CellRef) :
    (addSuccessGraph g c f ds).nodes =
      ((listToSet ds).foldl (addDepStep c)
        { removeIfPresent g c with
          nodes := (alSet (removeIfPresent g c).nodes c
            { cell_ref := c, formula := f, dependencies := listToSet ds,
              dependents := [] }) }).nodes := rfl

theorem addSuccessGraph_adj (g : DependencyGraph) (c : CellRef) (f : String)
    (ds : List CellRef) :
    (addSuccessGraph g c f ds).adjacency_list =
      ((listToSet ds).foldl (addDepStep c)
        { removeIfPresent g c with
          nodes := (alSet (removeIfPresent g c).nodes c
            { cell_ref := c, formula := f, dependencies := listToSet ds,
              dependents := [] }) }).adjacency_list := rfl

theorem removeIfPresent_lookup (g : DependencyGraph) (c : CellRef) :
    alLookup (removeIfPresent g c).nodes c = Option.none := by
  unfold removeIfPresent
  by_cases hn : isNode g c
  · rw [if_pos hn]
    exact remove_node_lookup g c hn
  · rw [if_neg hn]
    unfold isNode at hn
    rcases hh : alLookup g.nodes c with _ | v
    · rfl
    · rw [hh] at hn
      exact absurd rfl hn

theorem removeIfPresent_GInv {g : DependencyGraph} (hg : GInv g)
    (c : CellRef) : GInv (removeIfPresent g c) := by
  unfold removeIfPresent
  by_cases hn : isNode g c
  · rw [if_pos hn]
    exact remove_node_GInv hg c
  · rw [if_neg hn]
    exact hg

/-- The invariant after a successful insertion, stated over any state whose
node map and adjacency agree with the insertion loop's result. -/
theorem add_core_GInv (gR : DependencyGraph) (hg : GInv gR) (c : CellRef)
    (node : FormulaNode) (ds' : List CellRef)
    (hnode_deps : node.dependencies = ds') (hnode_depd : node.dependents = [])
    (hds : ds'.Nodup) (hcn : alLookup gR.nodes c = Option.none)
    (hacyc : ¬ HasCycleAdj (ds'.foldl (fun a dep => adjAdd a dep c)
      gR.adjacency_list))
    (gF : DependencyGraph)
    (hFn : gF.nodes = (ds'.foldl (addDepStep c)
      { gR with nodes := alSet gR.nodes c node }).nodes)
    (hFa : gF.adjacency_list = (ds'.foldl (addDepStep c)
      { gR with nodes := alSet gR.nodes c node }).adjacency_list) :
    GInv gF ∧
      ∀ d ∈ ds', ∀ n3, alLookup gF.nodes d = some n3 → c ∈ n3.dependents := by
  obtain ⟨k3, n3spec⟩ := addDepFold_nodes c ds' hds
    { gR with nodes := alSet gR.nodes c node }
  have keysI : (alSet gR.nodes c node).map (fun p => p.1) =
      gR.nodes.map (fun p => p.1) ++ [c] := by
    rw [alSet_absent gR.nodes c node hcn]
    simp
  have keys3 : (ds'.foldl (addDepStep c)
      { gR with nodes := alSet gR.nodes c node }).nodes.map (fun p => p.1) =
      gR.nodes.map (fun p => p.1) ++ [c] := k3.trans keysI
  have hcK : c ∉ gR.nodes.map (fun p => p.1) := by
    intro hmem
    have := (alLookup_isSome_iff_mem gR.nodes c).mpr hmem
    rw [hcn] at this
    exact absurd this (by simp)
  have lookupIc : alLookup (alSet gR.nodes c node) c = some node :=
    alLookup_alSet_self _ _ _
  have cNode3 : ∃ n3c, alLookup gF.nodes c = some n3c ∧
      n3c.dependencies = ds' := by
    have hmem : c ∈ (ds'.foldl (addDepStep c)
        { gR with nodes := alSet gR.nodes c node }).nodes.map (fun p => p.1) := by
      rw [keys3]
      simp
    have hsome := (alLookup_isSome_iff_mem _ _).mpr hmem
    rcases h3 : alLookup (ds'.foldl (addDepStep c)
        { gR with nodes := alSet gR.nodes c node }).nodes c with _ | n3c
    · rw [h3] at hsome
      exact absurd hsome (by simp)
    · obtain ⟨nI, hI, e1, _, _, _⟩ := n3spec c n3c h3
      have hnI : nI = node := by
        have hh := hI.symm.trans lookupIc
        injection hh
      refine ⟨n3c, ?_, ?_⟩
      · rw [hFn]
        exact h3
      · rw [e1, hnI, hnode_deps]
  have lift3 : ∀ x nx, x ≠ c → alLookup gR.nodes x = some nx →
      ∃ n3, alLookup gF.nodes x = some n3 ∧
        n3.dependencies = nx.dependencies := by
    intro x nx hxc hnx
    have hmem : x ∈ (ds'.foldl (addDepStep c)
        { gR with nodes := alSet gR.nodes c node }).nodes.map (fun p => p.1) := by
      rw [keys3]
      exact List.mem_append_left _
        ((alLookup_isSome_iff_mem _ _).mp (by rw [hnx]; rfl))
    have hsome := (alLookup_isSome_iff_mem _ _).mpr hmem
    rcases h3 : alLookup (ds'.foldl (addDepStep c)
        { gR with nodes := alSet gR.nodes c node }).nodes x with _ | n3
    · rw [h3] at hsome
      exact absurd hsome (by simp)
    · obtain ⟨nI, hI, e1, _, _, _⟩ := n3spec x n3 h3
      have hInd : alLookup gR.nodes x = some nI := by
        have := alLookup_alSet_ne gR.nodes c x node (fun hh => hxc hh.symm)
        rw [← this]
        exact hI
      have hnI : nI = nx := by
        have hh := hInd.symm.trans hnx
        injection hh
      refine ⟨n3, ?_, ?_⟩
      · rw [hFn]
        exact h3
      · rw [e1, hnI]
  have adjF : ∀ d x, x ∈ adjGet gF.adjacency_list d ↔
      x ∈ adjGet gR.adjacency_list d ∨ (d ∈ ds' ∧ x = c) := by
    intro d x
    rw [hFa, addDepFold_adj]
    exact tempAdj_spec c ds' gR.adjacency_list d x
  refine ⟨⟨?_, ?_, ?_, ?_⟩, ?_⟩
  · show (nodeKeys gF).Nodup
    unfold nodeKeys
    rw [hFn, keys3, List.nodup_append]
    exact ⟨hg.keysNodup, List.nodup_singleton c, by
      intro x hx hc
      simp only [List.mem_singleton] at hc
      exact hcK (hc ▸ hx)⟩
  · intro d x hx
    rcases (adjF d x).mp hx with hold | ⟨hdds, hxc⟩
    · obtain ⟨n0, h0, hd0⟩ := hg.adjSound d x hold
      have hxc : x ≠ c := by
        intro hh
        rw [hh, hcn] at h0
        exact Option.noConfusion h0
      obtain ⟨n3, h3, e⟩ := lift3 x n0 hxc h0
      exact ⟨n3, h3, e ▸ hd0⟩
    · subst hxc
      obtain ⟨n3c, h3c, hdeps⟩ := cNode3
      exact ⟨n3c, h3c, hdeps ▸ hdds⟩
  · intro d nd hd y hy
    rw [hFn] at hd
    obtain ⟨nI, hI, e_deps, _, _, hif⟩ := n3spec d nd hd
    by_cases hdc : c = d
    · subst hdc
      have hnI : nI = node := by
        have hh := hI.symm.trans lookupIc
        injection hh
      by_cases hcds : c ∈ ds'
      · rw [if_pos hcds] at hif
        rw [hif, hnI, hnode_depd] at hy
        rcases (mem_setInsert _ _ _).mp hy with hh | hh
        · exact absurd hh (List.not_mem_nil y)
        · subst hh
          obtain ⟨n3c, h3c, hdeps⟩ := cNode3
          exact ⟨n3c, h3c, hdeps ▸ hcds⟩
      · rw [if_neg hcds] at hif
        rw [hif, hnI, hnode_depd] at hy
        exact absurd hy (List.not_mem_nil y)
    · have hInd : alLookup gR.nodes d = some nI := by
        have := alLookup_alSet_ne gR.nodes c d node hdc
        rw [← this]
        exact hI
      have hold : y ∈ nI.dependents → ∃ nc, alLookup gF.nodes y = some nc ∧
          d ∈ nc.dependencies := by
        intro hyI
        obtain ⟨nc0, hnc0, hdnc0⟩ := hg.depSound d nI hInd y hyI
        have hyc : y ≠ c := by
          intro hh
          rw [hh, hcn] at hnc0
          exact Option.noConfusion hnc0
        obtain ⟨ny3, h3, e⟩ := lift3 y nc0 hyc hnc0
        exact ⟨ny3, h3, e ▸ hdnc0⟩
      by_cases hdds : d ∈ ds'
      · rw [if_pos hdds] at hif
        rw [hif] at hy
        rcases (mem_setInsert _ _ _).mp hy with hh | hh
        · exact hold hh
        · subst hh
          obtain ⟨n3c, h3c, hdeps⟩ := cNode3
          exact ⟨n3c, h3c, hdeps ▸ hdds⟩
      · rw [if_neg hdds] at hif
        rw [hif] at hy
        exact hold hy
  · intro hc
    apply hacyc
    refine hasCycle_mono ?_ hc
    intro a b hb
    exact (tempAdj_spec c ds' gR.adjacency_list a b).mpr ((adjF a b).mp hb)
  · intro d hd n3 h3
    rw [hFn] at h3
    obtain ⟨nI, hI, _, _, _, hif⟩ := n3spec d n3 h3
    rw [if_pos hd] at hif
    rw [hif]
    exact (mem_setInsert _ _ _).mpr (Or.inr rfl)

/-- Edge targets of an invariant-satisfying graph are nodes. -/
theorem GInv_targets {g : DependencyGraph} (hg : GInv g) :
    ∀ a b, b ∈ adjGet g.adjacency_list a → b ∈ nodeKeys g := by
  intro a b hb
  obtain ⟨n, hn, _⟩ := hg.adjSound a b hb
  exact (alLookup_isSome_iff_mem _ _).mp (by rw [hn]; rfl)

theorem removeIfPresent_isNode (g : DependencyGraph) (c : CellRef) :
    isNode (removeIfPresent g c) c = false := by
  unfold isNode
  rw [removeIfPresent_lookup]
  rfl

/-- A negative cycle check certifies acyclicity of the hypothetical
adjacency. -/
theorem add_not_cycle {g : DependencyGraph} (hg : GInv g) {c : CellRef}
    {ds : List CellRef}
    (hwc : ¬ _would_create_cycle (removeIfPresent g c) c (listToSet ds) = true) :
    ¬ HasCycleAdj ((listToSet ds).foldl (fun a dep => adjAdd a dep c)
      (removeIfPresent g c).adjacency_list) := by
  intro hcy
  have hgR := removeIfPresent_GInv hg c
  exact hwc ((would_create_cycle_iff (removeIfPresent g c) c (listToSet ds)
    hgR.keysNodup (removeIfPresent_isNode g c) (GInv_targets hgR)).mpr hcy)

/-- `add_formula` preserves the structural invariant. -/
theorem add_formula_GInv {g : DependencyGraph} (hg : GInv g) (c : CellRef)
    (f : String) (ds : List CellRef) : GInv (add_formula g c f ds).2 := by
  rw [add_formula_cases]
  by_cases hwc : _would_create_cycle (removeIfPresent g c) c (listToSet ds) = true
  · rw [if_pos hwc]
    exact removeIfPresent_GInv hg c
  · rw [if_neg hwc]
    exact (add_core_GInv (removeIfPresent g c) (removeIfPresent_GInv hg c) c
      { cell_ref := c, formula := f, dependencies := listToSet ds,
        dependents := [] }
      (listToSet ds) rfl rfl (listToSet_nodup ds) (removeIfPresent_lookup g c)
      (add_not_cycle hg hwc) (addSuccessGraph g c f ds)
      (addSuccessGraph_nodes g c f ds) (addSuccessGraph_adj g c f ds)).1

/-- A successful `add_formula` records the new cell among the dependents of
every dependency that ends up being a node. -/
theorem add_formula_success_dependents {g : DependencyGraph} (hg : GInv g)
    (c : CellRef) (f : String) (ds : List CellRef) {g' : DependencyGraph}
    (h : add_formula g c f ds = (true, g')) :
    ∀ D ∈ listToSet ds, ∀ nD, alLookup g'.nodes D = some nD →
      c ∈ nD.dependents := by
  rw [add_formula_cases] at h
  by_cases hwc : _would_create_cycle (removeIfPresent g c) c (listToSet ds) = true
  · rw [if_pos hwc] at h
    have hb : false = true := congrArg Prod.fst h
    exact absurd hb (by simp)
  · rw [if_neg hwc] at h
    have hg' : addSuccessGraph g c f ds = g' := congrArg Prod.snd h
    rw [← hg']
    exact (add_core_GInv (removeIfPresent g c) (removeIfPresent_GInv hg c) c
      { cell_ref := c, formula := f, dependencies := listToSet ds,
        dependents := [] }
      (listToSet ds) rfl rfl (listToSet_nodup ds) (removeIfPresent_lookup g c)
      (add_not_cycle hg hwc) (addSuccessGraph g c f ds)
      (addSuccessGraph_nodes g c f ds) (addSuccessGraph_adj g c f ds)).2

theorem foldl_add_GInv :
    ∀ (ops : List AddOp) (g0 : DependencyGraph), GInv g0 →
      GInv (ops.foldl (fun g op =>
        (add_formula g op.cell op.formula op.deps).2) g0) := by
  intro ops
  induction ops with
  | nil => intro g0 h; exact h
  | cons op ops ih =>
    intro g0 h
    simp only [List.foldl_cons]
    exact ih _ (add_formula_GInv h op.cell op.formula op.deps)

/-- Every state reachable through `add_formula` satisfies the structural
invariant. -/
theorem reachable_GInv {g : DependencyGraph} (h : Reachable g) : GInv g := by
  obtain ⟨ops, rfl⟩ := h
  exact foldl_add_GInv ops initGraph GInv_init

/-! ## Claims C3, C4, C5 -/

def rA1 : CellRef := ⟨"A", 1⟩

def rB1 : CellRef := ⟨"B", 1⟩

/-- The replacement sequence leaving a stale dependency record: `B1` is
added depending on `A1` before `A1` exists, then `A1` is added. -/
def c5ops : List AddOp := [⟨rB1, "=A1", [rA1]⟩, ⟨rA1, "", []⟩]

/-- Continuing `c5ops`, `A1` is replaced by a formula depending on `B1`;
the removal of the old `A1` does not clear `B1`'s stale dependency. -/
def c4ops : List AddOp := c5ops ++ [⟨rA1, "=B1", [rB1]⟩]

/-- C4.  Counterexample: after `c4ops`, the node objects record the mutual
dependency cycle `A1 ⇄ B1` (a non-empty closed sequence of dependency
edges), yet `has_circular_dependency` returns `(false, None)` — it traverses
the adjacency list, which has diverged from the node dependency sets. -/
theorem C4_counterexample :
    Reachable (applyOps c4ops) ∧ HasDepCycle (applyOps c4ops) ∧
    has_circular_dependency (applyOps c4ops) = (false, Option.none) :=
  ⟨⟨c4ops, rfl⟩, ⟨[rA1, rB1, rA1], by decide, by decide, rfl⟩, by decide⟩

/-- C4 as amended.  `has_circular_dependency` reports a cycle iff the stored
adjacency-list edge relation has one; on every state reachable through
`add_formula` the adjacency list is acyclic (cycle-closing inserts are
rejected), so the function returns `(false, None)` — even when the stale
node dependency sets do contain a cycle. -/
theorem C4_has_circular_amended (g : DependencyGraph) (h : Reachable g) :
    has_circular_dependency g = (false, Option.none) ∧
    ¬ HasCycleAdj g.adjacency_list := by
  have hg := reachable_GInv h
  refine ⟨?_, hg.acyclic⟩
  unfold has_circular_dependency
  rcases hc : hcLoop g.adjacency_list (g.nodes.length + 1) (nodeKeys g) []
    with _ | cyc
  · rfl
  · exact absurd (hcLoop_sound _ _ _ _ cyc hc) hg.acyclic

/-- Witness for C4's amended theorem at the `c4ops` state. -/
theorem C4_has_circular_amended_witness :
    Reachable (applyOps c4ops) ∧
    (has_circular_dependency (applyOps c4ops) = (false, Option.none) ∧
     ¬ HasCycleAdj (applyOps c4ops).adjacency_list) :=
  ⟨⟨c4ops, rfl⟩, C4_has_circular_amended _ ⟨c4ops, rfl⟩⟩

/-- C3.  On every reachable graph state, `add_formula` returns `false`
exactly when the stored adjacency edges left after removing any
pre-existing node at the coordinate, extended with the hypothetical edges
`dep → coord`, contain a cycle; and on failure the returned graph is
exactly the state after that removal (a replaced formula is not
restored). -/
theorem C3_add_rejection (g : DependencyGraph) (h : Reachable g) (c : CellRef)
    (f : String) (ds : List CellRef) :
    ((add_formula g c f ds).1 = false ↔
      HasCycleAdj ((listToSet ds).foldl (fun a dep => adjAdd a dep c)
        (removeIfPresent g c).adjacency_list)) ∧
    ((add_formula g c f ds).1 = false →
      (add_formula g c f ds).2 = removeIfPresent g c) := by
  have hg := reachable_GInv h
  have hgR := removeIfPresent_GInv hg c
  have hiff := would_create_cycle_iff (removeIfPresent g c) c (listToSet ds)
    hgR.keysNodup (removeIfPresent_isNode g c) (GInv_targets hgR)
  rw [add_formula_cases]
  by_cases hwc : _would_create_cycle (removeIfPresent g c) c (listToSet ds) = true
  · rw [if_pos hwc]
    exact ⟨⟨fun _ => hiff.mp hwc, fun _ => rfl⟩, fun _ => rfl⟩
  · rw [if_neg hwc]
    refine ⟨⟨?_, ?_⟩, ?_⟩
    · intro hfalse
      exact absurd hfalse (by simp)
    · intro hcy
      exact absurd (hiff.mpr hcy) hwc
    · intro hfalse
      exact absurd hfalse (by simp)

/-- Witness for C3 at the empty graph. -/
theorem C3_add_rejection_witness :
    Reachable initGraph ∧
    (((add_formula initGraph rA1 "" []).1 = false ↔
      HasCycleAdj ((listToSet []).foldl (fun a dep => adjAdd a dep rA1)
        (removeIfPresent initGraph rA1).adjacency_list)) ∧
     ((add_formula initGraph rA1 "" []).1 = false →
      (add_formula initGraph rA1 "" []).2 = removeIfPresent initGraph rA1)) :=
  ⟨⟨[], rfl⟩, C3_add_rejection initGraph ⟨[], rfl⟩ rA1 "" []⟩

/-- C5.  Counterexample: after `c5ops`, node `B1` lists `A1` among its
dependencies, `A1` is a node of the graph, and yet `A1`'s dependents do not
contain `B1` — the dependents link is not back-filled when the dependency's
node is added after the dependent. -/
theorem C5_counterexample :
    Reachable (applyOps c5ops) ∧
    depEdgeB (applyOps c5ops) rA1 rB1 = true ∧
    isNode (applyOps c5ops) rA1 = true ∧
    dependentB (applyOps c5ops) rA1 rB1 = false :=
  ⟨⟨c5ops, rfl⟩, by decide, by decide, by decide⟩

/-- C5 as amended.  On every reachable state the dependents records are
sound (every recorded dependent is a genuine dependency edge), and a
successful `add_formula(c, …)` records `c` as a dependent of every passed
dependency that is a node afterwards; but the link is established only at
that moment — a dependency whose node is created later never learns of the
dependent (see the counterexample). -/
theorem C5_dependents_amended (g : DependencyGraph) (h : Reachable g) :
    DepSound g ∧
    (∀ c f ds g', add_formula g c f ds = (true, g') →
      ∀ D ∈ listToSet ds, ∀ nD, alLookup g'.nodes D = some nD →
        c ∈ nD.dependents) := by
  have hg := reachable_GInv h
  exact ⟨hg.depSound, fun c f ds g' hadd =>
    add_formula_success_dependents hg c f ds hadd⟩

/-- Witness for C5's amended theorem at the empty graph. -/
theorem C5_dependents_amended_witness :
    Reachable initGraph ∧
    (DepSound initGraph ∧
     (∀ c f ds g', add_formula initGraph c f ds = (true, g') →
       ∀ D ∈ listToSet ds, ∀ nD, alLookup g'.nodes D = some nD →
         c ∈ nD.dependents)) :=
  ⟨⟨[], rfl⟩, C5_dependents_amended initGraph ⟨[], rfl⟩⟩

/-! ## A set whose every member has an in-set predecessor yields a cycle -/

theorem chainListB_prefix {adj : List (CellRef × List CellRef)} :
    ∀ (l1 l2 : List CellRef), chainListB adj (l1 ++ l2) = true →
      chainListB adj l1 = true := by
  intro l1
  induction l1 with
  | nil => intro l2 _; rfl
  | cons a t ih =>
    intro l2 hc
    cases t with
    | nil => rfl
    | cons b t' =>
      obtain ⟨he, hr⟩ := chainListB_cons_cons.mp hc
      exact chainListB_cons_cons.mpr ⟨he, ih l2 hr⟩

theorem pair_sublist_split {x : CellRef} :
    ∀ l : List CellRef, List.Sublist [x, x] l →
      ∃ l1 l2 l3, l = l1 ++ x :: l2 ++ x :: l3 := by
  intro l
  induction l with
  | nil => intro h; exact absurd h (by simp)
  | cons b t ih =>
    intro h
    cases h with
    | cons _ h' =>
      obtain ⟨l1, l2, l3, heq⟩ := ih h'
      exact ⟨b :: l1, l2, l3, by rw [heq]; rfl⟩
    | cons₂ _ h' =>
      have hx : x ∈ t := List.singleton_sublist.mp h'
      obtain ⟨l2, l3, heq⟩ := List.append_of_mem hx
      exact ⟨[], l2, l3, by rw [heq]; rfl⟩

/-- Walk construction: iterating in-set predecessors yields arbitrarily
long chains inside the set. -/
theorem pred_walk (adj : List (CellRef × List CellRef)) (S : List CellRef)
    (hpred : ∀ s ∈ S, ∃ p ∈ S, s ∈ adjGet adj p) :
    ∀ (n : Nat) (s : CellRef), s ∈ S →
      ∃ w : List CellRef, w.length = n + 1 ∧ chainListB adj w = true ∧
        w.getLast? = some s ∧ ∀ y ∈ w, y ∈ S := by
  intro n
  induction n with
  | zero =>
    intro s hs
    exact ⟨[s], rfl, rfl, rfl, by
      intro y hy
      rcases List.mem_singleton.mp hy with rfl
      exact hs⟩
  | succ n ih =>
    intro s hs
    obtain ⟨p, hpS, hedge⟩ := hpred s hs
    obtain ⟨w, hlen, hchain, hlast, hmem⟩ := ih p hpS
    refine ⟨w ++ [s], by simp [hlen], chainListB_append_edge hchain hlast hedge,
      by simp, ?_⟩
    intro y hy
    rcases List.mem_append.mp hy with h | h
    · exact hmem y h
    · rcases List.mem_singleton.mp h with rfl
      exact hs

/-- Pigeonhole: a non-empty set in which every element has an in-set
predecessor contains a cycle. -/
theorem cycle_of_pred (adj : List (CellRef × List CellRef))
    (S : List CellRef) (hS : S ≠ [])
    (hpred : ∀ s ∈ S, ∃ p ∈ S, s ∈ adjGet adj p) : HasCycleAdj adj := by
  obtain ⟨s0, hs0⟩ : ∃ s, s ∈ S := by
    cases S with
    | nil => exact absurd rfl hS
    | cons a t => exact ⟨a, by simp⟩
  obtain ⟨w, hlen, hchain, _, hmem⟩ := pred_walk adj S hpred S.length s0 hs0
  have hnotnodup : ¬ w.Nodup := by
    intro hnd
    have hsub : w.Subperm S := List.Nodup.subperm hnd hmem
    have := hsub.length_le
    omega
  obtain ⟨x, hxx⟩ : ∃ x, List.Sublist [x, x] w := by
    by_contra hnone
    push_neg at hnone
    exact hnotnodup (List.nodup_iff_sublist.mpr hnone)
  obtain ⟨l1, l2, l3, heq⟩ := pair_sublist_split w hxx
  refine ⟨x :: l2 ++ [x], by simp, ?_, ?_⟩
  · have hw : chainListB adj (l1 ++ (x :: (l2 ++ x :: l3))) = true := by
      have hsh : l1 ++ (x :: (l2 ++ x :: l3)) = w := by
        rw [heq]
        simp
      rw [hsh]
      exact hchain
    have h1 := chainListB_suffix l1 hw
    have h2 : chainListB adj ((x :: l2 ++ [x]) ++ l3) = true := by
      have hassoc : (x :: l2 ++ [x]) ++ l3 = x :: (l2 ++ x :: l3) := by simp
      rw [hassoc]
      exact h1
    exact chainListB_prefix _ _ h2
  · show (x :: l2 ++ [x]).head? = (x :: l2 ++ [x]).getLast?
    rw [show x :: l2 ++ [x] = (x :: l2) ++ [x] from rfl, List.getLast?_concat]
    rfl

/-! ## Kahn's algorithm (`_update_evaluation_order`) -/

theorem idGet_alSet_self (m : List (CellRef × Int)) (k : CellRef) (v : Int) :
    idGet (alSet m k v) k = v := by
  unfold idGet
  rw [alLookup_alSet_self]
  rfl

theorem idGet_alSet_ne (m : List (CellRef × Int)) (k k' : CellRef) (v : Int)
    (h : k ≠ k') : idGet (alSet m k v) k' = idGet m k' := by
  unfold idGet
  rw [alLookup_alSet_ne _ _ _ _ h]

theorem alLookup_mapVal {κ α β : Type} [DecidableEq κ] (f : α → β) :
    ∀ (m : List (κ × α)) (k : κ),
      alLookup (m.map (fun p => (p.1, f p.2))) k = (alLookup m k).map f := by
  intro m
  induction m with
  | nil => intro k; rfl
  | cons p m ih =>
    intro k
    obtain ⟨k', v'⟩ := p
    by_cases h : k' = k
    · simp [alLookup, h]
    · simp only [List.map_cons, alLookup, if_neg h]
      exact ih k

/-- One pass of the inner loop of Kahn's algorithm: every node among the
popped vertex's dependents has its in-degree decremented, and exactly those
whose stored in-degree was 1 are enqueued, in order. -/
theorem kahnStep_spec (nodes : List (CellRef × FormulaNode)) :
    ∀ (ds : List CellRef), ds.Nodup →
      ∀ (indeg : List (CellRef × Int)) (queue : List CellRef),
      (∀ k, idGet (kahnStep nodes ds indeg queue).1 k =
        if k ∈ ds ∧ (alLookup nodes k).isSome = true then idGet indeg k - 1
        else idGet indeg k) ∧
      (kahnStep nodes ds indeg queue).2 = queue ++ ds.filter
        (fun d => (alLookup nodes d).isSome &&
          decide (idGet indeg d = 1)) := by
  intro ds
  induction ds with
  | nil =>
    intro _ indeg queue
    exact ⟨fun k => by simp [kahnStep], by simp [kahnStep]⟩
  | cons d ds ih =>
    intro hnd indeg queue
    rw [List.nodup_cons] at hnd
    obtain ⟨hdds, hnd'⟩ := hnd
    by_cases hd : (alLookup nodes d).isSome = true
    · have hred : kahnStep nodes (d :: ds) indeg queue =
          kahnStep nodes ds (alSet indeg d (idGet indeg d - 1))
            (if idGet indeg d - 1 = 0 then queue ++ [d] else queue) := by
        simp only [kahnStep, hd, if_true]
      obtain ⟨ih1, ih2⟩ := ih hnd' (alSet indeg d (idGet indeg d - 1))
        (if idGet indeg d - 1 = 0 then queue ++ [d] else queue)
      constructor
      · intro k
        rw [hred, ih1 k]
        by_cases hk : k = d
        · subst hk
          rw [idGet_alSet_self]
          rw [if_neg (fun hc => hdds hc.1), if_pos ⟨by simp, hd⟩]
        · rw [idGet_alSet_ne indeg d k _ (fun hh => hk hh.symm)]
          by_cases hkds : k ∈ ds
          · by_cases hks : (alLookup nodes k).isSome = true
            · rw [if_pos ⟨hkds, hks⟩, if_pos ⟨by simp [hkds], hks⟩]
            · rw [if_neg (fun hc => hks hc.2), if_neg (fun hc => hks hc.2)]
          · rw [if_neg (fun hc => hkds hc.1), if_neg (fun hc => hk (by
              rcases List.mem_cons.mp hc.1 with hh | hh
              · exact hh
              · exact absurd hh hkds))]
      · rw [hred, ih2]
        have hfil : ds.filter (fun d' => (alLookup nodes d').isSome &&
            decide (idGet (alSet indeg d (idGet indeg d - 1)) d' = 1)) =
            ds.filter (fun d' => (alLookup nodes d').isSome &&
              decide (idGet indeg d' = 1)) := by
          apply List.filter_congr
          intro x hx
          have hxd : d ≠ x := fun hh => hdds (hh ▸ hx)
          rw [idGet_alSet_ne indeg d x _ hxd]
        rw [hfil]
        rw [List.filter_cons]
        by_cases hv : idGet indeg d - 1 = 0
        · have hcond : ((alLookup nodes d).isSome &&
              decide (idGet indeg d = 1)) = true := by
            rw [hd]
            simp only [Bool.true_and, decide_eq_true_eq]
            omega
          rw [if_pos hv, hcond]
          simp
        · have hcond : ((alLookup nodes d).isSome &&
              decide (idGet indeg d = 1)) = false := by
            rw [hd]
            simp only [Bool.true_and, decide_eq_false_iff_not]
            omega
          rw [if_neg hv, hcond]
          simp
    · have hdb : (alLookup nodes d).isSome = false := by
        rcases hb : (alLookup nodes d).isSome with _ | _
        · rfl
        · exact absurd hb hd
      have hred : kahnStep nodes (d :: ds) indeg queue =
          kahnStep nodes ds indeg queue := by
        simp only [kahnStep, hdb]
        rfl
      obtain ⟨ih1, ih2⟩ := ih hnd' indeg queue
      constructor
      · intro k
        rw [hred, ih1 k]
        by_cases hk : k = d
        · subst hk
          rw [if_neg (fun hc => hd hc.2), if_neg (fun hc => hd hc.2)]
        · by_cases hkds : k ∈ ds
          · by_cases hks : (alLookup nodes k).isSome = true
            · rw [if_pos ⟨hkds, hks⟩, if_pos ⟨by simp [hkds], hks⟩]
            · rw [if_neg (fun hc => hks hc.2), if_neg (fun hc => hks hc.2)]
          · rw [if_neg (fun hc => hkds hc.1), if_neg (fun hc => hk (by
              rcases List.mem_cons.mp hc.1 with hh | hh
              · exact hh
              · exact absurd hh hkds))]
      · rw [hred, ih2]
        rw [List.filter_cons]
        have hcond : ((alLookup nodes d).isSome &&
            decide (idGet indeg d = 1)) = false := by
          rcases hb : (alLookup nodes d).isSome with _ | _
          · rfl
          · exact absurd hb hd
        rw [hcond]
        simp

theorem filter_and_ne_eq {p : CellRef → Bool} {c : CellRef} :
    ∀ {l : List CellRef}, (c ∈ l → p c = false) →
      l.filter (fun d => p d && decide (d ≠ c)) = l.filter p := by
  intro l hyp
  apply List.filter_congr
  intro d hd
  by_cases hdc : d = c
  · subst hdc
    rw [hyp hd]
    rfl
  · simp [hdc]

theorem filter_length_discard {p : CellRef → Bool} {c : CellRef} :
    ∀ {l : List CellRef}, l.Nodup → c ∈ l → p c = true →
      (l.filter p).length =
        (l.filter (fun d => p d && decide (d ≠ c))).length + 1 := by
  intro l
  induction l with
  | nil => intro _ hc; exact absurd hc (List.not_mem_nil c)
  | cons a l ih =>
    intro hnd hc hpc
    rw [List.nodup_cons] at hnd
    obtain ⟨hal, hnd'⟩ := hnd
    by_cases hac : a = c
    · subst hac
      rw [List.filter_cons, List.filter_cons, hpc]
      rw [if_pos rfl, if_neg (by simp)]
      simp only [List.length_cons]
      rw [filter_and_ne_eq (fun hmem => absurd hmem hal)]
    · have hcl : c ∈ l := by
        rcases List.mem_cons.mp hc with h | h
        · exact absurd h.symm hac
        · exact h
      rw [List.filter_cons, List.filter_cons]
      have h2 : (p a && decide (a ≠ c)) = p a := by simp [hac]
      rw [h2]
      by_cases hpa : p a = true
      · rw [hpa]
        simp only [if_true, List.length_cons]
        rw [ih hnd' hcl hpc]
      · have hpa' : p a = false := by
          rcases hb : p a with _ | _
          · rfl
          · exact absurd hb hpa
        rw [hpa']
        simp only [if_false, Bool.false_eq_true]
        exact ih hnd' hcl hpc

theorem nodup_keys_length_le {result : List CellRef}
    (nodes : List (CellRef × FormulaNode)) (hnd : result.Nodup)
    (hmem : ∀ r ∈ result, (alLookup nodes r).isSome = true) :
    result.length ≤ nodes.length := by
  have hsub : ∀ r ∈ result, r ∈ nodes.map (fun p => p.1) := by
    intro r hr
    exact (alLookup_isSome_iff_mem _ _).mp (hmem r hr)
  have hsp : result.Subperm (nodes.map (fun p => p.1)) :=
    List.Nodup.subperm hnd hsub
  have := hsp.length_le
  rw [List.length_map] at this
  exact this

/-- A cycle out of a single self-edge. -/
theorem self_edge_cycle {adj : List (CellRef × List CellRef)} {a : CellRef}
    (h : a ∈ adjGet adj a) : HasCycleAdj adj :=
  ⟨[a, a], by simp, by simp [chainListB, h], by simp⟩

/-- Correctness of the queue loop of Kahn's algorithm: under the structural
invariants, with enough fuel, the final result lists every node exactly
once, topologically sorted with respect to the adjacency edges. -/
theorem kahnLoop_run (nodes : List (CellRef × FormulaNode))
    (adj : List (CellRef × List CellRef))
    (hAdjSound : ∀ d x, x ∈ adjGet adj d →
      ∃ n, alLookup nodes x = some n ∧ d ∈ n.dependencies)
    (hAdjComp : ∀ x n, alLookup nodes x = some n → ∀ d ∈ n.dependencies,
      x ∈ adjGet adj d)
    (hDepsNodup : ∀ x n, alLookup nodes x = some n → n.dependencies.Nodup)
    (hAdjNodup : ∀ d, (adjGet adj d).Nodup)
    (hAcyc : ¬ HasCycleAdj adj) :
    ∀ (fuel : Nat) (queue : List CellRef) (indeg : List (CellRef × Int))
      (result : List CellRef),
      result.Nodup →
      (∀ r ∈ result, (alLookup nodes r).isSome = true) →
      queue.Nodup →
      (∀ q ∈ queue, (alLookup nodes q).isSome = true ∧ q ∉ result) →
      (∀ k n, alLookup nodes k = some n → idGet indeg k =
        ((n.dependencies.filter (fun d => (alLookup nodes d).isSome &&
          decide (d ∉ result))).length : Int)) →
      (∀ k, (alLookup nodes k).isSome = true → k ∉ result →
        (k ∈ queue ↔ idGet indeg k = 0)) →
      (∀ a b, b ∈ adjGet adj a → (alLookup nodes a).isSome = true →
        b ∈ result → a ∈ result ∧ result.indexOf a < result.indexOf b) →
      nodes.length + 1 ≤ fuel + result.length →
      (kahnLoop nodes adj fuel queue indeg result).Nodup ∧
      (∀ k, k ∈ kahnLoop nodes adj fuel queue indeg result ↔
        (alLookup nodes k).isSome = true) ∧
      (∀ a b, b ∈ adjGet adj a → (alLookup nodes a).isSome = true →
        (kahnLoop nodes adj fuel queue indeg result).indexOf a <
          (kahnLoop nodes adj fuel queue indeg result).indexOf b) := by
  intro fuel
  induction fuel with
  | zero =>
    intro queue indeg result hRnd hRmem _ _ _ _ _ hFuel
    have := nodup_keys_length_le nodes hRnd hRmem
    omega
  | succ fuel ih =>
    intro queue indeg result hRnd hRmem hQnd hQmem hIC hQC hTopo hFuel
    cases queue with
    | nil =>
      have hred : kahnLoop nodes adj (fuel + 1) [] indeg result = result := rfl
      rw [hred]
      have hcov : ∀ k, (alLookup nodes k).isSome = true → k ∈ result := by
        by_contra hnone
        push_neg at hnone
        obtain ⟨k0, hk0s, hk0r⟩ := hnone
        have hSne : (nodes.map (fun p => p.1)).filter
            (fun k => decide (k ∉ result)) ≠ [] := by
          intro h0
          have hmem : k0 ∈ (nodes.map (fun p => p.1)).filter
              (fun k => decide (k ∉ result)) :=
            List.mem_filter.mpr ⟨(alLookup_isSome_iff_mem _ _).mp hk0s,
              by simpa using hk0r⟩
          rw [h0] at hmem
          exact absurd hmem (List.not_mem_nil k0)
        apply absurd _ hAcyc
        apply cycle_of_pred adj _ hSne
        intro s hs
        have hs' := List.mem_filter.mp hs
        have hsr : s ∉ result := by simpa using hs'.2
        have hss : (alLookup nodes s).isSome = true :=
          (alLookup_isSome_iff_mem _ _).mpr hs'.1
        rcases hsn : alLookup nodes s with _ | n
        · rw [hsn] at hss
          exact absurd hss (by simp)
        · have hnot0 : ¬ idGet indeg s = 0 := by
            intro h0
            have := (hQC s hss hsr).mpr h0
            exact absurd this (List.not_mem_nil s)
          have hid := hIC s n hsn
          have hlen : (n.dependencies.filter
              (fun d => (alLookup nodes d).isSome &&
                decide (d ∉ result))).length ≠ 0 := by
            intro h0
            apply hnot0
            rw [hid, h0]
            rfl
          obtain ⟨d, hdmem⟩ : ∃ d, d ∈ n.dependencies.filter
              (fun d => (alLookup nodes d).isSome && decide (d ∉ result)) :=
            List.exists_mem_of_length_pos (Nat.pos_of_ne_zero hlen)
          have hdf := List.mem_filter.mp hdmem
          have hds : (alLookup nodes d).isSome = true ∧ d ∉ result := by
            have h2 := hdf.2
            simp only [Bool.and_eq_true, decide_eq_true_eq] at h2
            exact h2
          refine ⟨d, ?_, ?_⟩
          · exact List.mem_filter.mpr ⟨(alLookup_isSome_iff_mem _ _).mp hds.1,
              by simpa using hds.2⟩
          · exact hAdjComp s n hsn d hdf.1
      refine ⟨hRnd, ?_, ?_⟩
      · intro k
        exact ⟨fun hk => hRmem k hk, fun hk => hcov k hk⟩
      · intro a b hedge has
        obtain ⟨n, hbn, _⟩ := hAdjSound a b hedge
        have hbs : (alLookup nodes b).isSome = true := by rw [hbn]; rfl
        exact (hTopo a b hedge has (hcov b hbs)).2
    | cons current queue =>
      obtain ⟨hcs, hcr⟩ := hQmem current (by simp)
      rcases hcn : alLookup nodes current with _ | ncur
      · rw [hcn] at hcs
        exact absurd hcs (by simp)
      have hcur0 : idGet indeg current = 0 := (hQC current hcs hcr).mp (by simp)
      have hpend0 : ∀ d ∈ ncur.dependencies,
          (alLookup nodes d).isSome = true → d ∈ result := by
        have hid := hIC current ncur hcn
        rw [hcur0] at hid
        have hlen0 : (ncur.dependencies.filter
            (fun d => (alLookup nodes d).isSome &&
              decide (d ∉ result))).length = 0 := by omega
        have hnil := List.length_eq_zero.mp hlen0
        intro d hdd hdsome
        by_contra hdres
        have hmem : d ∈ ncur.dependencies.filter
            (fun d => (alLookup nodes d).isSome && decide (d ∉ result)) :=
          List.mem_filter.mpr ⟨hdd, by simp [hdsome, hdres]⟩
        rw [hnil] at hmem
        exact absurd hmem (List.not_mem_nil d)
      rw [List.nodup_cons] at hQnd
      obtain ⟨hcq, hQnd'⟩ := hQnd
      obtain ⟨hs1, hs2⟩ := kahnStep_spec nodes (adjGet adj current)
        (hAdjNodup current) indeg queue
      have hred : kahnLoop nodes adj (fuel + 1) (current :: queue) indeg
          result = kahnLoop nodes adj fuel
            (kahnStep nodes (adjGet adj current) indeg queue).2
            (kahnStep nodes (adjGet adj current) indeg queue).1
            (result ++ [current]) := rfl
      rw [hred]
      have hnoself : current ∉ adjGet adj current := fun hself =>
        hAcyc (self_edge_cycle hself)
      have hedge_notres : ∀ q ∈ adjGet adj current, q ∉ result := by
        intro q hq hqres
        exact hcr (hTopo current q hq hcs hqres).1
      have henq_mem : ∀ q ∈ (adjGet adj current).filter
          (fun d => (alLookup nodes d).isSome &&
            decide (idGet indeg d = 1)),
          q ∈ adjGet adj current ∧ (alLookup nodes q).isSome = true ∧
            idGet indeg q = 1 := by
        intro q hq
        have h2 := List.mem_filter.mp hq
        have h3 := h2.2
        simp only [Bool.and_eq_true, decide_eq_true_eq] at h3
        exact ⟨h2.1, h3.1, h3.2⟩
      have hRnd' : (result ++ [current]).Nodup := by
        rw [List.nodup_append]
        refine ⟨hRnd, List.nodup_singleton _, ?_⟩
        intro x hx hxc
        simp only [List.mem_singleton] at hxc
        subst hxc
        exact hcr hx
      have hRmem' : ∀ r ∈ result ++ [current],
          (alLookup nodes r).isSome = true := by
        intro r hr
        rcases List.mem_append.mp hr with h | h
        · exact hRmem r h
        · simp only [List.mem_singleton] at h
          subst h
          exact hcs
      have hQmem' : ∀ q ∈ (kahnStep nodes (adjGet adj current) indeg queue).2,
          (alLookup nodes q).isSome = true ∧ q ∉ result ++ [current] := by
        intro q hq
        rw [hs2] at hq
        rcases List.mem_append.mp hq with h | h
        · obtain ⟨h1, h2⟩ := hQmem q (by simp [h])
          refine ⟨h1, ?_⟩
          intro hmem
          rcases List.mem_append.mp hmem with hh | hh
          · exact h2 hh
          · simp only [List.mem_singleton] at hh
            subst hh
            exact hcq h
        · obtain ⟨hqadj, hqs, hq1⟩ := henq_mem q h
          refine ⟨hqs, ?_⟩
          intro hmem
          rcases List.mem_append.mp hmem with hh | hh
          · exact hedge_notres q hqadj hh
          · simp only [List.mem_singleton] at hh
            subst hh
            exact hnoself hqadj
      have hQnd'' : (kahnStep nodes (adjGet adj current) indeg queue).2.Nodup := by
        rw [hs2, List.nodup_append]
        refine ⟨hQnd', List.Nodup.filter _ (hAdjNodup current), ?_⟩
        intro x hx hxf
        obtain ⟨_, _, hx1⟩ := henq_mem x hxf
        obtain ⟨hxs, hxr⟩ := hQmem x (by simp [hx])
        have hx0 : idGet indeg x = 0 := (hQC x hxs hxr).mp (by simp [hx])
        omega
      have hIC' : ∀ k n, alLookup nodes k = some n →
          idGet (kahnStep nodes (adjGet adj current) indeg queue).1 k =
          ((n.dependencies.filter (fun d => (alLookup nodes d).isSome &&
            decide (d ∉ result ++ [current]))).length : Int) := by
        intro k n hkn
        have hks : (alLookup nodes k).isSome = true := by rw [hkn]; rfl
        have hfeq : n.dependencies.filter
            (fun d => (alLookup nodes d).isSome &&
              decide (d ∉ result ++ [current])) =
            n.dependencies.filter
              (fun d => ((alLookup nodes d).isSome && decide (d ∉ result)) &&
                decide (d ≠ current)) := by
          apply List.filter_congr
          intro d _
          rcases hb : (alLookup nodes d).isSome with _ | _
          · rfl
          · by_cases h2 : d ∈ result
            · simp [h2]
            · by_cases h3 : d = current
              · simp [h2, h3]
              · simp [h2, h3]
        rw [hfeq, hs1 k]
        by_cases hkadj : k ∈ adjGet adj current
        · rw [if_pos ⟨hkadj, hks⟩]
          obtain ⟨n', hkn', hcin⟩ := hAdjSound current k hkadj
          have hnn : n' = n := by
            have hh := hkn'.symm.trans hkn
            injection hh
          subst hnn
          have hdisc := @filter_length_discard
            (fun d => (alLookup nodes d).isSome && decide (d ∉ result))
            current n'.dependencies (hDepsNodup k n' hkn) hcin
            (by simp [hcs, hcr])
          have hcnt := hIC k n' hkn
          rw [hcnt, hdisc]
          push_cast
          omega
        · rw [if_neg (fun hcc => hkadj hcc.1)]
          have hnotdep : current ∉ n.dependencies := by
            intro hin
            exact hkadj (hAdjComp k n hkn current hin)
          rw [filter_and_ne_eq (fun hmem => absurd hmem hnotdep)]
          exact hIC k n hkn
      have hQC' : ∀ k, (alLookup nodes k).isSome = true →
          k ∉ result ++ [current] →
          (k ∈ (kahnStep nodes (adjGet adj current) indeg queue).2 ↔
            idGet (kahnStep nodes (adjGet adj current) indeg queue).1 k = 0) := by
        intro k hks hkr'
        have hkr : k ∉ result := fun hh => hkr' (List.mem_append_left _ hh)
        have hkc : k ≠ current := by
          intro hh
          exact hkr' (by simp [hh])
        rw [hs1 k, hs2]
        by_cases hkadj : k ∈ adjGet adj current
        · rw [if_pos ⟨hkadj, hks⟩]
          constructor
          · intro hmem
            rcases List.mem_append.mp hmem with h | h
            · have h0 : idGet indeg k = 0 := (hQC k hks hkr).mp (by simp [h])
              rcases hkn : alLookup nodes k with _ | nk
              · rw [hkn] at hks
                exact absurd hks (by simp)
              · obtain ⟨n', hkn', hcin⟩ := hAdjSound current k hkadj
                have hnn : n' = nk := by
                  have hh := hkn'.symm.trans hkn
                  injection hh
                subst hnn
                have hcnt := hIC k n' hkn
                have hcmem : current ∈ n'.dependencies.filter
                    (fun d => (alLookup nodes d).isSome &&
                      decide (d ∉ result)) :=
                  List.mem_filter.mpr ⟨hcin, by simp [hcs, hcr]⟩
                have hpos := List.length_pos_of_mem hcmem
                rw [hcnt] at h0
                omega
            · obtain ⟨_, _, h1⟩ := henq_mem k h
              omega
          · intro h0
            have h1 : idGet indeg k = 1 := by omega
            apply List.mem_append_right
            exact List.mem_filter.mpr ⟨hkadj, by simp [hks, h1]⟩
        · rw [if_neg (fun hcc => hkadj hcc.1)]
          have hnotenq : k ∉ (adjGet adj current).filter
              (fun d => (alLookup nodes d).isSome &&
                decide (idGet indeg d = 1)) := fun hkf =>
            hkadj (List.mem_filter.mp hkf).1
          constructor
          · intro hmem
            rcases List.mem_append.mp hmem with h | h
            · exact (hQC k hks hkr).mp (by simp [h])
            · exact absurd h hnotenq
          · intro h0
            apply List.mem_append_left
            have hmem := (hQC k hks hkr).mpr h0
            rcases List.mem_cons.mp hmem with hh | hh
            · exact absurd hh hkc
            · exact hh
      have hTopo' : ∀ a b, b ∈ adjGet adj a →
          (alLookup nodes a).isSome = true → b ∈ result ++ [current] →
          a ∈ result ++ [current] ∧
            (result ++ [current]).indexOf a <
              (result ++ [current]).indexOf b := by
        intro a b hedge has hbmem
        rcases List.mem_append.mp hbmem with hb | hb
        · obtain ⟨har, hlt⟩ := hTopo a b hedge has hb
          refine ⟨List.mem_append_left _ har, ?_⟩
          rw [List.indexOf_append_of_mem har, List.indexOf_append_of_mem hb]
          exact hlt
        · simp only [List.mem_singleton] at hb
          subst hb
          obtain ⟨n', hl', hain⟩ := hAdjSound a b hedge
          have hnn : n' = ncur := by
            have hh := hl'.symm.trans hcn
            injection hh
          subst hnn
          have har : a ∈ result := hpend0 a hain has
          refine ⟨List.mem_append_left _ har, ?_⟩
          rw [List.indexOf_append_of_mem har,
            List.indexOf_append_of_not_mem hcr]
          have h1 : result.indexOf a < result.length :=
            List.indexOf_lt_length.mpr har
          rw [List.indexOf_cons_self]
          omega
      have hFuel' : nodes.length + 1 ≤ fuel + (result ++ [current]).length := by
        simp only [List.length_append, List.length_singleton]
        omega
      exact ih (kahnStep nodes (adjGet adj current) indeg queue).2
        (kahnStep nodes (adjGet adj current) indeg queue).1
        (result ++ [current]) hRnd' hRmem' hQnd'' hQmem' hIC' hQC' hTopo'
        hFuel'

/-- Correctness of `_update_evaluation_order` under the structural
invariants: the produced order lists every node exactly once and puts every
adjacency-edge source before its target. -/
theorem update_evaluation_order_spec (g : DependencyGraph)
    (hkeys : (nodeKeys g).Nodup)
    (hAS : AdjSound g) (hAC : AdjComplete g) (hDN : DepsNodup g)
    (hAVN : AdjValsNodup g) (hAcyc : ¬ HasCycleAdj g.adjacency_list) :
    (_update_evaluation_order g).Nodup ∧
    (∀ k, k ∈ _update_evaluation_order g ↔
      (alLookup g.nodes k).isSome = true) ∧
    (∀ a b, b ∈ adjGet g.adjacency_list a →
      (alLookup g.nodes a).isSome = true →
      (_update_evaluation_order g).indexOf a <
        (_update_evaluation_order g).indexOf b) := by
  by_cases hemp : (nodeKeys g).isEmpty = true
  · have hred : _update_evaluation_order g = [] := by
      unfold _update_evaluation_order
      rw [if_pos hemp]
    have hnil : g.nodes = [] := by
      unfold nodeKeys at hemp
      rw [List.isEmpty_iff_eq_nil] at hemp
      exact List.map_eq_nil.mp hemp
    rw [hred]
    refine ⟨List.nodup_nil, ?_, ?_⟩
    · intro k
      constructor
      · intro h
        exact absurd h (List.not_mem_nil k)
      · intro h
        rw [hnil] at h
        exact absurd h (by simp [alLookup])
    · intro a b hb has
      rw [hnil] at has
      exact absurd has (by simp [alLookup])
  · have hred : _update_evaluation_order g =
        kahnLoop g.nodes g.adjacency_list ((nodeKeys g).length + 1)
          ((nodeKeys g).filter (fun n => decide (idGet
            (g.nodes.map (fun p => (p.1, countFormulaDeps g.nodes p.2)))
            n = 0)))
          (g.nodes.map (fun p => (p.1, countFormulaDeps g.nodes p.2))) [] := by
      unfold _update_evaluation_order
      rw [if_neg hemp]
    rw [hred]
    have hIC0 : ∀ k n, alLookup g.nodes k = some n →
        idGet (g.nodes.map (fun p => (p.1, countFormulaDeps g.nodes p.2))) k =
        ((n.dependencies.filter (fun d => (alLookup g.nodes d).isSome &&
          decide (d ∉ ([] : List CellRef)))).length : Int) := by
      intro k n hkn
      unfold idGet
      rw [alLookup_mapVal (countFormulaDeps g.nodes) g.nodes k, hkn]
      show countFormulaDeps g.nodes n = _
      unfold countFormulaDeps
      have hfc : n.dependencies.filter
          (fun d => (alLookup g.nodes d).isSome &&
            decide (d ∉ ([] : List CellRef))) =
          n.dependencies.filter (fun d => (alLookup g.nodes d).isSome) := by
        apply List.filter_congr
        intro d _
        simp
      rw [hfc]
    refine kahnLoop_run g.nodes g.adjacency_list hAS hAC hDN hAVN hAcyc
      ((nodeKeys g).length + 1) _ _ [] List.nodup_nil
      (by intro r hr; exact absurd hr (List.not_mem_nil r))
      (List.Nodup.filter _ hkeys) ?_ hIC0 ?_
      (by intro a b _ _ hb; exact absurd hb (List.not_mem_nil b)) ?_
    · intro q hq
      have hq' := List.mem_filter.mp hq
      exact ⟨(alLookup_isSome_iff_mem _ _).mpr hq'.1,
        List.not_mem_nil q⟩
    · intro k hks _
      rw [List.mem_filter]
      constructor
      · intro hk
        exact of_decide_eq_true hk.2
      · intro h0
        exact ⟨(alLookup_isSome_iff_mem _ _).mp hks, decide_eq_true h0⟩
    · unfold nodeKeys
      rw [List.length_map]
      simp

/-- The strengthened invariant holding when no cell is ever replaced. -/
structure DInv (g : DependencyGraph) : Prop where
  gi : GInv g
  adjComplete : AdjComplete g
  depsNodup : DepsNodup g
  adjValsNodup : AdjValsNodup g
  orderEq : g._evaluation_order = _update_evaluation_order g

theorem adjValsNodup_fold (c : CellRef) :
    ∀ (ds : List CellRef) (m : List (CellRef × List CellRef)),
      (∀ d, (adjGet m d).Nodup) →
      ∀ d, (adjGet (ds.foldl (fun a dep => adjAdd a dep c) m) d).Nodup := by
  intro ds
  induction ds with
  | nil => intro m h; exact h
  | cons dep ds ih =>
    intro m h
    simp only [List.foldl_cons]
    apply ih
    intro d
    by_cases hd : dep = d
    · subst hd
      rw [adjGet_adjAdd_self]
      exact setInsert_nodup (h dep) c
    · rw [adjGet_adjAdd_ne _ _ _ _ hd]
      exact h d

/-- The D-components after a successful insertion. -/
theorem add_core_DInv (gR : DependencyGraph)
    (hAC : AdjComplete gR) (hDN : DepsNodup gR) (hAVN : AdjValsNodup gR)
    (c : CellRef) (node : FormulaNode) (ds' : List CellRef)
    (hnode_deps : node.dependencies = ds')
    (hds : ds'.Nodup) (hcn : alLookup gR.nodes c = Option.none)
    (gF : DependencyGraph)
    (hFn : gF.nodes = (ds'.foldl (addDepStep c)
      { gR with nodes := alSet gR.nodes c node }).nodes)
    (hFa : gF.adjacency_list = (ds'.foldl (addDepStep c)
      { gR with nodes := alSet gR.nodes c node }).adjacency_list) :
    AdjComplete gF ∧ DepsNodup gF ∧ AdjValsNodup gF := by
  obtain ⟨k3, n3spec⟩ := addDepFold_nodes c ds' hds
    { gR with nodes := alSet gR.nodes c node }
  have lookupIc : alLookup (alSet gR.nodes c node) c = some node :=
    alLookup_alSet_self _ _ _
  have adjF : ∀ d x, x ∈ adjGet gF.adjacency_list d ↔
      x ∈ adjGet gR.adjacency_list d ∨ (d ∈ ds' ∧ x = c) := by
    intro d x
    rw [hFa, addDepFold_adj]
    exact tempAdj_spec c ds' gR.adjacency_list d x
  refine ⟨?_, ?_, ?_⟩
  · intro x n hx d hd
    rw [hFn] at hx
    obtain ⟨nI, hI, e_deps, _, _, _⟩ := n3spec x n hx
    by_cases hxc : c = x
    · subst hxc
      have hnI : nI = node := by
        have hh := hI.symm.trans lookupIc
        injection hh
      rw [e_deps, hnI, hnode_deps] at hd
      exact (adjF d c).mpr (Or.inr ⟨hd, rfl⟩)
    · have hInd : alLookup gR.nodes x = some nI := by
        have := alLookup_alSet_ne gR.nodes c x node hxc
        rw [← this]
        exact hI
      rw [e_deps] at hd
      exact (adjF d x).mpr (Or.inl (hAC x nI hInd d hd))
  · intro x n hx
    rw [hFn] at hx
    obtain ⟨nI, hI, e_deps, _, _, _⟩ := n3spec x n hx
    by_cases hxc : c = x
    · subst hxc
      have hnI : nI = node := by
        have hh := hI.symm.trans lookupIc
        injection hh
      rw [e_deps, hnI, hnode_deps]
      exact hds
    · have hInd : alLookup gR.nodes x = some nI := by
        have := alLookup_alSet_ne gR.nodes c x node hxc
        rw [← this]
        exact hI
      rw [e_deps]
      exact hDN x nI hInd
  · intro d
    have : gF.adjacency_list =
        ds'.foldl (fun a dep => adjAdd a dep c) gR.adjacency_list := by
      rw [hFa, addDepFold_adj]
    rw [this]
    exact adjValsNodup_fold c ds' gR.adjacency_list hAVN d

theorem update_order_irrel (g : DependencyGraph) (v : List CellRef) :
    _update_evaluation_order { g with _evaluation_order := v } =
      _update_evaluation_order g := rfl

theorem addSuccessGraph_orderEq (g : DependencyGraph) (c : CellRef)
    (f : String) (ds : List CellRef) :
    (addSuccessGraph g c f ds)._evaluation_order =
      _update_evaluation_order (addSuccessGraph g c f ds) := rfl

theorem DInv_init : DInv initGraph := by
  refine ⟨GInv_init, ?_, ?_, ?_, ?_⟩
  · intro x n hx
    exact absurd hx (by simp [initGraph, alLookup])
  · intro x n hx
    exact absurd hx (by simp [initGraph, alLookup])
  · intro d
    simp [initGraph, adjGet, alLookup]
  · rfl

/-- Keys of the post-add graph come from the old graph or are the new
cell. -/
theorem add_formula_keys_sub (g : DependencyGraph) (c : CellRef) (f : String)
    (ds : List CellRef) :
    ∀ k ∈ nodeKeys (add_formula g c f ds).2, k ∈ nodeKeys g ∨ k = c := by
  have hRsub : ∀ k ∈ nodeKeys (removeIfPresent g c), k ∈ nodeKeys g := by
    unfold removeIfPresent
    by_cases hn : isNode g c
    · rw [if_pos hn]
      rcases h : alLookup g.nodes c with _ | node
      · have heq : _remove_node g c = g := by
          rw [_remove_node_eq, h]
        rw [heq]
        exact fun k hk => hk
      · intro k hk
        have heq : (_remove_node g c).nodes =
            (alErase (((alLookup (node.dependencies.foldl (rmDepStep c)
              g).nodes c).getD node).dependents.foldl (rmDepdStep c)
              (node.dependencies.foldl (rmDepStep c) g)).nodes c) := by
          rw [_remove_node_eq, h]
        unfold nodeKeys at hk
        rw [heq, alErase_keys] at hk
        have hk2 := (List.mem_filter.mp hk).1
        obtain ⟨_, f1_keys, _, _, _, _⟩ :=
          rmDepFold_spec c node.dependencies g
        obtain ⟨_, f2_keys, _⟩ := rmDepdFold_spec c
          ((alLookup (node.dependencies.foldl (rmDepStep c) g).nodes c).getD
            node).dependents
          (node.dependencies.foldl (rmDepStep c) g)
        rw [f2_keys, f1_keys] at hk2
        exact hk2
    · rw [if_neg hn]
      exact fun k hk => hk
  rw [add_formula_cases]
  by_cases hwc : _would_create_cycle (removeIfPresent g c) c (listToSet ds) = true
  · rw [if_pos hwc]
    intro k hk
    exact Or.inl (hRsub k hk)
  · rw [if_neg hwc]
    intro k hk
    obtain ⟨kk, n3spec⟩ := addDepFold_nodes c (listToSet ds)
      (listToSet_nodup ds)
      { removeIfPresent g c with
        nodes := (alSet (removeIfPresent g c).nodes c
          { cell_ref := c, formula := f, dependencies := listToSet ds,
            dependents := [] }) }
    unfold nodeKeys at hk
    rw [show (true, addSuccessGraph g c f ds).2 = addSuccessGraph g c f ds
      from rfl, addSuccessGraph_nodes, kk] at hk
    rw [show ({ removeIfPresent g c with
        nodes := (alSet (removeIfPresent g c).nodes c
          { cell_ref := c, formula := f, dependencies := listToSet ds,
            dependents := [] }) } : DependencyGraph).nodes =
      alSet (removeIfPresent g c).nodes c
        { cell_ref := c, formula := f, dependencies := listToSet ds,
          dependents := [] } from rfl] at hk
    rw [alSet_absent _ _ _ (removeIfPresent_lookup g c)] at hk
    rw [List.map_append, List.mem_append] at hk
    rcases hk with h | h
    · exact Or.inl (hRsub k h)
    · simp only [List.map_cons, List.map_nil, List.mem_singleton] at h
      exact Or.inr h

/-- Adding a formula at a fresh coordinate preserves the strengthened
invariant. -/
theorem add_fresh_DInv {g : DependencyGraph} (hD : DInv g) (c : CellRef)
    (f : String) (ds : List CellRef) (hfresh : isNode g c = false) :
    DInv (add_formula g c f ds).2 := by
  have hRP : removeIfPresent g c = g := by
    unfold removeIfPresent
    rw [hfresh]
    rfl
  have hGI : GInv (add_formula g c f ds).2 := add_formula_GInv hD.gi c f ds
  by_cases hwc : _would_create_cycle (removeIfPresent g c) c (listToSet ds) = true
  · have heq : (add_formula g c f ds).2 = g := by
      rw [add_formula_cases, if_pos hwc]
      exact hRP
    rw [heq]
    exact hD
  · have heq : (add_formula g c f ds).2 = addSuccessGraph g c f ds := by
      rw [add_formula_cases, if_neg hwc]
    rw [heq]
    obtain ⟨hAC', hDN', hAVN'⟩ := add_core_DInv (removeIfPresent g c)
      (by rw [hRP]; exact hD.adjComplete)
      (by rw [hRP]; exact hD.depsNodup)
      (by rw [hRP]; exact hD.adjValsNodup)
      c { cell_ref := c, formula := f, dependencies := listToSet ds,
          dependents := [] }
      (listToSet ds) rfl (listToSet_nodup ds) (removeIfPresent_lookup g c)
      (addSuccessGraph g c f ds) (addSuccessGraph_nodes g c f ds)
      (addSuccessGraph_adj g c f ds)
    exact ⟨heq ▸ hGI, hAC', hDN', hAVN', addSuccessGraph_orderEq g c f ds⟩

/-- Under pairwise-distinct coordinates the strengthened invariant holds
and every node key comes from the recorded operations. -/
theorem distinct_DInv :
    ∀ ops : List AddOp, (ops.map (fun op => op.cell)).Nodup →
      DInv (applyOps ops) ∧
      (∀ k ∈ nodeKeys (applyOps ops), k ∈ ops.map (fun op => op.cell)) := by
  intro ops
  induction ops using List.reverseRecOn with
  | nil =>
    intro _
    refine ⟨DInv_init, ?_⟩
    intro k hk
    exact absurd hk (by simp [applyOps, initGraph, nodeKeys])
  | append_singleton ops op ih =>
    intro hnd
    rw [List.map_append, List.nodup_append] at hnd
    obtain ⟨hnd1, _, hdisj⟩ := hnd
    obtain ⟨ihD, ihK⟩ := ih hnd1
    have happ : applyOps (ops ++ [op]) =
        (add_formula (applyOps ops) op.cell op.formula op.deps).2 := by
      unfold applyOps
      rw [List.foldl_append]
      rfl
    have hfresh : isNode (applyOps ops) op.cell = false := by
      rcases hb : isNode (applyOps ops) op.cell with _ | _
      · rfl
      · have hmem : op.cell ∈ nodeKeys (applyOps ops) :=
          (alLookup_isSome_iff_mem _ _).mp hb
        have := hdisj (ihK op.cell hmem)
        exact absurd (by simp : op.cell ∈ [op].map (fun op => op.cell)) this
    rw [happ]
    refine ⟨add_fresh_DInv ihD op.cell op.formula op.deps hfresh, ?_⟩
    intro k hk
    rcases add_formula_keys_sub (applyOps ops) op.cell op.formula op.deps
      k hk with h | h
    · rw [List.map_append]
      exact List.mem_append_left _ (ihK k h)
    · rw [List.map_append]
      apply List.mem_append_right
      simp [h]

/-- C2.  For every sequence of `add_formula` calls on pairwise-distinct
coordinates (an arbitrary set of formulas, one per cell), the evaluation
order returned by `get_evaluation_order` lists every node of the graph
exactly once, and for every formula-to-formula dependency edge the
dependency's index is strictly below the dependent's. -/
theorem C2_evaluation_order (ops : List AddOp)
    (hnd : (ops.map (fun op => op.cell)).Nodup) :
    (get_evaluation_order (applyOps ops)).Nodup ∧
    (∀ k, k ∈ get_evaluation_order (applyOps ops) ↔
      k ∈ nodeKeys (applyOps ops)) ∧
    (∀ N nN D, alLookup (applyOps ops).nodes N = some nN →
      D ∈ nN.dependencies → isNode (applyOps ops) D = true →
      (get_evaluation_order (applyOps ops)).indexOf D <
        (get_evaluation_order (applyOps ops)).indexOf N) := by
  obtain ⟨hD, _⟩ := distinct_DInv ops hnd
  have ho : get_evaluation_order (applyOps ops) =
      _update_evaluation_order (applyOps ops) := hD.orderEq
  obtain ⟨h1, h2, h3⟩ := update_evaluation_order_spec (applyOps ops)
    hD.gi.keysNodup hD.gi.adjSound hD.adjComplete hD.depsNodup
    hD.adjValsNodup hD.gi.acyclic
  rw [ho]
  refine ⟨h1, ?_, ?_⟩
  · intro k
    rw [h2 k]
    exact alLookup_isSome_iff_mem _ _
  · intro N nN D hN hDdep hDnode
    exact h3 D N (hD.adjComplete N nN hN D hDdep) hDnode

/-- Witness for C2 at the two-formula sequence `c5ops`. -/
theorem C2_evaluation_order_witness :
    (c5ops.map (fun op => op.cell)).Nodup ∧
    ((get_evaluation_order (applyOps c5ops)).Nodup ∧
     (∀ k, k ∈ get_evaluation_order (applyOps c5ops) ↔
       k ∈ nodeKeys (applyOps c5ops)) ∧
     (∀ N nN D, alLookup (applyOps c5ops).nodes N = some nN →
       D ∈ nN.dependencies → isNode (applyOps c5ops) D = true →
       (get_evaluation_order (applyOps c5ops)).indexOf D <
         (get_evaluation_order (applyOps c5ops)).indexOf N)) :=
  ⟨by decide, C2_evaluation_order c5ops (by decide)⟩
